import Mathlib

/-!
# Verification of the distributed string sorting core

A shallow embedding of the core algorithms of the distributed string
sorting repository (LCP loser tree merger, binary-tree median selection,
permutation application, distributed merge sort driver) together with
proofs and refutations of the specified properties.

Byte strings are modelled as `List Nat`: the list of bytes of the string
without the terminating NUL.  Reading a character position past the end
of the list yields `0`, which models the NUL terminator of the C
representation.  A well-formed string (`WfStr`) contains no embedded NUL
byte, matching the `unsigned char*` NUL-terminated strings of the code.
-/

namespace DSS

/-- A byte string: its list of bytes, without the terminating NUL. -/
abbrev Str := List Nat

/-- Character access of a NUL-terminated string: reading at or past the end
of the byte list yields the NUL byte `0`. -/
def chr (s : Str) (i : Nat) : Nat := s.getD i 0

/-- A well-formed byte string has no embedded NUL byte. -/
def WfStr (s : Str) : Prop := ∀ c ∈ s, c ≠ 0

instance (s : Str) : Decidable (WfStr s) := List.decidableBAll _ s

/-- `calc_lcp` of `stringtools`: length of the common prefix of two
NUL-terminated strings, scanning while the bytes are equal and nonzero. -/
def calcLcp : Str → Str → Nat
  | a :: as, b :: bs => if a = b ∧ a ≠ 0 then calcLcp as bs + 1 else 0
  | _, _ => 0

/-- `scmp` (three-way `strcmp`) on byte strings; the end of the list is the
terminating NUL, so a proper prefix compares less than the longer string. -/
def sCmp : Str → Str → Ordering
  | [], [] => .eq
  | [], _ :: _ => .lt
  | _ :: _, [] => .gt
  | a :: as, b :: bs => if a < b then .lt else if b < a then .gt else sCmp as bs

/-- `scmp(a, b) <= 0`. -/
def sLe (a b : Str) : Prop := sCmp a b ≠ .gt

/-- `scmp(a, b) < 0`. -/
def sLt (a b : Str) : Prop := sCmp a b = .lt

instance (a b : Str) : Decidable (sLe a b) :=
  inferInstanceAs (Decidable ¬ _ = _)
instance (a b : Str) : Decidable (sLt a b) :=
  inferInstanceAs (Decidable (_ = _))

@[simp]
theorem calcLcp_nil_left (b : Str) : calcLcp [] b = 0 := by cases b <;> rfl

@[simp]
theorem calcLcp_nil_right (a : Str) : calcLcp a [] = 0 := by cases a <;> rfl

theorem calcLcp_cons (a b : Nat) (as bs : Str) :
    calcLcp (a :: as) (b :: bs) =
      if a = b ∧ a ≠ 0 then calcLcp as bs + 1 else 0 := rfl

theorem calcLcp_comm (a b : Str) : calcLcp a b = calcLcp b a := by
  induction a generalizing b with
  | nil => simp
  | cons x as ih =>
    cases b with
    | nil => simp
    | cons y bs =>
      by_cases h : x = y
      · subst h
        rw [calcLcp_cons, calcLcp_cons]
        by_cases hz : x = 0
        · simp [hz]
        · simp [hz, ih]
      · rw [calcLcp_cons, calcLcp_cons, if_neg (fun hc => h hc.1),
          if_neg (fun hc => h hc.1.symm)]

theorem calcLcp_le_length_left (a b : Str) : calcLcp a b ≤ a.length := by
  induction a generalizing b with
  | nil => simp
  | cons x as ih =>
    cases b with
    | nil => simp
    | cons y bs =>
      rw [calcLcp_cons]
      split
      · simpa using ih bs
      · simp

theorem calcLcp_le_length_right (a b : Str) : calcLcp a b ≤ b.length := by
  rw [calcLcp_comm]; exact calcLcp_le_length_left b a

@[simp]
theorem chr_nil (i : Nat) : chr [] i = 0 := by simp [chr]

@[simp]
theorem chr_cons_zero (x : Nat) (s : Str) : chr (x :: s) 0 = x := rfl

@[simp]
theorem chr_cons_succ (x : Nat) (s : Str) (i : Nat) :
    chr (x :: s) (i + 1) = chr s i := rfl

theorem chr_drop (s : Str) (k i : Nat) : chr (s.drop k) i = chr s (k + i) := by
  induction k generalizing s with
  | zero => simp
  | succ k ih =>
    cases s with
    | nil => simp
    | cons x s =>
      rw [List.drop_succ_cons, ih, Nat.succ_add]
      simp

/-- Below the LCP, the two strings agree, and the common byte is not NUL. -/
theorem calcLcp_agree {a b : Str} {i : Nat} (h : i < calcLcp a b) :
    chr a i = chr b i ∧ chr a i ≠ 0 := by
  induction a generalizing b i with
  | nil => simp at h
  | cons x as ih =>
    cases b with
    | nil => simp at h
    | cons y bs =>
      rw [calcLcp_cons] at h
      split at h
      · rename_i hxy
        cases i with
        | zero => exact ⟨by simpa using hxy.1, by simpa using hxy.2⟩
        | succ i => exact ih (Nat.lt_of_succ_lt_succ h)
      · omega

/-- At the LCP position the scan has stopped: if the bytes there are still
equal, they are both NUL. -/
theorem calcLcp_stop {a b : Str} (h : chr a (calcLcp a b) = chr b (calcLcp a b)) :
    chr a (calcLcp a b) = 0 ∧ chr b (calcLcp a b) = 0 := by
  induction a generalizing b with
  | nil => simpa using h.symm
  | cons x as ih =>
    cases b with
    | nil =>
      refine ⟨by simpa using h, by simp⟩
    | cons y bs =>
      by_cases hxy : x = y ∧ x ≠ 0
      · rw [calcLcp_cons, if_pos hxy] at h ⊢
        simp only [chr_cons_succ] at h ⊢
        exact ih h
      · rw [calcLcp_cons, if_neg hxy] at h ⊢
        simp only [chr_cons_zero] at h ⊢
        subst h
        have hx0 : x = 0 := by
          by_contra hx
          exact hxy ⟨rfl, hx⟩
        exact ⟨hx0, hx0⟩

/-- If two strings agree on `l` nonzero bytes and differ at position `l`,
their LCP is exactly `l`. -/
theorem calcLcp_eq_of_agree {a b : Str} {l : Nat}
    (hag : ∀ i < l, chr a i = chr b i ∧ chr a i ≠ 0)
    (hne : chr a l ≠ chr b l) : calcLcp a b = l := by
  induction l generalizing a b with
  | zero =>
    cases a with
    | nil => simp
    | cons x as =>
      cases b with
      | nil => simp
      | cons y bs =>
        rw [calcLcp_cons, if_neg]
        intro hc
        exact hne (by simpa using hc.1)
  | succ l ih =>
    have h0 := hag 0 (Nat.succ_pos l)
    cases a with
    | nil => simp [chr] at h0
    | cons x as =>
      cases b with
      | nil => exact absurd h0.1 h0.2
      | cons y bs =>
        simp only [chr_cons_zero] at h0
        rw [calcLcp_cons, if_pos ⟨h0.1, h0.2⟩]
        rw [ih (fun i hi => by simpa using hag (i + 1) (by omega))
          (by simpa using hne)]

/-- The character comparison of `scmp` is decided at the LCP position. -/
theorem sCmp_eq_compare {a b : Str} (ha : WfStr a) (hb : WfStr b) :
    sCmp a b = compare (chr a (calcLcp a b)) (chr b (calcLcp a b)) := by
  induction a generalizing b with
  | nil =>
    cases b with
    | nil => rfl
    | cons y bs =>
      have hy : y ≠ 0 := hb y (by simp)
      simp only [sCmp, calcLcp_nil_left, chr_nil, chr_cons_zero]
      rw [Nat.compare_eq_lt.mpr (Nat.pos_of_ne_zero hy)]
  | cons x as ih =>
    cases b with
    | nil =>
      have hx : x ≠ 0 := ha x (by simp)
      simp only [sCmp, calcLcp_nil_right, chr_nil, chr_cons_zero]
      rw [Nat.compare_eq_gt.mpr (Nat.pos_of_ne_zero hx)]
    | cons y bs =>
      have hx : x ≠ 0 := ha x (by simp)
      by_cases hxy : x = y
      · subst hxy
        rw [calcLcp_cons, if_pos ⟨rfl, hx⟩]
        simp only [sCmp, chr_cons_succ]
        rw [if_neg (lt_irrefl x), if_neg (lt_irrefl x)]
        exact ih (fun c hc => ha c (by simp [hc]))
          (fun c hc => hb c (by simp [hc]))
      · rw [calcLcp_cons, if_neg (fun hc => hxy hc.1)]
        simp only [sCmp, chr_cons_zero]
        rcases Nat.lt_or_ge x y with h | h
        · rw [if_pos h, Nat.compare_eq_lt.mpr h]
        · have h' : y < x := lt_of_le_of_ne h (Ne.symm hxy)
          rw [if_neg (Nat.lt_asymm h'), if_pos h', Nat.compare_eq_gt.mpr h']

theorem sCmp_self (a : Str) : sCmp a a = .eq := by
  induction a with
  | nil => rfl
  | cons x as ih => simp [sCmp, ih]

theorem sCmp_eq_iff_eq {a b : Str} : sCmp a b = .eq ↔ a = b := by
  constructor
  · intro h
    induction a generalizing b with
    | nil => cases b with
      | nil => rfl
      | cons y bs => simp [sCmp] at h
    | cons x as ih =>
      cases b with
      | nil => simp [sCmp] at h
      | cons y bs =>
        simp only [sCmp] at h
        split at h
        · exact absurd h (by simp)
        · split at h
          · exact absurd h (by simp)
          · have : x = y := by omega
            rw [this, ih h]
  · rintro rfl; exact sCmp_self a

theorem sLe_refl (a : Str) : sLe a a := by simp [sLe, sCmp_self]

theorem sLe_of_eq {a b : Str} (h : a = b) : sLe a b := h ▸ sLe_refl a

theorem sCmp_lt_trans {a b c : Str} (h₁ : sCmp a b = .lt) (h₂ : sCmp b c = .lt) :
    sCmp a c = .lt := by
  induction a generalizing b c with
  | nil =>
    cases b with
    | nil => simp [sCmp] at h₁
    | cons y bs =>
      cases c with
      | nil => simp [sCmp] at h₂
      | cons z cs => simp [sCmp]
  | cons x as ih =>
    cases b with
    | nil => simp [sCmp] at h₁
    | cons y bs =>
      cases c with
      | nil => simp [sCmp] at h₂
      | cons z cs =>
        simp only [sCmp] at h₁ h₂ ⊢
        split at h₁
        · rename_i hxy
          split at h₂
          · rename_i hyz
            rw [if_pos (Nat.lt_trans hxy hyz)]
          · split at h₂
            · exact absurd h₂ (by simp)
            · have : y = z := by omega
              subst this
              rw [if_pos hxy]
        · split at h₁
          · exact absurd h₁ (by simp)
          · have hxy : x = y := by omega
            subst hxy
            split at h₂
            · rename_i hxz
              rw [if_pos hxz]
            · split at h₂
              · exact absurd h₂ (by simp)
              · have : x = z := by omega
                subst this
                rw [if_neg (lt_irrefl x), if_neg (lt_irrefl x)]
                exact ih h₁ h₂

theorem sCmp_swap (x y : Str) : sCmp y x = (sCmp x y).swap := by
  induction x generalizing y with
  | nil => cases y <;> rfl
  | cons u us ih =>
    cases y with
    | nil => rfl
    | cons v vs =>
      simp only [sCmp]
      by_cases h1 : u < v
      · simp [h1, Nat.lt_asymm h1, Ordering.swap]
      · by_cases h2 : v < u
        · simp [h1, h2, Ordering.swap]
        · have huv : u = v := by omega
          subst huv
          simp [ih vs]

theorem sLt_iff_not_sLe {a b : Str} : sLt a b ↔ ¬ sLe b a := by
  rw [sLt, sLe, sCmp_swap b a]
  cases sCmp b a <;> simp [Ordering.swap]

theorem sLe_iff_not_sLt {a b : Str} : sLe a b ↔ ¬ sLt b a := by
  rw [sLt_iff_not_sLe, not_not]

theorem sLt_of_sLe_ne {a b : Str} (h : sLe a b) (hne : sCmp a b ≠ .eq) : sLt a b := by
  rw [sLe] at h
  rw [sLt]
  cases hc : sCmp a b
  · rfl
  · exact absurd hc hne
  · exact absurd hc h

theorem sLe_trans {a b c : Str} (h₁ : sLe a b) (h₂ : sLe b c) : sLe a c := by
  by_cases hab : sCmp a b = .eq
  · rw [sCmp_eq_iff_eq.mp hab]; exact h₂
  by_cases hbc : sCmp b c = .eq
  · rw [← sCmp_eq_iff_eq.mp hbc]; exact h₁
  have := sCmp_lt_trans (sLt_of_sLe_ne h₁ hab) (sLt_of_sLe_ne h₂ hbc)
  simp [sLe, this]

theorem sLt_of_sLe_of_sLt {a b c : Str} (h₁ : sLe a b) (h₂ : sLt b c) : sLt a c := by
  by_cases hab : sCmp a b = .eq
  · rw [sCmp_eq_iff_eq.mp hab]; exact h₂
  · exact sCmp_lt_trans (sLt_of_sLe_ne h₁ hab) h₂

theorem sLe_of_sLt {a b : Str} (h : sLt a b) : sLe a b := by
  simp [sLe, sLt.eq_1 a b ▸ h]

theorem sLe_total (a b : Str) : sLe a b ∨ sLe b a := by
  by_cases h : sLe a b
  · exact .inl h
  · exact .inr (sLe_of_sLt (sLt_iff_not_sLe.mpr h))

/-- A prefix is `scmp`-below any extension. -/
theorem sLe_of_isPrefix {p s : Str} (h : p <+: s) : sLe p s := by
  obtain ⟨t, rfl⟩ := h
  induction p with
  | nil =>
    cases t with
    | nil => exact sLe_refl []
    | cons x xs => simp [sLe, sCmp]
  | cons x ps ih =>
    simpa [sLe, sCmp] using ih

/-- The LCP of a string with one of its NUL-free prefixes is the prefix length. -/
theorem calcLcp_isPrefix {p s : Str} (hp : WfStr p) (h : p <+: s) :
    calcLcp s p = p.length := by
  obtain ⟨t, rfl⟩ := h
  induction p with
  | nil => simp
  | cons x ps ih =>
    have hx : x ≠ 0 := hp x (by simp)
    rw [List.cons_append, calcLcp_cons, if_pos ⟨rfl, hx⟩,
      ih (fun c hc => hp c (by simp [hc]))]
    rfl

theorem WfStr.chr_ne_zero {s : Str} (hs : WfStr s) {i : Nat} (hi : i < s.length) :
    chr s i ≠ 0 := by
  rw [chr, List.getD_eq_getElem s 0 hi]
  exact hs _ (List.getElem_mem hi)

theorem chr_eq_zero_of_le {s : Str} {i : Nat} (hi : s.length ≤ i) : chr s i = 0 :=
  List.getD_eq_default s 0 hi

theorem WfStr.chr_eq_zero_iff {s : Str} (hs : WfStr s) {i : Nat} :
    chr s i = 0 ↔ s.length ≤ i := by
  constructor
  · intro h
    by_contra hlt
    exact hs.chr_ne_zero (by omega) h
  · exact chr_eq_zero_of_le

/-- `calcLcp` with a NUL-free string of maximal length: self-LCP is the length. -/
theorem calcLcp_self {a : Str} (ha : WfStr a) : calcLcp a a = a.length := by
  induction a with
  | nil => simp
  | cons x as ih =>
    rw [calcLcp_cons, if_pos ⟨rfl, ha x (by simp)⟩,
      ih (fun c hc => ha c (by simp [hc]))]
    rfl

/-- Two NUL-free strings that agree up to a position where both have ended
are equal. -/
theorem eq_of_agree_zero {a b : Str} (ha : WfStr a) (hb : WfStr b) {l : Nat}
    (hag : ∀ i < l, chr a i = chr b i)
    (haz : chr a l = 0) (hbz : chr b l = 0) : a = b := by
  have hal : a.length ≤ l := ha.chr_eq_zero_iff.mp haz
  have hbl : b.length ≤ l := hb.chr_eq_zero_iff.mp hbz
  have hlen : a.length = b.length := by
    rcases Nat.lt_trichotomy a.length b.length with h | h | h
    · have h1 := hag a.length (by omega)
      have hz : chr a a.length = 0 := chr_eq_zero_of_le (le_refl _)
      rw [hz] at h1
      exact absurd h1.symm (hb.chr_ne_zero h)
    · exact h
    · have h1 := hag b.length (by omega)
      have hz : chr b b.length = 0 := chr_eq_zero_of_le (le_refl _)
      rw [hz] at h1
      exact absurd h1 (ha.chr_ne_zero h)
  apply List.ext_getElem hlen
  intro i h1 h2
  have h3 := hag i (by omega)
  rw [chr, chr, List.getD_eq_getElem _ _ h1, List.getD_eq_getElem _ _ h2] at h3
  exact h3

/-- Anti-symmetry of `sLe` on byte strings. -/
theorem sLe_antisymm {a b : Str} (h₁ : sLe a b) (h₂ : sLe b a) : a = b := by
  apply sCmp_eq_iff_eq.mp
  cases hc : sCmp a b
  · exact absurd h₂ (sLt_iff_not_sLe.mp hc)
  · rfl
  · exact absurd hc h₁

end DSS

namespace DSS

/-- The character scan of `updateNode` starting at a position `l` of verified
agreement computes the full LCP. -/
theorem scanFrom_eq_calcLcp {a b : Str} {l : Nat}
    (hag : ∀ i < l, chr a i = chr b i ∧ chr a i ≠ 0) :
    l + calcLcp (a.drop l) (b.drop l) = calcLcp a b := by
  induction l generalizing a b with
  | zero => simp
  | succ l ih =>
    have h0 := hag 0 (Nat.succ_pos l)
    cases a with
    | nil => simp [chr] at h0
    | cons x as =>
      cases b with
      | nil => exact absurd h0.1 h0.2
      | cons y bs =>
        simp only [chr_cons_zero] at h0
        have hag2 : ∀ i < l, chr as i = chr bs i ∧ chr as i ≠ 0 := by
          intro i hi
          simpa using hag (i + 1) (by omega)
        have hih := ih hag2
        rw [List.drop_succ_cons, List.drop_succ_cons, calcLcp_cons,
          if_pos ⟨h0.1, h0.2⟩]
        omega

theorem sLt_iff_chr_lt {a b : Str} (ha : WfStr a) (hb : WfStr b) :
    sLt a b ↔ chr a (calcLcp a b) < chr b (calcLcp a b) := by
  rw [sLt, sCmp_eq_compare ha hb, Nat.compare_eq_lt]

theorem sLe_chr_le {a b : Str} (ha : WfStr a) (hb : WfStr b) (h : sLe a b) :
    chr a (calcLcp a b) ≤ chr b (calcLcp a b) := by
  rw [sLe, sCmp_eq_compare ha hb] at h
  rcases Nat.lt_or_ge (chr b (calcLcp a b)) (chr a (calcLcp a b)) with hc | hc
  · exact absurd (Nat.compare_eq_gt.mpr hc) h
  · exact hc

/-- CASE 2 of `updateNode`: two strings at or above a common reference `r`;
the one agreeing with `r` strictly longer is strictly smaller, and the LCP of
the two strings is the smaller of the two reference LCPs. -/
theorem lcp_ref_lt {r a b : Str} (ha : WfStr a) (hb : WfStr b) (hr : WfStr r)
    (hra : sLe r a) (hrb : sLe r b)
    (hlt : calcLcp b r < calcLcp a r) :
    sLt a b ∧ calcLcp a b = calcLcp b r := by
  have hne : chr b (calcLcp b r) ≠ chr r (calcLcp b r) := by
    intro hc
    have hstop := calcLcp_stop (a := b) (b := r) hc
    have h2 := (calcLcp_agree (a := a) (b := r) hlt).2
    rw [(calcLcp_agree (a := a) (b := r) hlt).1] at h2
    exact h2 hstop.2
  have hrblt : chr r (calcLcp b r) < chr b (calcLcp b r) := by
    have hle := sLe_chr_le hr hb hrb
    rw [calcLcp_comm r b] at hle
    omega
  have hab : chr a (calcLcp b r) = chr r (calcLcp b r) := (calcLcp_agree hlt).1
  have hag : ∀ i < calcLcp b r, chr a i = chr b i ∧ chr a i ≠ 0 := by
    intro i hi
    have h1 := calcLcp_agree (a := a) (b := r) (Nat.lt_trans hi hlt)
    have h2 := calcLcp_agree (a := b) (b := r) hi
    exact ⟨by rw [h1.1, h2.1], h1.2⟩
  have hlcp : calcLcp a b = calcLcp b r := calcLcp_eq_of_agree hag (by omega)
  refine ⟨?_, hlcp⟩
  rw [sLt_iff_chr_lt ha hb, hlcp]
  omega

/-- The equal-LCP case of `updateNode`: below the common reference LCP the two
strings agree on nonzero bytes. -/
theorem lcp_ref_agree {r a b : Str} {l : Nat}
    (hla : calcLcp a r = l) (hlb : calcLcp b r = l) :
    ∀ i < l, chr a i = chr b i ∧ chr a i ≠ 0 := by
  intro i hi
  have h1 := calcLcp_agree (a := a) (b := r) (hla ▸ hi)
  have h2 := calcLcp_agree (a := b) (b := r) (hlb ▸ hi)
  exact ⟨by rw [h1.1, h2.1], h1.2⟩

/-- Monotonicity of the LCP along the sorted order: for `r₁ ≤ r₂ ≤ h`,
the LCP of `h` with `r₁` is at most the LCP of `h` with `r₂`. -/
theorem calcLcp_mono_ref {r₁ r₂ h : Str} (h1 : WfStr r₁) (h2 : WfStr r₂)
    (hh : WfStr h) (h12 : sLe r₁ r₂) (h2h : sLe r₂ h) :
    calcLcp h r₁ ≤ calcLcp h r₂ := by
  by_contra hc
  push_neg at hc
  have hne : chr r₂ (calcLcp h r₂) ≠ chr h (calcLcp h r₂) := by
    intro he
    have hstop := calcLcp_stop (a := h) (b := r₂) he.symm
    have hz := (calcLcp_agree (a := h) (b := r₁) hc).2
    exact hz hstop.1
  have hlt : chr r₂ (calcLcp h r₂) < chr h (calcLcp h r₂) := by
    have hle := sLe_chr_le h2 hh h2h
    rw [calcLcp_comm r₂ h] at hle
    omega
  have he1 : chr h (calcLcp h r₂) = chr r₁ (calcLcp h r₂) := (calcLcp_agree hc).1
  have hag : ∀ i < calcLcp h r₂, chr r₁ i = chr r₂ i ∧ chr r₁ i ≠ 0 := by
    intro i hi
    have ha := calcLcp_agree (a := h) (b := r₁) (Nat.lt_trans hi hc)
    have hb := calcLcp_agree (a := h) (b := r₂) hi
    refine ⟨by rw [← ha.1, hb.1], ?_⟩
    rw [← ha.1]
    exact hb.2
  have h12lcp : calcLcp r₁ r₂ = calcLcp h r₂ := calcLcp_eq_of_agree hag (by omega)
  have hbig : sLt r₂ r₁ := by
    rw [sLt_iff_chr_lt h2 h1, calcLcp_comm r₂ r₁, h12lcp]
    omega
  exact (sLt_iff_not_sLe.mp hbig) h12

end DSS

namespace DSS

/-! ## The LCP loser tree (`dss_schimek::LcpStringLoserTree_`)

Streams are modelled as lists of entries; an entry carries the string and
its LCP-array value (`firstLcp()` when the entry is at the head of the
stream).  The `K + 1` stream and node array slots are modelled as functions
from `Nat`; slot `0` (never written by the constructor, since streams are
numbered 1..K) holds the empty stream and the zero node, standing for the
default values of the C++ member arrays, which the constructor leaves
unwritten. -/

/-- One entry of a merge input stream: the string and its LCP array value. -/
structure Ent where
  s : Str
  f : Nat
deriving DecidableEq

/-- An internal node of the loser tree: `{winner-stream-idx, lcp}`. -/
structure Node where
  idx : Nat
  lcp : Nat
deriving DecidableEq

/-- Pointwise update of an array-as-function. -/
def upd {α : Type} (f : Nat → α) (i : Nat) (x : α) : Nat → α :=
  fun j => if j = i then x else f j

@[simp]
theorem upd_same {α : Type} (f : Nat → α) (i : Nat) (x : α) : upd f i x i = x := by
  simp [upd]

theorem upd_other {α : Type} (f : Nat → α) {i j : Nat} (x : α) (h : j ≠ i) :
    upd f i x j = f j := by
  simp [upd, h]

/-- `updateNode`: play one comparison between the climbing `contender` `c`
and the stored `defender` `d`; returns the new `(contender, defender)` pair.
Empty defender stream: no change; empty contender stream: swap; then the
three LCP cases, with a character scan from offset `lcp` in the equal case
(`calcLcp` on the dropped suffixes is exactly the scan
`while (*s1 != 0 && *s1 == *s2)`). -/
def updateNode (streams : Nat → List Ent) (c d : Node) : Node × Node :=
  match streams d.idx with
  | [] => (c, d)
  | de :: _ =>
    match streams c.idx with
    | [] => (d, c)
    | ce :: _ =>
      if d.lcp > c.lcp then (d, c)
      else if d.lcp = c.lcp then
        let ds := de.s.drop d.lcp
        let cs := ce.s.drop c.lcp
        let n := calcLcp ds cs
        if chr ds n < chr cs n then (d, { idx := c.idx, lcp := d.lcp + n })
        else (c, { idx := d.idx, lcp := d.lcp + n })
      else (c, d)

/-- `updateNodeCompressedPrefix`: identical to `updateNode` except that the
character comparison offsets are shifted down by each stream's head LCP
(`firstStringChars() + (lcp - firstLcp())`); the stored strings are the
suffixes after the head LCP.  (In C++ the offset subtraction is on `size_t`;
the equivalence proof below establishes `lcp ≥ firstLcp` at every scan, so
the truncated `Nat` subtraction used here agrees with it.) -/
def updateNodeC (streams : Nat → List Ent) (c d : Node) : Node × Node :=
  match streams d.idx with
  | [] => (c, d)
  | de :: _ =>
    match streams c.idx with
    | [] => (d, c)
    | ce :: _ =>
      if d.lcp > c.lcp then (d, c)
      else if d.lcp = c.lcp then
        let ds := de.s.drop (d.lcp - de.f)
        let cs := ce.s.drop (c.lcp - ce.f)
        let n := calcLcp ds cs
        if chr ds n < chr cs n then (d, { idx := c.idx, lcp := d.lcp + n })
        else (c, { idx := d.idx, lcp := d.lcp + n })
      else (c, d)

/-- The inner `while` loop of `initTree`: while the node index is even and
greater than 2, halve it and play the stored node there. -/
def initClimb (streams : Nat → List Ent) (c : Node) (nodes : Nat → Node)
    (n : Nat) : Node × (Nat → Node) × Nat :=
  if h : n % 2 = 0 ∧ n > 2 then
    let p := updateNode streams c (nodes (n / 2))
    initClimb streams p.1 (upd nodes (n / 2) p.2) (n / 2)
  else (c, nodes, n)
termination_by n
decreasing_by omega

/-- One iteration of the `initTree` loop: insert stream `k` with starting
LCP `knownCommonLcp`, playing up along even node indices, then store the
surviving contender at `(nodeIdx + 1) / 2`. -/
def initInsert (K kl : Nat) (streams : Nat → List Ent) (nodes : Nat → Node)
    (k : Nat) : Nat → Node :=
  let r := initClimb streams { idx := k, lcp := kl } nodes (K + k)
  upd r.2.1 ((r.2.2 + 1) / 2) r.1

/-- `initTree(knownCommonLcp)`: insert streams 1..K in order. -/
def initTree (K kl : Nat) (streams : Nat → List Ent) : Nat → Node :=
  (List.range K).foldl (fun nodes k => initInsert K kl streams nodes (k + 1))
    (fun _ => { idx := 0, lcp := 0 })

/-- The loser tree state: the `K + 1` streams and nodes. -/
structure LT where
  streams : Nat → List Ent
  nodes : Nat → Node

/-- The `LcpStringLoserTree_` constructor for `K` runs numbered 1..K. -/
def mkLT (K kl : Nat) (runs : Nat → List Ent) : LT :=
  let streams := fun k => if 1 ≤ k ∧ k ≤ K then runs k else []
  { streams := streams, nodes := initTree K kl streams }

/-- The replay `while` loop of `writeElementsToStream`, parameterised by the
node-update routine (`updateNode` for the plain overload,
`updateNodeCompressedPrefix` for the compressed-prefix overload): from
`nodeIdx = winnerIdx + K`, climb `nodeIdx = (nodeIdx + 1) / 2` while
`nodeIdx > 2`, playing one match per level. -/
def replayClimbWith (upN : (Nat → List Ent) → Node → Node → Node × Node)
    (streams : Nat → List Ent) (c : Node) (nodes : Nat → Node) (n : Nat) :
    Node × (Nat → Node) :=
  if h : n > 2 then
    let p := upN streams c (nodes ((n + 1) / 2))
    replayClimbWith upN streams p.1 (upd nodes ((n + 1) / 2) p.2) ((n + 1) / 2)
  else (c, nodes)
termination_by n
decreasing_by omega

/-- One iteration of the output loop of `writeElementsToStream`: emit the
winner's head string with `nodes[1].lcp` (the third output component records
`streams[winnerIdx].firstLcp()`, the `oldLcps` entry written by the
compressed-prefix overload; the plain overload emits only the first two),
advance the winner stream, refresh the contender's LCP from the new head if
the stream is non-empty, and replay up the tree. -/
def emitStepWith (upN : (Nat → List Ent) → Node → Node → Node × Node)
    (K : Nat) (st : LT) : (Str × Nat × Nat) × LT :=
  let w := (st.nodes 1).idx
  let he := (st.streams w).headD { s := [], f := 0 }
  let out := (he.s, (st.nodes 1).lcp, he.f)
  let streams2 := upd st.streams w ((st.streams w).tail)
  let c0 : Node :=
    match streams2 w with
    | [] => st.nodes 1
    | e :: _ => { idx := w, lcp := e.f }
  let r := replayClimbWith upN streams2 c0 st.nodes (w + K)
  (out, { streams := streams2, nodes := upd r.2 1 r.1 })

/-- The output loop of `writeElementsToStream`, run for `len` emissions. -/
def writeElemsWith (upN : (Nat → List Ent) → Node → Node → Node × Node)
    (K : Nat) (st : LT) : Nat → List (Str × Nat × Nat) × LT
  | 0 => ([], st)
  | len + 1 =>
    let r := emitStepWith upN K st
    let rest := writeElemsWith upN K r.2 len
    (r.1 :: rest.1, rest.2)

/-- The plain `writeElementsToStream(outStream, length)` overload. -/
def writeElems (K : Nat) (st : LT) (len : Nat) : List (Str × Nat × Nat) × LT :=
  writeElemsWith updateNode K st len

/-- The compressed-prefix `writeElementsToStream(outStream, length, oldLcps)`
overload. -/
def writeElemsC (K : Nat) (st : LT) (len : Nat) : List (Str × Nat × Nat) × LT :=
  writeElemsWith updateNodeC K st len

/-- Merge `K` runs: construct the tree, then emit `len` strings (plain). -/
def loserTreeMerge (K kl : Nat) (runs : Nat → List Ent) (len : Nat) :
    List (Str × Nat × Nat) :=
  (writeElems K (mkLT K kl runs) len).1

/-- Merge `K` runs with the compressed-prefix overload. -/
def loserTreeMergeC (K kl : Nat) (runs : Nat → List Ent) (len : Nat) :
    List (Str × Nat × Nat) :=
  (writeElemsC K (mkLT K kl runs) len).1

end DSS

namespace DSS

/-! ## Tree structure of the loser tree

The node slots `2..K` of the C++ array form a tournament tree when viewed
through the shifted index `h = slot - 1`: leaves are `h ∈ [K, 2K)` (leaf
`h` holds stream `h + 1 - K`), the parent of `h` is `h / 2`, the root is
`h = 1`, and the replay loop `nodeIdx = (nodeIdx + 1) / 2` walks exactly
this parent chain.  Membership of a leaf in a subtree is division-based:
`a` lies under `v` iff `a / 2^j = v` for some `j`. -/

/-- `a` is in the subtree rooted at `v` (in shifted-index coordinates). -/
def under (v a : Nat) : Prop := ∃ j, a / 2 ^ j = v

theorem under_refl (v : Nat) : under v v := ⟨0, by simp⟩

theorem under_left {v a : Nat} (h : under (2 * v) a) : under v a := by
  obtain ⟨j, hj⟩ := h
  exact ⟨j + 1, by rw [pow_succ, ← Nat.div_div_eq_div_mul, hj]; omega⟩

theorem under_right {v a : Nat} (h : under (2 * v + 1) a) : under v a := by
  obtain ⟨j, hj⟩ := h
  exact ⟨j + 1, by rw [pow_succ, ← Nat.div_div_eq_div_mul, hj]; omega⟩

theorem under_split {K v a : Nat} (hv : v < K) (ha : K ≤ a) (h : under v a) :
    under (2 * v) a ∨ under (2 * v + 1) a := by
  obtain ⟨j, hj⟩ := h
  cases j with
  | zero => simp at hj; omega
  | succ j =>
    rw [pow_succ, ← Nat.div_div_eq_div_mul] at hj
    have hb : a / 2 ^ j = 2 * v ∨ a / 2 ^ j = 2 * v + 1 := by omega
    rcases hb with hb | hb
    · exact .inl ⟨j, hb⟩
    · exact .inr ⟨j, hb⟩

theorem under_leaf_eq {K v a : Nat} (hv : K ≤ v) (haK : K ≤ a) (ha : a < 2 * K)
    (h : under v a) : a = v := by
  obtain ⟨j, hj⟩ := h
  cases j with
  | zero => simpa using hj
  | succ j =>
    exfalso
    have h1 : a / 2 ^ (j + 1) ≤ a / 2 :=
      Nat.div_le_div_left (by have := Nat.one_le_two_pow (n := j); omega) (by omega)
    omega

theorem div_two_pow_le (a d : Nat) (hd : 1 ≤ d) : a / 2 ^ d ≤ a / 2 := by
  have h2 : (2 : Nat) ≤ 2 ^ d := by
    calc (2 : Nat) = 2 ^ 1 := (pow_one 2).symm
    _ ≤ 2 ^ d := Nat.pow_le_pow_right (by norm_num) hd
  exact Nat.div_le_div_left h2 (by norm_num)

theorem under_disjoint {v a : Nat} (hv : 1 ≤ v)
    (h1 : under (2 * v) a) (h2 : under (2 * v + 1) a) : False := by
  obtain ⟨i, hi⟩ := h1
  obtain ⟨j, hj⟩ := h2
  rcases Nat.lt_trichotomy i j with h | h | h
  · have heq : a / 2 ^ j = a / 2 ^ i / 2 ^ (j - i) := by
      rw [Nat.div_div_eq_div_mul, ← pow_add]
      congr 2
      omega
    rw [hi] at heq
    have hle : 2 * v / 2 ^ (j - i) ≤ 2 * v / 2 := div_two_pow_le _ _ (by omega)
    have hv2 : 2 * v / 2 = v := by omega
    omega
  · rw [h] at hi
    omega
  · have heq : a / 2 ^ i = a / 2 ^ j / 2 ^ (i - j) := by
      rw [Nat.div_div_eq_div_mul, ← pow_add]
      congr 2
      omega
    rw [hj] at heq
    have hle : (2 * v + 1) / 2 ^ (i - j) ≤ (2 * v + 1) / 2 := div_two_pow_le _ _ (by omega)
    have hv2 : (2 * v + 1) / 2 = v := by omega
    omega

/-- The head entry of a stream. -/
def heads (streams : Nat → List Ent) (k : Nat) : Option Ent :=
  (streams k).head?

/-- Order on optional stream heads: an exhausted stream is `+∞`. -/
def oLe : Option Ent → Option Ent → Prop
  | _, none => True
  | none, some _ => False
  | some e1, some e2 => sLe e1.s e2.s

theorem oLe_refl (o : Option Ent) : oLe o o := by
  cases o with
  | none => exact trivial
  | some e => exact sLe_refl e.s

theorem oLe_trans {o1 o2 o3 : Option Ent} (h1 : oLe o1 o2) (h2 : oLe o2 o3) :
    oLe o1 o3 := by
  cases o3 with
  | none => cases o1 <;> exact trivial
  | some e3 =>
    cases o2 with
    | none => exact h2.elim
    | some e2 =>
      cases o1 with
      | none => exact h1.elim
      | some e1 => exact sLe_trans h1 h2

/-- The stored-loser LCP condition at node slot `v + 1`: when both the
winner's and the stored stream's heads exist, the stored LCP is their true
LCP (the second assertion of `updateNode`). -/
def lcpOK (streams : Nat → List Ent) (nodes : Nat → Node) (v w : Nat) : Prop :=
  ∀ e1 e2, heads streams w = some e1 →
    heads streams ((nodes (v + 1)).idx) = some e2 →
    (nodes (v + 1)).lcp = calcLcp e1.s e2.s

/-- The tournament invariant: `Sub streams nodes K v w` states that the
subtree rooted at shifted index `v` is well-formed with overall winner
stream `w`: each internal node stores the loser of the match of its
children's winners, the winner's head is at most the loser's head, and the
stored LCP is the true LCP of the two heads. -/
inductive Sub (streams : Nat → List Ent) (nodes : Nat → Node) (K : Nat) :
    Nat → Nat → Prop
  | leaf (h : Nat) : K ≤ h → h < 2 * K → Sub streams nodes K h (h + 1 - K)
  | node (v wl wr w : Nat) :
      1 ≤ v → v < K →
      Sub streams nodes K (2 * v) wl →
      Sub streams nodes K (2 * v + 1) wr →
      (w = wl ∧ (nodes (v + 1)).idx = wr ∨ w = wr ∧ (nodes (v + 1)).idx = wl) →
      oLe (heads streams w) (heads streams ((nodes (v + 1)).idx)) →
      lcpOK streams nodes v w →
      Sub streams nodes K v w

/-- The winner of a subtree is a stream of that subtree. -/
theorem Sub.top_mem {streams nodes K v w} (h : Sub streams nodes K v w) :
    1 ≤ w ∧ w ≤ K ∧ under v (w + K - 1) := by
  induction h with
  | leaf h hK h2K =>
    refine ⟨by omega, by omega, ?_⟩
    have : h + 1 - K + K - 1 = h := by omega
    rw [this]
    exact under_refl h
  | node v wl wr w h1 hvK hl hr hw hle hlcp ihl ihr =>
    rcases hw with ⟨rfl, _⟩ | ⟨rfl, _⟩
    · exact ⟨ihl.1, ihl.2.1, under_left ihl.2.2⟩
    · exact ⟨ihr.1, ihr.2.1, under_right ihr.2.2⟩

/-- The winner of a subtree has the least head among its streams. -/
theorem Sub.top_min {streams nodes K v w} (h : Sub streams nodes K v w) :
    ∀ k, 1 ≤ k → k ≤ K → under v (k + K - 1) →
      oLe (heads streams w) (heads streams k) := by
  induction h with
  | leaf h hK h2K =>
    intro k hk1 hkK hu
    have : k + K - 1 = h := under_leaf_eq hK (by omega) (by omega) hu
    have : k = h + 1 - K := by omega
    rw [this]
    exact oLe_refl _
  | node v wl wr w h1 hvK hl hr hw hle hlcp ihl ihr =>
    intro k hk1 hkK hu
    rcases under_split hvK (by omega) hu with hu' | hu'
    · rcases hw with ⟨rfl, hst⟩ | ⟨rfl, hst⟩
      · exact ihl k hk1 hkK hu'
      · exact oLe_trans hle (hst ▸ ihl k hk1 hkK hu')
    · rcases hw with ⟨rfl, hst⟩ | ⟨rfl, hst⟩
      · exact oLe_trans hle (hst ▸ ihr k hk1 hkK hu')
      · exact ihr k hk1 hkK hu'

/-- Frame rule: `Sub` only depends on the streams and node slots of its own
subtree. -/
theorem Sub.frame {streams streams2 : Nat → List Ent} {nodes nodes2 : Nat → Node}
    {K v w : Nat} (h : Sub streams nodes K v w)
    (hs : ∀ k, 1 ≤ k → k ≤ K → under v (k + K - 1) → streams2 k = streams k)
    (hn : ∀ u, 1 ≤ u → u < K → under v u → nodes2 (u + 1) = nodes (u + 1)) :
    Sub streams2 nodes2 K v w := by
  induction h with
  | leaf h hK h2K => exact .leaf h hK h2K
  | node v wl wr w h1 hvK hl hr hw hle hlcp ihl ihr =>
    have hsl : ∀ k, 1 ≤ k → k ≤ K → under (2 * v) (k + K - 1) → streams2 k = streams k :=
      fun k a b c => hs k a b (under_left c)
    have hsr : ∀ k, 1 ≤ k → k ≤ K → under (2 * v + 1) (k + K - 1) → streams2 k = streams k :=
      fun k a b c => hs k a b (under_right c)
    have hnl : ∀ u, 1 ≤ u → u < K → under (2 * v) u → nodes2 (u + 1) = nodes (u + 1) :=
      fun u a b c => hn u a b (under_left c)
    have hnr : ∀ u, 1 ≤ u → u < K → under (2 * v + 1) u → nodes2 (u + 1) = nodes (u + 1) :=
      fun u a b c => hn u a b (under_right c)
    have hnv : nodes2 (v + 1) = nodes (v + 1) := hn v h1 hvK (under_refl v)
    have hwm := (Sub.node v wl wr w h1 hvK hl hr hw hle hlcp).top_mem
    have hstm : 1 ≤ (nodes (v + 1)).idx ∧ (nodes (v + 1)).idx ≤ K ∧
        under v ((nodes (v + 1)).idx + K - 1) := by
      rcases hw with ⟨_, hst⟩ | ⟨_, hst⟩
      · exact hst ▸ ⟨hr.top_mem.1, hr.top_mem.2.1, under_right hr.top_mem.2.2⟩
      · exact hst ▸ ⟨hl.top_mem.1, hl.top_mem.2.1, under_left hl.top_mem.2.2⟩
    have hsw : streams2 w = streams w := hs w hwm.1 hwm.2.1 hwm.2.2
    have hsst : streams2 ((nodes (v + 1)).idx) = streams ((nodes (v + 1)).idx) :=
      hs _ hstm.1 hstm.2.1 hstm.2.2
    refine Sub.node v wl wr w h1 hvK (ihl hsl hnl) (ihr hsr hnr) ?_ ?_ ?_
    · rw [hnv]
      exact hw
    · rw [hnv]
      show oLe (heads streams2 w) (heads streams2 ((nodes (v+1)).idx))
      rw [heads, heads, hsw, hsst]
      exact hle
    · intro e1 e2 h1' h2'
      rw [hnv] at h2' ⊢
      rw [heads, hsw] at h1'
      rw [heads, hsst] at h2'
      exact hlcp e1 e2 h1' h2'

end DSS

namespace DSS

/-! ## The match lemma for `updateNode` -/

/-- All strings of all streams are NUL-free. -/
def WfStreams (streams : Nat → List Ent) : Prop :=
  ∀ k, ∀ e ∈ streams k, WfStr e.s

/-- Replay premise for one node: if its stream is non-empty, its LCP field
is the true LCP of the stream head with the reference string `ρ` (the
previously emitted string, or the shared prefix of all strings right after
initialisation), and `ρ` is at most the head. -/
def NodeRef (streams : Nat → List Ent) (ρ : Str) (nd : Node) : Prop :=
  ∀ e, heads streams nd.idx = some e → sLe ρ e.s ∧ nd.lcp = calcLcp e.s ρ

/-- Loser LCP postcondition of a match (the second assertion of
`updateNode`): the defender's LCP is the true LCP of the two heads. -/
def loserLcpOK (streams : Nat → List Ent) (c d : Node) : Prop :=
  ∀ e1 e2, heads streams c.idx = some e1 → heads streams d.idx = some e2 →
    d.lcp = calcLcp e1.s e2.s

theorem heads_eq_some {streams : Nat → List Ent} {k : Nat} {e : Ent} {rest : List Ent}
    (h : streams k = e :: rest) : heads streams k = some e := by
  rw [heads, h]
  rfl

/-- The match lemma: one `updateNode` game between nodes whose LCP fields
are true LCPs against a common reference `ρ` below both heads produces a
pair `(contender, defender)` whose indices are the two input indices, whose
contender again satisfies the reference premise, whose contender head is at
most the defender head (first assertion), and whose defender LCP is the
true LCP of the two heads (second assertion). -/
theorem updateNode_spec {streams : Nat → List Ent} {ρ : Str} {c d : Node}
    (hwf : WfStreams streams) (hρ : WfStr ρ)
    (hc : NodeRef streams ρ c) (hd : NodeRef streams ρ d) :
    ((updateNode streams c d).1.idx = c.idx ∧ (updateNode streams c d).2.idx = d.idx ∨
      (updateNode streams c d).1.idx = d.idx ∧ (updateNode streams c d).2.idx = c.idx) ∧
    NodeRef streams ρ (updateNode streams c d).1 ∧
    oLe (heads streams (updateNode streams c d).1.idx)
      (heads streams (updateNode streams c d).2.idx) ∧
    loserLcpOK streams (updateNode streams c d).1 (updateNode streams c d).2 := by
  cases hdd : streams d.idx with
  | nil =>
    have hres : updateNode streams c d = (c, d) := by
      simp only [updateNode, hdd]
    rw [hres]
    refine ⟨.inl ⟨rfl, rfl⟩, hc, ?_, ?_⟩
    · have : heads streams d.idx = none := by rw [heads, hdd]; rfl
      rw [this]
      cases heads streams c.idx <;> exact trivial
    · intro e1 e2 h1 h2
      rw [heads, hdd] at h2
      exact absurd h2 (by simp)
  | cons de drest =>
    cases hcc : streams c.idx with
    | nil =>
      have hres : updateNode streams c d = (d, c) := by
        simp only [updateNode, hdd, hcc]
      rw [hres]
      refine ⟨.inr ⟨rfl, rfl⟩, hd, ?_, ?_⟩
      · have : heads streams c.idx = none := by rw [heads, hcc]; rfl
        rw [this]
        cases heads streams d.idx <;> exact trivial
      · intro e1 e2 h1 h2
        rw [heads, hcc] at h2
        exact absurd h2 (by simp)
    | cons ce crest =>
      have hde : heads streams d.idx = some de := heads_eq_some hdd
      have hce : heads streams c.idx = some ce := heads_eq_some hcc
      have hwfd : WfStr de.s := hwf d.idx de (by rw [hdd]; exact List.mem_cons_self _ _)
      have hwfc : WfStr ce.s := hwf c.idx ce (by rw [hcc]; exact List.mem_cons_self _ _)
      obtain ⟨hρd, hdl⟩ := hd de hde
      obtain ⟨hρc, hcl⟩ := hc ce hce
      rcases Nat.lt_trichotomy c.lcp d.lcp with hlt | heq | hgt
      · -- CASE 2: defender.lcp > contender.lcp, defender wins, swap
        have hres : updateNode streams c d = (d, c) := by
          simp only [updateNode, hdd, hcc]
          rw [if_pos (by omega)]
        obtain ⟨hslt, hlcp⟩ := lcp_ref_lt hwfd hwfc hρ hρd hρc (by omega)
        rw [hres]
        refine ⟨.inr ⟨rfl, rfl⟩, hd, ?_, ?_⟩
        · rw [hde, hce]
          exact sLe_of_sLt hslt
        · intro e1 e2 h1 h2
          rw [hde] at h1
          rw [hce] at h2
          cases h1
          cases h2
          rw [hcl, ← hlcp]
      · -- CASE 1: equal LCPs, character scan
        have hag : ∀ i < d.lcp, chr de.s i = chr ce.s i ∧ chr de.s i ≠ 0 :=
          lcp_ref_agree hdl.symm (heq ▸ hcl).symm
        have hscan : d.lcp + calcLcp (de.s.drop d.lcp) (ce.s.drop d.lcp)
            = calcLcp de.s ce.s := scanFrom_eq_calcLcp hag
        have hchr1 : chr (de.s.drop d.lcp) (calcLcp (de.s.drop d.lcp) (ce.s.drop d.lcp))
            = chr de.s (calcLcp de.s ce.s) := by
          rw [chr_drop, hscan]
        have hchr2 : chr (ce.s.drop d.lcp) (calcLcp (de.s.drop d.lcp) (ce.s.drop d.lcp))
            = chr ce.s (calcLcp de.s ce.s) := by
          rw [chr_drop, hscan]
        by_cases hcmp : chr (de.s.drop d.lcp) (calcLcp (de.s.drop d.lcp) (ce.s.drop d.lcp))
            < chr (ce.s.drop d.lcp) (calcLcp (de.s.drop d.lcp) (ce.s.drop d.lcp))
        · -- CASE 1.1: defender character smaller, swap
          have hres : updateNode streams c d =
              (d, { idx := c.idx,
                    lcp := d.lcp + calcLcp (de.s.drop d.lcp) (ce.s.drop d.lcp) }) := by
            simp only [updateNode, hdd, hcc]
            rw [heq, if_neg (lt_irrefl d.lcp), if_pos rfl, if_pos hcmp]
          rw [hres]
          refine ⟨.inr ⟨rfl, rfl⟩, hd, ?_, ?_⟩
          · rw [hde, hce]
            show sLe de.s ce.s
            apply sLe_of_sLt
            rw [sLt_iff_chr_lt hwfd hwfc]
            rw [hchr1, hchr2] at hcmp
            exact hcmp
          · intro e1 e2 h1 h2
            rw [hde] at h1
            rw [hce] at h2
            cases h1
            cases h2
            exact hscan
        · -- CASE 1.2: no swap
          have hres : updateNode streams c d =
              (c, { idx := d.idx,
                    lcp := d.lcp + calcLcp (de.s.drop d.lcp) (ce.s.drop d.lcp) }) := by
            simp only [updateNode, hdd, hcc]
            rw [heq, if_neg (lt_irrefl d.lcp), if_pos rfl, if_neg hcmp]
          rw [hres]
          refine ⟨.inl ⟨rfl, rfl⟩, hc, ?_, ?_⟩
          · rw [hde, hce]
            show sLe ce.s de.s
            rw [sLe_iff_not_sLt, sLt_iff_chr_lt hwfd hwfc]
            rw [hchr1, hchr2] at hcmp
            exact hcmp
          · intro e1 e2 h1 h2
            rw [hce] at h1
            rw [hde] at h2
            cases h1
            cases h2
            rw [calcLcp_comm ce.s de.s, ← hscan]
      · -- CASE 3: defender.lcp < contender.lcp, nothing changes
        have hres : updateNode streams c d = (c, d) := by
          simp only [updateNode, hdd, hcc]
          rw [if_neg (by omega), if_neg (by omega)]
        obtain ⟨hslt, hlcp⟩ := lcp_ref_lt hwfc hwfd hρ hρc hρd (by omega)
        rw [hres]
        refine ⟨.inl ⟨rfl, rfl⟩, hc, ?_, ?_⟩
        · rw [hde, hce]
          exact sLe_of_sLt hslt
        · intro e1 e2 h1 h2
          rw [hce] at h1
          rw [hde] at h2
          cases h1
          cases h2
          rw [hdl, ← hlcp]

end DSS

namespace DSS

theorem under_ge {v a : Nat} (h : under v a) : v ≤ a := by
  obtain ⟨j, hj⟩ := h
  calc v = a / 2 ^ j := hj.symm
  _ ≤ a := Nat.div_le_self a _

theorem under_half {u a : Nat} (h : under u a) (hne : a ≠ u) : under u (a / 2) := by
  obtain ⟨j, hj⟩ := h
  cases j with
  | zero => simp at hj; exact absurd hj hne
  | succ j =>
    refine ⟨j, ?_⟩
    rw [← hj, Nat.div_div_eq_div_mul, ← pow_succ' 2 j]

theorem under_one {a : Nat} (h : 1 ≤ a) : under 1 a := by
  induction a using Nat.strong_induction_on with
  | _ a ih =>
    rcases Nat.lt_or_ge a 2 with h2 | h2
    · have : a = 1 := by omega
      exact this ▸ under_refl 1
    · obtain ⟨j, hj⟩ := ih (a / 2) (by omega) (by omega)
      exact ⟨j + 1, by rw [pow_succ', ← Nat.div_div_eq_div_mul, hj]⟩

/-- The sibling of a tree index. -/
def sib (h : Nat) : Nat := if h % 2 = 0 then h + 1 else h - 1

theorem sib_split {h : Nat} (h2 : 2 ≤ h) :
    (2 * (h / 2) = h ∧ sib h = h + 1) ∨ (2 * (h / 2) + 1 = h ∧ sib h = h - 1) := by
  rw [sib]
  rcases Nat.even_or_odd h with he | ho
  · left
    have : h % 2 = 0 := Nat.even_iff.mp he
    rw [if_pos this]
    omega
  · right
    have : h % 2 = 1 := Nat.odd_iff.mp ho
    rw [if_neg (by omega)]
    omega

/-- The replay premises along the ancestor chain from `h` up to `v`: at each
step, the parent slot stores the top of the sibling subtree, and that stored
node is LCP-correct against the reference `ρ`. -/
def PathOK (streams : Nat → List Ent) (nodes : Nat → Node) (K : Nat) (ρ : Str)
    (h v : Nat) : Prop :=
  if h ≤ v then True
  else Sub streams nodes K (sib h) ((nodes (h / 2 + 1)).idx) ∧
    NodeRef streams ρ (nodes (h / 2 + 1)) ∧
    PathOK streams nodes K ρ (h / 2) v
termination_by h
decreasing_by omega

theorem PathOK_stop {streams nodes K ρ} {h v : Nat} (hle : h ≤ v) :
    PathOK streams nodes K ρ h v := by
  rw [PathOK, if_pos hle]
  trivial

theorem PathOK_peel {streams nodes K ρ} {h v : Nat} (hgt : v < h)
    (h1 : PathOK streams nodes K ρ h v) :
    Sub streams nodes K (sib h) ((nodes (h / 2 + 1)).idx) ∧
      NodeRef streams ρ (nodes (h / 2 + 1)) ∧
      PathOK streams nodes K ρ (h / 2) v := by
  rw [PathOK, if_neg (by omega)] at h1
  exact h1

theorem PathOK_cons {streams nodes K ρ} {h v : Nat} (hgt : v < h)
    (hsib : Sub streams nodes K (sib h) ((nodes (h / 2 + 1)).idx))
    (hnr : NodeRef streams ρ (nodes (h / 2 + 1)))
    (hrest : PathOK streams nodes K ρ (h / 2) v) :
    PathOK streams nodes K ρ h v := by
  rw [PathOK, if_neg (by omega)]
  exact ⟨hsib, hnr, hrest⟩

/-- Extend a chain of replay premises one step past its upper end. -/
theorem PathOK_glue {streams nodes K ρ} {a u : Nat} (hu : 2 ≤ u) (ha : under u a)
    (h : PathOK streams nodes K ρ a u)
    (hsib : Sub streams nodes K (sib u) ((nodes (u / 2 + 1)).idx))
    (hnr : NodeRef streams ρ (nodes (u / 2 + 1))) :
    PathOK streams nodes K ρ a (u / 2) := by
  induction a using Nat.strong_induction_on with
  | _ a ih =>
    have hua : u ≤ a := under_ge ha
    by_cases hau : a = u
    · subst hau
      exact PathOK_cons (by omega) hsib hnr (PathOK_stop (le_refl _))
    · have hgt : u < a := by omega
      obtain ⟨hs, hn, hrest⟩ := PathOK_peel hgt h
      exact PathOK_cons (by omega) hs hn
        (ih (a / 2) (by omega) (under_half ha hau) hrest)

/-- Decompose the whole-tree invariant along the path from the champion's
leaf to the root: the champion won every match on its path, so each stored
node on the path is the top of the corresponding sibling subtree, with its
LCP taken against the champion's head `ρ`. -/
theorem Sub_decompose {streams nodes K ρ} {v w : Nat}
    (h : Sub streams nodes K v w)
    {eW : Ent} (heW : heads streams w = some eW) (hρ : eW.s = ρ) :
    PathOK streams nodes K ρ (w + K - 1) v := by
  induction h with
  | leaf h hK h2K =>
    have : h + 1 - K + K - 1 = h := by omega
    rw [this]
    exact PathOK_stop (le_refl _)
  | node v wl wr w h1 hvK hl hr hw hle hlcp ihl ihr =>
    have hnr : NodeRef streams ρ (nodes (v + 1)) := by
      intro e he
      rw [heW] at hle
      rw [he] at hle
      constructor
      · exact hρ ▸ hle
      · rw [hlcp eW e heW he, hρ, calcLcp_comm]
    rcases hw with ⟨rfl, hst⟩ | ⟨rfl, hst⟩
    · have ihl' := ihl heW
      have hmem := hl.top_mem
      have hglue := PathOK_glue (u := 2 * v) (by omega) hmem.2.2 ihl' ?_ ?_
      · have hdiv : 2 * v / 2 = v := by omega
        rw [hdiv] at hglue
        exact hglue
      · have hsib : sib (2 * v) = 2 * v + 1 := by
          rw [sib, if_pos (by omega)]
        have hdiv : 2 * v / 2 + 1 = v + 1 := by omega
        rw [hsib, hdiv, hst]
        exact hr
      · have hdiv : 2 * v / 2 + 1 = v + 1 := by omega
        rw [hdiv]
        exact hnr
    · have ihr' := ihr heW
      have hmem := hr.top_mem
      have hglue := PathOK_glue (u := 2 * v + 1) (by omega) hmem.2.2 ihr' ?_ ?_
      · have hdiv : (2 * v + 1) / 2 = v := by omega
        rw [hdiv] at hglue
        exact hglue
      · have hsib : sib (2 * v + 1) = 2 * v := by
          rw [sib, if_neg (by omega)]
          omega
        have hdiv : (2 * v + 1) / 2 + 1 = v + 1 := by omega
        rw [hsib, hdiv, hst]
        exact hl
      · have hdiv : (2 * v + 1) / 2 + 1 = v + 1 := by omega
        rw [hdiv]
        exact hnr

end DSS

namespace DSS

theorem under_div2 {v a : Nat} (h : under v a) : under (v / 2) a := by
  obtain ⟨j, hj⟩ := h
  refine ⟨j + 1, ?_⟩
  rw [pow_succ, ← Nat.div_div_eq_div_mul, hj]

theorem under_sib_disjoint {g a : Nat} (hg : 2 ≤ g)
    (h1 : under g a) (h2 : under (sib g) a) : False := by
  rcases sib_split hg with ⟨he, hs⟩ | ⟨ho, hs⟩
  · rw [hs] at h2
    rw [← he] at h1
    have : 2 * (g / 2) + 1 = g + 1 := by omega
    rw [← this] at h2
    exact under_disjoint (by omega) h1 h2
  · rw [hs] at h2
    rw [← ho] at h1
    have : 2 * (g / 2) = g - 1 := by omega
    rw [← this] at h2
    exact under_disjoint (by omega) h2 h1

/-- Advancing the champion's stream does not disturb the replay premises
along the champion's own path: every sibling subtree and every stored node
on the path avoids the champion's stream. -/
theorem PathOK_frame_streams {streams streams2 : Nat → List Ent}
    {nodes : Nat → Node} {K : Nat} {ρ : Str} {w0 : Nat}
    (hs : ∀ k, k ≠ w0 → streams2 k = streams k) :
    ∀ a v, 1 ≤ v → under a (w0 + K - 1) → PathOK streams nodes K ρ a v →
      PathOK streams2 nodes K ρ a v := by
  intro a
  induction a using Nat.strong_induction_on with
  | _ a ih =>
    intro v hv hu hp
    by_cases hav : a ≤ v
    · exact PathOK_stop hav
    · have ha2 : 2 ≤ a := by omega
      obtain ⟨hsib, hnr, hrest⟩ := PathOK_peel (by omega) hp
      refine PathOK_cons (by omega) ?_ ?_ ?_
      · refine hsib.frame ?_ (fun u _ _ _ => rfl)
        intro k hk1 hkK hku
        refine hs k ?_
        rintro rfl
        exact under_sib_disjoint ha2 hu hku
      · intro e he
        have hidx := hsib.top_mem
        have hne : (nodes (a / 2 + 1)).idx ≠ w0 := by
          rintro hEq
          rw [hEq] at hidx
          exact under_sib_disjoint ha2 hu hidx.2.2
        rw [heads, hs _ hne, ← heads] at he
        exact hnr e he
      · exact ih (a / 2) (by omega) v hv (under_div2 hu) hrest

/-- Updating the node slot at the current bottom of the climb does not
disturb the replay premises above it. -/
theorem PathOK_frame_nodes {streams : Nat → List Ent} {nodes nodes2 : Nat → Node}
    {K : Nat} {ρ : Str} :
    ∀ g v, 1 ≤ v → PathOK streams nodes K ρ g v →
      (∀ u, ¬ under g u → nodes2 (u + 1) = nodes (u + 1)) →
      PathOK streams nodes2 K ρ g v := by
  intro g
  induction g using Nat.strong_induction_on with
  | _ g ih =>
    intro v hv hp hn
    by_cases hgv : g ≤ v
    · exact PathOK_stop hgv
    · have hg2 : 2 ≤ g := by omega
      obtain ⟨hsib, hnr, hrest⟩ := PathOK_peel (by omega) hp
      have hslot : nodes2 (g / 2 + 1) = nodes (g / 2 + 1) := by
        refine hn (g / 2) ?_
        intro hc
        have := under_ge hc
        omega
      refine PathOK_cons (by omega) ?_ ?_ ?_
      · rw [hslot]
        refine hsib.frame (fun _ _ _ _ => rfl) ?_
        intro u hu1 huK huu
        refine hn u ?_
        intro hc
        exact under_sib_disjoint hg2 hc huu
      · rw [hslot]
        exact hnr
      · refine ih (g / 2) (by omega) v hv hrest ?_
        intro u hc
        refine hn u ?_
        intro hc2
        exact hc (under_div2 hc2)

/-- The replay climb: starting from a rebuilt subtree at `h` with the
contender as its top, with intact replay premises along the ancestors of
`h`, the loop of `writeElementsToStream` restores the whole-tree invariant
with the final contender as champion. -/
theorem replayClimb_spec {streams : Nat → List Ent} {K : Nat} {ρ : Str}
    (hwf : WfStreams streams) (hρ : WfStr ρ) :
    ∀ h c nodes, 1 ≤ h → h < 2 * K →
      Sub streams nodes K h c.idx →
      NodeRef streams ρ c →
      PathOK streams nodes K ρ h 1 →
      Sub streams (replayClimbWith updateNode streams c nodes (h + 1)).2 K 1
          (replayClimbWith updateNode streams c nodes (h + 1)).1.idx ∧
        NodeRef streams ρ (replayClimbWith updateNode streams c nodes (h + 1)).1 := by
  intro h
  induction h using Nat.strong_induction_on with
  | _ h ih =>
    intro c nodes h1 h2K hsub hnr hp
    by_cases hh1 : h = 1
    · subst hh1
      rw [replayClimbWith, dif_neg (by omega)]
      exact ⟨hsub, hnr⟩
    · have hh2 : 2 ≤ h := by omega
      have hstep : replayClimbWith updateNode streams c nodes (h + 1) =
          replayClimbWith updateNode streams
            (updateNode streams c (nodes (h / 2 + 1))).1
            (upd nodes (h / 2 + 1) (updateNode streams c (nodes (h / 2 + 1))).2)
            (h / 2 + 1) := by
        rw [replayClimbWith, dif_pos (by omega)]
        have : (h + 1 + 1) / 2 = h / 2 + 1 := by omega
        rw [this]
      obtain ⟨hsib, hnrd, hrest⟩ := PathOK_peel (by omega) hp
      obtain ⟨hperm, hnrc', hole, hllcp⟩ :=
        updateNode_spec (c := c) (d := nodes (h / 2 + 1)) hwf hρ hnr hnrd
      set p := updateNode streams c (nodes (h / 2 + 1)) with hpdef
      set nodes2 := upd nodes (h / 2 + 1) p.2 with hn2def
      -- frame the two child subtrees to the updated node array
      have hframe_cond : ∀ u, 1 ≤ u → u < K → under h u →
          nodes2 (u + 1) = nodes (u + 1) := by
        intro u hu1 huK huu
        refine upd_other nodes p.2 ?_
        have := under_ge huu
        omega
      have hframe_cond2 : ∀ u, 1 ≤ u → u < K → under (sib h) u →
          nodes2 (u + 1) = nodes (u + 1) := by
        intro u hu1 huK huu
        refine upd_other nodes p.2 ?_
        have hge := under_ge huu
        intro hc
        have hu2 : u = h / 2 := by omega
        subst hu2
        rcases sib_split hh2 with ⟨he, hs⟩ | ⟨ho, hs⟩ <;> rw [hs] at hge <;> omega
      have hsub2 : Sub streams nodes2 K h c.idx :=
        hsub.frame (fun _ _ _ _ => rfl) hframe_cond
      have hsib2 : Sub streams nodes2 K (sib h) ((nodes (h / 2 + 1)).idx) :=
        hsib.frame (fun _ _ _ _ => rfl) hframe_cond2
      -- rebuild the parent subtree with the match result
      have hnodes2v : nodes2 (h / 2 + 1) = p.2 := upd_same _ _ _
      have hparent : Sub streams nodes2 K (h / 2) p.1.idx := by
        rcases sib_split hh2 with ⟨he, hs⟩ | ⟨ho, hs⟩
        · -- h is the left child
          refine Sub.node (h / 2) c.idx ((nodes (h / 2 + 1)).idx) p.1.idx
            (by omega) (by omega) (by rw [he]; exact hsub2) ?_ ?_ ?_ ?_
          · have : 2 * (h / 2) + 1 = sib h := by omega
            rw [this]
            exact hsib2
          · rw [hnodes2v]
            rcases hperm with ⟨hc1, hd1⟩ | ⟨hc1, hd1⟩
            · exact .inl ⟨hc1.symm ▸ rfl, hd1⟩
            · exact .inr ⟨hc1.symm ▸ rfl, hd1⟩
          · rw [hnodes2v]
            exact hole
          · intro e1 e2 hh1' hh2'
            rw [hnodes2v] at hh2' ⊢
            exact hllcp e1 e2 hh1' hh2'
        · -- h is the right child
          refine Sub.node (h / 2) ((nodes (h / 2 + 1)).idx) c.idx p.1.idx
            (by omega) (by omega) ?_ (by rw [ho]; exact hsub2) ?_ ?_ ?_
          · have : 2 * (h / 2) = sib h := by omega
            rw [this]
            exact hsib2
          · rw [hnodes2v]
            rcases hperm with ⟨hc1, hd1⟩ | ⟨hc1, hd1⟩
            · exact .inr ⟨hc1.symm ▸ rfl, hd1⟩
            · exact .inl ⟨hc1.symm ▸ rfl, hd1⟩
          · rw [hnodes2v]
            exact hole
          · intro e1 e2 hh1' hh2'
            rw [hnodes2v] at hh2' ⊢
            exact hllcp e1 e2 hh1' hh2'
      -- the remaining path premises survive the slot update
      have hrest2 : PathOK streams nodes2 K ρ (h / 2) 1 := by
        refine PathOK_frame_nodes (h / 2) 1 (by omega) hrest ?_
        intro u hc
        refine upd_other nodes p.2 ?_
        intro heq
        have hu2 : u = h / 2 := by omega
        exact hc (hu2 ▸ under_refl (h / 2))
      rw [hstep]
      exact ih (h / 2) (by omega) p.1 nodes2 (by omega) (by omega)
        hparent hnrc' hrest2

end DSS

namespace DSS

/-! ## The merge loop invariant -/

/-- Well-formedness of one input run: NUL-free strings, non-decreasing
order, each LCP entry is the LCP with the predecessor, and the first LCP
entry is `0` (the `lcp[0] == 0` convention). -/
def RunWF (run : List Ent) : Prop :=
  (∀ e ∈ run, WfStr e.s) ∧
  List.Chain' (fun e1 e2 => sLe e1.s e2.s ∧ e2.f = calcLcp e2.s e1.s) run ∧
  (∀ e, run.head? = some e → e.f = 0)

theorem chain'_drop {α : Type} {R : α → α → Prop} {l : List α}
    (h : List.Chain' R l) (t : Nat) : List.Chain' R (l.drop t) := by
  induction t generalizing l with
  | zero => exact h
  | succ t ih =>
    cases l with
    | nil => exact List.chain'_nil
    | cons x xs =>
      rw [List.drop_succ_cons]
      exact ih (List.Chain'.tail h)

/-- The state invariant between two emissions of `writeElementsToStream`:
`ρ` is the reference string (the last emitted string; right after
construction, the common prefix witnessing `knownCommonLcp`).  -/
structure Inv (K : Nat) (runs : Nat → List Ent) (st : LT) (ρ : Str) : Prop where
  wfρ : WfStr ρ
  sub : Sub st.streams st.nodes K 1 ((st.nodes 1).idx)
  champ : NodeRef st.streams ρ (st.nodes 1)
  suffix : ∀ k, 1 ≤ k → k ≤ K → ∃ t, st.streams k = (runs k).drop t
  outside : ∀ k, ¬(1 ≤ k ∧ k ≤ K) → st.streams k = []
  rhole : ∀ k e, heads st.streams k = some e → sLe ρ e.s ∧ e.f ≤ calcLcp e.s ρ

theorem Inv.wfStreams {K runs st ρ} (hrun : ∀ k, 1 ≤ k → k ≤ K → RunWF (runs k))
    (hinv : Inv K runs st ρ) : WfStreams st.streams := by
  intro k e he
  by_cases hk : 1 ≤ k ∧ k ≤ K
  · obtain ⟨t, ht⟩ := hinv.suffix k hk.1 hk.2
    rw [ht] at he
    exact (hrun k hk.1 hk.2).1 e (List.mem_of_mem_drop he)
  · rw [hinv.outside k hk] at he
    exact absurd he (by simp)

/-- A non-empty stream set has a non-empty champion stream. -/
theorem champion_some {K runs st ρ} (hinv : Inv K runs st ρ)
    {k : Nat} {e : Ent} (hk : heads st.streams k = some e) :
    ∃ eW, heads st.streams ((st.nodes 1).idx) = some eW := by
  have hk1 : 1 ≤ k ∧ k ≤ K := by
    by_contra hc
    rw [heads, hinv.outside k hc] at hk
    exact absurd hk (by simp)
  have hmin := hinv.sub.top_min k hk1.1 hk1.2 (under_one (by omega))
  cases hW : heads st.streams ((st.nodes 1).idx) with
  | none =>
    rw [hW, hk] at hmin
    exact hmin.elim
  | some eW => exact ⟨eW, rfl⟩

/-- The concatenation of streams 1..K (used for the permutation argument). -/
def streamsConcat (K : Nat) (streams : Nat → List Ent) : List Ent :=
  match K with
  | 0 => []
  | K + 1 => streamsConcat K streams ++ streams (K + 1)

theorem streamsConcat_congr {K : Nat} {s1 s2 : Nat → List Ent}
    (h : ∀ k, 1 ≤ k → k ≤ K → s1 k = s2 k) :
    streamsConcat K s1 = streamsConcat K s2 := by
  induction K with
  | zero => rfl
  | succ K ih =>
    rw [streamsConcat, streamsConcat, ih (fun k a b => h k a (by omega)),
      h (K + 1) (by omega) (le_refl _)]

theorem streamsConcat_advance {K w : Nat} {streams : Nat → List Ent} {eW : Ent}
    {rest : List Ent} (hw1 : 1 ≤ w) (hwK : w ≤ K) (hw : streams w = eW :: rest) :
    (streamsConcat K streams).Perm (eW :: streamsConcat K (upd streams w rest)) := by
  induction K with
  | zero => omega
  | succ K ih =>
    by_cases hwk : w = K + 1
    · subst hwk
      rw [streamsConcat, streamsConcat, hw, upd_same,
        @streamsConcat_congr _ _ streams (fun k hk1 hkK => upd_other _ _ (by omega))]
      exact List.perm_middle
    · have hKw : w ≤ K := by omega
      rw [streamsConcat, streamsConcat, upd_other _ _ (by omega)]
      exact (ih hKw).append_right (streams (K + 1))

theorem streamsConcat_mem {K : Nat} {streams : Nat → List Ent}
    (hne : streamsConcat K streams ≠ []) :
    ∃ k e, 1 ≤ k ∧ k ≤ K ∧ heads streams k = some e := by
  induction K with
  | zero => exact absurd rfl hne
  | succ K ih =>
    rw [streamsConcat] at hne
    by_cases hK : streams (K + 1) = []
    · rw [hK, List.append_nil] at hne
      obtain ⟨k, e, h1, h2, h3⟩ := ih hne
      exact ⟨k, e, h1, by omega, h3⟩
    · cases hs : streams (K + 1) with
      | nil => exact absurd hs hK
      | cons e r =>
        exact ⟨K + 1, e, by omega, le_refl _, by rw [heads, hs]; rfl⟩

/-- The per-emission output contract, threaded through the reference string:
each emitted string is at least the previous one, its emitted LCP is the
true LCP with the previous one, and its `oldLcps` entry (the head LCP of
its stream) is at most that LCP. -/
def OutOK (ρ : Str) : List (Str × Nat × Nat) → Prop
  | [] => True
  | t :: rest => sLe ρ t.1 ∧ t.2.1 = calcLcp t.1 ρ ∧ t.2.2 ≤ t.2.1 ∧ OutOK t.1 rest

end DSS

namespace DSS

theorem emit_core {K : Nat} {runs : Nat → List Ent} {st : LT} {ρ : Str}
    (hrun : ∀ k, 1 ≤ k → k ≤ K → RunWF (runs k))
    (hinv : Inv K runs st ρ)
    {eW : Ent} (hne : heads st.streams ((st.nodes 1).idx) = some eW)
    {rest : List Ent} (hrest : st.streams ((st.nodes 1).idx) = eW :: rest)
    {c0 : Node} (hc0idx : c0.idx = (st.nodes 1).idx)
    (hc0 : NodeRef (upd st.streams ((st.nodes 1).idx) rest) eW.s c0) :
    Inv K runs
      { streams := upd st.streams ((st.nodes 1).idx) rest,
        nodes := upd (replayClimbWith updateNode
            (upd st.streams ((st.nodes 1).idx) rest) c0 st.nodes
            ((st.nodes 1).idx + K)).2 1
          (replayClimbWith updateNode (upd st.streams ((st.nodes 1).idx) rest)
            c0 st.nodes ((st.nodes 1).idx + K)).1 }
      eW.s := by
  have hwmem := hinv.sub.top_mem
  have hw1 : 1 ≤ (st.nodes 1).idx := hwmem.1
  have hwK : (st.nodes 1).idx ≤ K := hwmem.2.1
  have hwfW : WfStr eW.s :=
    hinv.wfStreams hrun ((st.nodes 1).idx) eW
      (by rw [hrest]; exact List.mem_cons_self _ _)
  have hwf2 : WfStreams (upd st.streams ((st.nodes 1).idx) rest) := by
    intro k e he
    by_cases hk : k = (st.nodes 1).idx
    · subst hk
      rw [upd_same] at he
      exact hinv.wfStreams hrun _ e (by rw [hrest]; exact List.mem_cons_of_mem _ he)
    · rw [upd_other _ _ hk] at he
      exact hinv.wfStreams hrun _ e he
  have hleafSub : Sub (upd st.streams ((st.nodes 1).idx) rest) st.nodes K
      ((st.nodes 1).idx + K - 1) c0.idx := by
    have hl := @Sub.leaf (upd st.streams ((st.nodes 1).idx) rest)
      st.nodes K ((st.nodes 1).idx + K - 1)
      (by omega) (by omega)
    have heq : (st.nodes 1).idx + K - 1 + 1 - K = c0.idx := by
      rw [hc0idx]; omega
    rw [heq] at hl
    exact hl
  have hpath : PathOK (upd st.streams ((st.nodes 1).idx) rest) st.nodes K eW.s
      ((st.nodes 1).idx + K - 1) 1 := by
    refine @PathOK_frame_streams _ _ _ _ _ ((st.nodes 1).idx) ?_ _ _ (by omega)
      (under_refl _) (Sub_decompose hinv.sub hne rfl)
    intro k hk
    exact upd_other _ _ hk
  have hclimb := replayClimb_spec hwf2 hwfW ((st.nodes 1).idx + K - 1) c0 st.nodes
    (by omega) (by omega) hleafSub hc0 hpath
  have hplus : (st.nodes 1).idx + K - 1 + 1 = (st.nodes 1).idx + K := by omega
  rw [hplus] at hclimb
  obtain ⟨hSubRoot, hNRRoot⟩ := hclimb
  set R := replayClimbWith updateNode (upd st.streams ((st.nodes 1).idx) rest) c0
    st.nodes ((st.nodes 1).idx + K) with hR
  have hchamp : (upd R.2 1 R.1) 1 = R.1 := upd_same _ _ _
  refine ⟨hwfW, ?_, ?_, ?_, ?_, ?_⟩
  · show Sub (upd st.streams ((st.nodes 1).idx) rest) (upd R.2 1 R.1) K 1
      (((upd R.2 1 R.1) 1).idx)
    rw [hchamp]
    exact hSubRoot.frame (fun _ _ _ _ => rfl)
      (fun u hu1 huK huu => upd_other _ _ (by omega))
  · show NodeRef (upd st.streams ((st.nodes 1).idx) rest) eW.s ((upd R.2 1 R.1) 1)
    rw [hchamp]
    exact hNRRoot
  · intro k hk1 hkK
    show ∃ t, upd st.streams ((st.nodes 1).idx) rest k = (runs k).drop t
    by_cases hk : k = (st.nodes 1).idx
    · subst hk
      obtain ⟨t, ht⟩ := hinv.suffix ((st.nodes 1).idx) hk1 hkK
      refine ⟨t + 1, ?_⟩
      rw [upd_same, ← List.tail_drop, ← ht, hrest]
      rfl
    · obtain ⟨t, ht⟩ := hinv.suffix k hk1 hkK
      exact ⟨t, by rwa [upd_other _ _ hk]⟩
  · intro k hk
    show upd st.streams ((st.nodes 1).idx) rest k = []
    have hkne : k ≠ (st.nodes 1).idx := by omega
    rw [upd_other _ _ hkne]
    exact hinv.outside k hk
  · intro k e he
    replace he : heads (upd st.streams ((st.nodes 1).idx) rest) k = some e := he
    by_cases hk : k = (st.nodes 1).idx
    · subst hk
      rw [heads, upd_same] at he
      cases hres : rest with
      | nil => rw [hres] at he; exact absurd he (by simp)
      | cons e2 r2 =>
        rw [hres] at he
        have he2 : e2 = e := by simpa using he
        obtain ⟨t, ht⟩ := hinv.suffix _ hw1 hwK
        have hch := chain'_drop (hrun _ hw1 hwK).2.1 t
        rw [← ht, hrest, hres] at hch
        have hrel := (List.chain'_cons.mp hch).1
        rw [← he2]
        exact ⟨hrel.1, le_of_eq hrel.2⟩
    · rw [heads, upd_other _ _ hk, ← heads] at he
      have hk1 : 1 ≤ k ∧ k ≤ K := by
        by_contra hc
        rw [heads, hinv.outside k hc] at he
        exact absurd he (by simp)
      obtain ⟨hrho, hf⟩ := hinv.rhole k e he
      have hmin := hinv.sub.top_min k hk1.1 hk1.2 (under_one (by omega))
      rw [hne, he] at hmin
      have hWe : sLe eW.s e.s := hmin
      refine ⟨hWe, ?_⟩
      have hwfe : WfStr e.s :=
        hinv.wfStreams hrun k e (by rw [heads] at he; exact List.mem_of_mem_head? he)
      have hρW : sLe ρ eW.s := (hinv.rhole _ eW hne).1
      calc e.f ≤ calcLcp e.s ρ := hf
      _ ≤ calcLcp e.s eW.s := calcLcp_mono_ref hinv.wfρ hwfW hwfe hρW hWe

end DSS

namespace DSS

theorem emitStep_spec {K : Nat} {runs : Nat → List Ent} {st : LT} {ρ : Str}
    (hrun : ∀ k, 1 ≤ k → k ≤ K → RunWF (runs k))
    (hinv : Inv K runs st ρ)
    {eW : Ent} (hne : heads st.streams ((st.nodes 1).idx) = some eW) :
    (emitStepWith updateNode K st).1 = (eW.s, calcLcp eW.s ρ, eW.f) ∧
    sLe ρ eW.s ∧ eW.f ≤ calcLcp eW.s ρ ∧
    Inv K runs (emitStepWith updateNode K st).2 eW.s ∧
    (emitStepWith updateNode K st).2.streams =
      upd st.streams ((st.nodes 1).idx) ((st.streams ((st.nodes 1).idx)).tail) := by
  obtain ⟨rest, hrest⟩ : ∃ rest, st.streams ((st.nodes 1).idx) = eW :: rest := by
    rw [heads] at hne
    cases hcase : st.streams ((st.nodes 1).idx) with
    | nil => rw [hcase] at hne; exact absurd hne (by simp)
    | cons a r =>
      rw [hcase] at hne
      have ha : a = eW := by simpa using hne
      exact ⟨r, by rw [ha]⟩
  have htail : (st.streams ((st.nodes 1).idx)).tail = rest := by rw [hrest]; rfl
  have hheadD : (st.streams ((st.nodes 1).idx)).headD { s := [], f := 0 } = eW := by
    rw [hrest]; rfl
  have hlcp : (st.nodes 1).lcp = calcLcp eW.s ρ := (hinv.champ eW hne).2
  have hole : sLe ρ eW.s := (hinv.champ eW hne).1
  have hfb : eW.f ≤ calcLcp eW.s ρ := (hinv.rhole _ eW hne).2
  have hwmem := hinv.sub.top_mem
  cases hres : rest with
  | nil =>
    have hstep : emitStepWith updateNode K st =
        ((eW.s, (st.nodes 1).lcp, eW.f),
          { streams := upd st.streams ((st.nodes 1).idx) rest,
            nodes := upd (replayClimbWith updateNode
                (upd st.streams ((st.nodes 1).idx) rest) (st.nodes 1) st.nodes
                ((st.nodes 1).idx + K)).2 1
              (replayClimbWith updateNode (upd st.streams ((st.nodes 1).idx) rest)
                (st.nodes 1) st.nodes ((st.nodes 1).idx + K)).1 }) := by
      rw [emitStepWith, hheadD, htail]
      have hsc : upd st.streams ((st.nodes 1).idx) rest ((st.nodes 1).idx) = rest :=
        upd_same _ _ _
      rw [hsc, hres]
    have hc0 : NodeRef (upd st.streams ((st.nodes 1).idx) rest) eW.s (st.nodes 1) := by
      intro e he
      replace he : heads (upd st.streams ((st.nodes 1).idx) rest)
          ((st.nodes 1).idx) = some e := he
      rw [heads, upd_same, hres] at he
      exact absurd he (by simp)
    refine ⟨by rw [hstep, hlcp], hole, hfb, ?_, by rw [hstep, htail]⟩
    rw [hstep]
    exact emit_core hrun hinv hne hrest rfl hc0
  | cons e2 r2 =>
    have hstep : emitStepWith updateNode K st =
        ((eW.s, (st.nodes 1).lcp, eW.f),
          { streams := upd st.streams ((st.nodes 1).idx) rest,
            nodes := upd (replayClimbWith updateNode
                (upd st.streams ((st.nodes 1).idx) rest)
                { idx := (st.nodes 1).idx, lcp := e2.f } st.nodes
                ((st.nodes 1).idx + K)).2 1
              (replayClimbWith updateNode (upd st.streams ((st.nodes 1).idx) rest)
                { idx := (st.nodes 1).idx, lcp := e2.f } st.nodes
                ((st.nodes 1).idx + K)).1 }) := by
      rw [emitStepWith, hheadD, htail]
      have hsc : upd st.streams ((st.nodes 1).idx) rest ((st.nodes 1).idx) = rest :=
        upd_same _ _ _
      rw [hsc, hres]
    have hc0 : NodeRef (upd st.streams ((st.nodes 1).idx) rest) eW.s
        { idx := (st.nodes 1).idx, lcp := e2.f } := by
      intro e he
      replace he : heads (upd st.streams ((st.nodes 1).idx) rest)
          ((st.nodes 1).idx) = some e := he
      rw [heads, upd_same, hres] at he
      have he2 : e2 = e := by simpa using he
      obtain ⟨t, ht⟩ := hinv.suffix ((st.nodes 1).idx) hwmem.1 hwmem.2.1
      have hch := chain'_drop (hrun _ hwmem.1 hwmem.2.1).2.1 t
      rw [← ht, hrest, hres] at hch
      have hrel := (List.chain'_cons.mp hch).1
      rw [← he2]
      exact ⟨hrel.1, hrel.2⟩
    refine ⟨by rw [hstep, hlcp], hole, hfb, ?_, by rw [hstep, htail]⟩
    rw [hstep]
    exact emit_core hrun hinv hne hrest rfl hc0

end DSS

namespace DSS

/-- The master run lemma for the plain output loop: from any state
satisfying the invariant, emitting at most the number of remaining strings
produces an output chain that is sorted with correct LCPs relative to the
reference, with `oldLcps` entries bounded by the emitted LCPs, and the
emitted entries together with the remaining streams are a permutation of
the streams before. -/
theorem writeElems_master {K : Nat} {runs : Nat → List Ent}
    (hrun : ∀ k, 1 ≤ k → k ≤ K → RunWF (runs k)) :
    ∀ (len : Nat) (st : LT) (ρ : Str), Inv K runs st ρ →
      len ≤ (streamsConcat K st.streams).length →
      OutOK ρ (writeElemsWith updateNode K st len).1 ∧
      ((writeElemsWith updateNode K st len).1.map (fun t => Ent.mk t.1 t.2.2) ++
          streamsConcat K (writeElemsWith updateNode K st len).2.streams).Perm
        (streamsConcat K st.streams) := by
  intro len
  induction len with
  | zero =>
    intro st ρ hinv hlen
    rw [writeElemsWith]
    exact ⟨trivial, by simp⟩
  | succ len ih =>
    intro st ρ hinv hlen
    have hne0 : streamsConcat K st.streams ≠ [] := by
      intro hc
      rw [hc] at hlen
      simp at hlen
    obtain ⟨k, e, hk1, hkK, hke⟩ := streamsConcat_mem hne0
    obtain ⟨eW, hW⟩ := champion_some hinv hke
    obtain ⟨hout, hole, hfb, hinv2, hstreams⟩ := emitStep_spec hrun hinv hW
    obtain ⟨tailW, htail⟩ : ∃ t, st.streams ((st.nodes 1).idx) = eW :: t := by
      rw [heads] at hW
      cases hcase : st.streams ((st.nodes 1).idx) with
      | nil => rw [hcase] at hW; exact absurd hW (by simp)
      | cons a r =>
        rw [hcase] at hW
        have ha : a = eW := by simpa using hW
        exact ⟨r, by rw [ha]⟩
    have hwmem := hinv.sub.top_mem
    have hperm1 : (streamsConcat K st.streams).Perm
        (eW :: streamsConcat K ((emitStepWith updateNode K st).2.streams)) := by
      rw [hstreams]
      have htt : (st.streams ((st.nodes 1).idx)).tail = tailW := by
        rw [htail]
        rfl
      rw [htt]
      exact streamsConcat_advance hwmem.1 hwmem.2.1 htail
    have hlen2 : len ≤ (streamsConcat K
        ((emitStepWith updateNode K st).2.streams)).length := by
      have := hperm1.length_eq
      rw [List.length_cons] at this
      omega
    obtain ⟨ihOut, ihPerm⟩ := ih ((emitStepWith updateNode K st).2) eW.s hinv2 hlen2
    constructor
    · show OutOK ρ ((emitStepWith updateNode K st).1 ::
        (writeElemsWith updateNode K ((emitStepWith updateNode K st).2) len).1)
      rw [hout]
      exact ⟨hole, rfl, hfb, ihOut⟩
    · show (((emitStepWith updateNode K st).1 ::
          (writeElemsWith updateNode K ((emitStepWith updateNode K st).2) len).1).map
            (fun t => Ent.mk t.1 t.2.2) ++
          streamsConcat K
            (writeElemsWith updateNode K ((emitStepWith updateNode K st).2) len).2.streams).Perm
        (streamsConcat K st.streams)
      rw [List.map_cons, hout]
      have hEnt : Ent.mk eW.s eW.f = eW := rfl
      show (Ent.mk eW.s eW.f ::
          ((writeElemsWith updateNode K ((emitStepWith updateNode K st).2) len).1.map
            (fun t => Ent.mk t.1 t.2.2) ++
          streamsConcat K
            (writeElemsWith updateNode K
              ((emitStepWith updateNode K st).2) len).2.streams)).Perm
        (streamsConcat K st.streams)
      rw [hEnt]
      exact (ihPerm.cons eW).trans hperm1.symm

end DSS

namespace DSS

/-! ## Subtree intervals for a power-of-two number of streams

`initTree` builds the tree by inserting the streams in order; its
correctness argument tracks, for each node, how much of its subtree has
been inserted.  The leaf interval `[lo v, hi v)` of a node makes that
precise.  For `K = 2^m` every node's interval is exact; for other `K` the
insertion order reads node slots before writing them (see the
counterexample for the merger claim). -/

/-- First leaf of the subtree rooted at `v`. -/
def lo (K : Nat) (v : Nat) : Nat :=
  if v = 0 then 0 else if K ≤ v then v else lo K (2 * v)
termination_by K - v
decreasing_by omega

/-- One past the last leaf of the subtree rooted at `v`. -/
def hi (K : Nat) (v : Nat) : Nat :=
  if v = 0 then 0 else if K ≤ v then v + 1 else hi K (2 * v + 1)
termination_by K - v
decreasing_by omega

theorem lo_leaf {K v : Nat} (h1 : 1 ≤ v) (h2 : K ≤ v) : lo K v = v := by
  rw [lo, if_neg (by omega), if_pos h2]

theorem hi_leaf {K v : Nat} (h1 : 1 ≤ v) (h2 : K ≤ v) : hi K v = v + 1 := by
  rw [hi, if_neg (by omega), if_pos h2]

theorem lo_node {K v : Nat} (h1 : 1 ≤ v) (h2 : v < K) : lo K v = lo K (2 * v) := by
  rw [lo, if_neg (by omega), if_neg (by omega)]

theorem hi_node {K v : Nat} (h1 : 1 ≤ v) (h2 : v < K) : hi K v = hi K (2 * v + 1) := by
  rw [hi, if_neg (by omega), if_neg (by omega)]

theorem div_eq_iff_bounds {a c p : Nat} (hp : 0 < p) :
    a / p = c ↔ c * p ≤ a ∧ a < (c + 1) * p := by
  constructor
  · rintro rfl
    refine ⟨Nat.div_mul_le_self a p, ?_⟩
    have h1 := Nat.div_add_mod a p
    have h2 := Nat.mod_lt a hp
    have h3 : (a / p + 1) * p = p * (a / p) + p := by ring
    omega
  · rintro ⟨h1, h2⟩
    have h3 : c ≤ a / p := (Nat.le_div_iff_mul_le hp).mpr h1
    have h4 : a / p < c + 1 := (Nat.div_lt_iff_lt_mul hp).mpr h2
    omega

theorem lo_hi_formula {K : Nat} :
    ∀ (j v : Nat), 1 ≤ v → K ≤ v * 2 ^ j → (v + 1) * 2 ^ j ≤ 2 * K →
      lo K v = v * 2 ^ j ∧ hi K v = (v + 1) * 2 ^ j := by
  intro j
  induction j with
  | zero =>
    intro v hv h1 h2
    simp only [pow_zero, mul_one] at h1 h2 ⊢
    exact ⟨lo_leaf hv h1, hi_leaf hv h1⟩
  | succ j ih =>
    intro v hv h1 h2
    have hvK : v < K := by
      by_contra hc
      push_neg at hc
      have hK1 : 1 ≤ K := by
        rcases Nat.eq_zero_or_pos K with h0 | h0
        · exfalso
          rw [h0] at h2
          have h7 : 1 ≤ 2 ^ (j + 1) := Nat.one_le_two_pow
          have h8 : 1 * 2 ^ (j + 1) ≤ (v + 1) * 2 ^ (j + 1) :=
            Nat.mul_le_mul_right _ (by omega)
          omega
        · exact h0
      have : (K + 1) * 2 ^ (j + 1) ≤ (v + 1) * 2 ^ (j + 1) :=
        Nat.mul_le_mul_right _ (by omega)
      have h4 : (K + 1) * 2 ^ (j + 1) = K * 2 ^ (j + 1) + 2 ^ (j + 1) := by ring
      have h5 : 2 * K ≤ K * 2 ^ (j + 1) := by
        have h6 : 2 ≤ 2 ^ (j + 1) := by
          calc (2 : Nat) = 2 ^ 1 := (pow_one 2).symm
          _ ≤ 2 ^ (j + 1) := Nat.pow_le_pow_right (by norm_num) (by omega)
        calc 2 * K = K * 2 := by ring
        _ ≤ K * 2 ^ (j + 1) := Nat.mul_le_mul_left _ h6
      have h7 : 1 ≤ 2 ^ (j + 1) := Nat.one_le_two_pow
      omega
    have he1 : v * 2 ^ (j + 1) = 2 * v * 2 ^ j := by rw [pow_succ]; ring
    have he2 : (v + 1) * 2 ^ (j + 1) = (2 * v + 1 + 1) * 2 ^ j := by rw [pow_succ]; ring
    have he3 : (2 * v + 1) * 2 ^ j ≤ (2 * v + 1 + 1) * 2 ^ j :=
      Nat.mul_le_mul_right _ (by omega)
    have he4 : 2 * v * 2 ^ j ≤ (2 * v + 1) * 2 ^ j :=
      Nat.mul_le_mul_right _ (by omega)
    obtain ⟨hl, hh⟩ := ih (2 * v) (by omega) (by omega) (by omega)
    obtain ⟨hl2, hh2⟩ := ih (2 * v + 1) (by omega) (by omega) (by omega)
    constructor
    · rw [lo_node hv hvK, hl, he1]
    · rw [hi_node hv hvK, hh2, he2]

/-- For `K = 2^m` every tree node `v ∈ [1, 2K)` has an exact interval. -/
theorem tree_interval {m : Nat} (v : Nat) (h1 : 1 ≤ v) (h2 : v < 2 * 2 ^ m) :
    ∃ j, lo (2 ^ m) v = v * 2 ^ j ∧ hi (2 ^ m) v = (v + 1) * 2 ^ j ∧
      2 ^ m ≤ v * 2 ^ j ∧ (v + 1) * 2 ^ j ≤ 2 * 2 ^ m := by
  have hv0 : v ≠ 0 := by omega
  by_cases hK : 2 ^ m ≤ v
  · refine ⟨0, ?_⟩
    simp only [pow_zero, mul_one]
    exact ⟨lo_leaf h1 hK, hi_leaf h1 hK, hK, by omega⟩
  · push_neg at hK
    set t := Nat.log2 v with ht
    have htm : t < m := (Nat.log2_lt hv0).mpr hK
    have htle : 2 ^ t ≤ v := Nat.log2_self_le hv0
    have htlt : v < 2 ^ (t + 1) := Nat.lt_log2_self
    refine ⟨m - t, ?_⟩
    have hj1 : 2 ^ m ≤ v * 2 ^ (m - t) := by
      calc 2 ^ m = 2 ^ t * 2 ^ (m - t) := by rw [← pow_add]; congr 1; omega
      _ ≤ v * 2 ^ (m - t) := Nat.mul_le_mul_right _ htle
    have hj2 : (v + 1) * 2 ^ (m - t) ≤ 2 * 2 ^ m := by
      calc (v + 1) * 2 ^ (m - t) ≤ 2 ^ (t + 1) * 2 ^ (m - t) :=
        Nat.mul_le_mul_right _ (by omega)
      _ = 2 ^ (t + 1 + (m - t)) := by rw [← pow_add]
      _ ≤ 2 * 2 ^ m := by
          have : t + 1 + (m - t) = m + 1 := by omega
          rw [this, pow_succ]
          omega
    obtain ⟨hl, hh⟩ := lo_hi_formula (m - t) v h1 hj1 hj2
    exact ⟨hl, hh, hj1, hj2⟩

end DSS


namespace DSS

theorem lo_lt_hi {m : Nat} {v : Nat} (h1 : 1 ≤ v) (h2 : v < 2 * 2 ^ m) :
    lo (2 ^ m) v < hi (2 ^ m) v := by
  obtain ⟨j, hl, hh, hj1, hj2⟩ := tree_interval v h1 h2
  rw [hl, hh]
  have hp : 1 ≤ 2 ^ j := Nat.one_le_two_pow
  have he : (v + 1) * 2 ^ j = v * 2 ^ j + 2 ^ j := by ring
  omega

theorem K_le_lo {m : Nat} {v : Nat} (h1 : 1 ≤ v) (h2 : v < 2 * 2 ^ m) :
    2 ^ m ≤ lo (2 ^ m) v := by
  obtain ⟨j, hl, hh, hj1, hj2⟩ := tree_interval v h1 h2
  rw [hl]
  exact hj1

theorem hi_le_2K {m : Nat} {v : Nat} (h1 : 1 ≤ v) (h2 : v < 2 * 2 ^ m) :
    hi (2 ^ m) v ≤ 2 * 2 ^ m := by
  obtain ⟨j, hl, hh, hj1, hj2⟩ := tree_interval v h1 h2
  rw [hh]
  exact hj2

theorem K_lt_hi {m : Nat} {v : Nat} (h1 : 1 ≤ v) (h2 : v < 2 * 2 ^ m) :
    2 ^ m < hi (2 ^ m) v := by
  have ha := K_le_lo h1 h2
  have hb := lo_lt_hi h1 h2
  omega

/-- Sibling adjacency for `K = 2^m`: the left child's interval ends where
the right child's begins. -/
theorem hi_left_lo_right {m : Nat} {v : Nat} (h1 : 1 ≤ v) (h2 : v < 2 ^ m) :
    hi (2 ^ m) (2 * v) = lo (2 ^ m) (2 * v + 1) := by
  obtain ⟨j, hl, hh, hj1, hj2⟩ := tree_interval (m := m) v h1 (by omega)
  have hj0 : j ≠ 0 := by
    rintro rfl
    rw [pow_zero, mul_one] at hj1
    omega
  obtain ⟨j', rfl⟩ : ∃ j', j = j' + 1 := ⟨j - 1, by omega⟩
  have he1 : 2 * v * 2 ^ j' = v * 2 ^ (j' + 1) := by rw [pow_succ]; ring
  have he2 : (2 * v + 1 + 1) * 2 ^ j' = (v + 1) * 2 ^ (j' + 1) := by rw [pow_succ]; ring
  have he3 : 2 * v * 2 ^ j' ≤ (2 * v + 1) * 2 ^ j' := Nat.mul_le_mul_right _ (by omega)
  have he4 : (2 * v + 1) * 2 ^ j' ≤ (2 * v + 1 + 1) * 2 ^ j' :=
    Nat.mul_le_mul_right _ (by omega)
  obtain ⟨hl1, hh1⟩ := lo_hi_formula (K := 2 ^ m) j' (2 * v) (by omega) (by omega) (by omega)
  obtain ⟨hl2, hh2⟩ := lo_hi_formula (K := 2 ^ m) j' (2 * v + 1) (by omega) (by omega) (by omega)
  rw [hh1, hl2]

theorem under_iff_interval {m : Nat} {v a : Nat} (hv1 : 1 ≤ v) (hv2 : v < 2 * 2 ^ m)
    (ha1 : 2 ^ m ≤ a) (ha2 : a < 2 * 2 ^ m) :
    under v a ↔ lo (2 ^ m) v ≤ a ∧ a < hi (2 ^ m) v := by
  obtain ⟨j, hl, hh, hj1, hj2⟩ := tree_interval v hv1 hv2
  constructor
  · rintro ⟨i, hdiv⟩
    have hip : (0 : Nat) < 2 ^ i := by positivity
    have hbounds := (div_eq_iff_bounds hip).mp hdiv
    rcases Nat.lt_trichotomy i j with hij | hij | hij
    · exfalso
      obtain ⟨d, rfl⟩ : ∃ d, j = i + (d + 1) := ⟨j - i - 1, by omega⟩
      have h3 : (v + 1) * 2 ^ i * 2 ^ (d + 1) = (v + 1) * 2 ^ (i + (d + 1)) := by
        rw [mul_assoc, ← pow_add]
      have h4 : 2 ≤ 2 ^ (d + 1) := by
        calc (2 : Nat) = 2 ^ 1 := (pow_one 2).symm
        _ ≤ 2 ^ (d + 1) := Nat.pow_le_pow_right (by norm_num) (by omega)
      have h5 : (v + 1) * 2 ^ i * 2 ≤ (v + 1) * 2 ^ i * 2 ^ (d + 1) :=
        Nat.mul_le_mul_left _ h4
      omega
    · subst hij
      rw [hl, hh]
      exact hbounds
    · exfalso
      obtain ⟨d, rfl⟩ : ∃ d, i = j + (d + 1) := ⟨i - j - 1, by omega⟩
      have h3 : v * 2 ^ j * 2 ^ (d + 1) = v * 2 ^ (j + (d + 1)) := by
        rw [mul_assoc, ← pow_add]
      have h4 : 2 ≤ 2 ^ (d + 1) := by
        calc (2 : Nat) = 2 ^ 1 := (pow_one 2).symm
        _ ≤ 2 ^ (d + 1) := Nat.pow_le_pow_right (by norm_num) (by omega)
      have h5 : v * 2 ^ j * 2 ≤ v * 2 ^ j * 2 ^ (d + 1) := Nat.mul_le_mul_left _ h4
      omega
  · rintro ⟨hlo, hhi⟩
    refine ⟨j, ?_⟩
    have hjp : (0 : Nat) < 2 ^ j := by positivity
    rw [div_eq_iff_bounds hjp]
    rw [hl] at hlo
    rw [hh] at hhi
    exact ⟨hlo, hhi⟩

theorem under_linear {v u a : Nat} (h1 : under v a) (h2 : under u a) :
    under v u ∨ under u v := by
  obtain ⟨i, hia⟩ := h1
  obtain ⟨j, hja⟩ := h2
  rcases Nat.le_total i j with h | h
  · right
    refine ⟨j - i, ?_⟩
    rw [← hia, Nat.div_div_eq_div_mul, ← pow_add, ← hja]
    congr 2
    omega
  · left
    refine ⟨i - j, ?_⟩
    rw [← hja, Nat.div_div_eq_div_mul, ← pow_add, ← hia]
    congr 2
    omega

theorem interval_mono_step {m : Nat} {u : Nat} (h1 : 2 ≤ u) (h2 : u < 2 * 2 ^ m) :
    hi (2 ^ m) u ≤ hi (2 ^ m) (u / 2) ∧ lo (2 ^ m) (u / 2) ≤ lo (2 ^ m) u := by
  have hq1 : 1 ≤ u / 2 := by omega
  have hq2 : u / 2 < 2 ^ m := by
    have hm : 1 ≤ 2 ^ m := Nat.one_le_two_pow
    omega
  rcases Nat.even_or_odd u with he | ho
  · obtain ⟨q, rfl⟩ : ∃ q, u = 2 * q := by
      obtain ⟨q, hq⟩ := he
      exact ⟨q, by omega⟩
    have hq : (2 * q) / 2 = q := by omega
    rw [hq] at hq1 hq2 ⊢
    constructor
    · rw [hi_left_lo_right hq1 hq2, hi_node hq1 hq2]
      have := lo_lt_hi (m := m) (v := 2 * q + 1) (by omega) (by omega)
      omega
    · rw [lo_node hq1 hq2]
  · obtain ⟨q, rfl⟩ : ∃ q, u = 2 * q + 1 := by
      obtain ⟨q, hq⟩ := ho
      exact ⟨q, by omega⟩
    have hq : (2 * q + 1) / 2 = q := by omega
    rw [hq] at hq1 hq2 ⊢
    constructor
    · rw [hi_node hq1 hq2]
    · rw [lo_node hq1 hq2, ← hi_left_lo_right hq1 hq2]
      exact (lo_lt_hi (by omega) (by omega)).le

theorem interval_mono_under {m : Nat} {v u : Nat} (hv : 1 ≤ v)
    (hu2 : u < 2 * 2 ^ m) (h : under v u) :
    hi (2 ^ m) u ≤ hi (2 ^ m) v ∧ lo (2 ^ m) v ≤ lo (2 ^ m) u := by
  induction u using Nat.strong_induction_on with
  | _ u ih =>
    by_cases huv : u = v
    · subst huv
      exact ⟨le_refl _, le_refl _⟩
    · have hvu : v ≤ u := under_ge h
      have hu1 : 2 ≤ u := by omega
      have hstep := interval_mono_step (m := m) hu1 hu2
      have hrec := ih (u / 2) (by omega) (by omega) (under_half h huv)
      exact ⟨le_trans hstep.1 hrec.1, le_trans hrec.2 hstep.2⟩

end DSS

namespace DSS

theorem under_trans {v u a : Nat} (h1 : under v u) (h2 : under u a) : under v a := by
  obtain ⟨j, hj⟩ := h1
  obtain ⟨i, hia⟩ := h2
  refine ⟨i + j, ?_⟩
  rw [pow_add, ← Nat.div_div_eq_div_mul, hia, hj]

theorem under_split_any {v u : Nat} (h : under v u) (hne : u ≠ v) :
    under (2 * v) u ∨ under (2 * v + 1) u := by
  obtain ⟨j, hj⟩ := h
  cases j with
  | zero => simp at hj; exact absurd hj hne
  | succ j =>
    rw [pow_succ, ← Nat.div_div_eq_div_mul] at hj
    have hb : u / 2 ^ j = 2 * v ∨ u / 2 ^ j = 2 * v + 1 := by omega
    rcases hb with hb | hb
    · exact .inl ⟨j, hb⟩
    · exact .inr ⟨j, hb⟩

theorem under_strict_ge {v u : Nat} (h : under v u) (hne : u ≠ v) : 2 * v ≤ u := by
  obtain ⟨j, hj⟩ := h
  cases j with
  | zero => simp at hj; exact absurd hj hne
  | succ j =>
    have hp : (0 : Nat) < 2 ^ (j + 1) := by positivity
    have hb := (div_eq_iff_bounds hp).mp hj
    have h2 : (2 : Nat) ≤ 2 ^ (j + 1) := by
      calc (2 : Nat) = 2 ^ 1 := (pow_one 2).symm
      _ ≤ 2 ^ (j + 1) := Nat.pow_le_pow_right (by norm_num) (by omega)
    have h3 : v * 2 ≤ v * 2 ^ (j + 1) := Nat.mul_le_mul_left v h2
    omega

/-- The whole-subtree invariant restricts to every node of the subtree. -/
theorem Sub.descend {streams : Nat → List Ent} {nodes : Nat → Node} {K v w : Nat}
    (h : Sub streams nodes K v w) :
    ∀ u, under v u → u < 2 * K → ∃ wu, Sub streams nodes K u wu := by
  induction h with
  | leaf h hK h2K =>
    intro u hu hu2
    by_cases hne : u = h
    · exact hne ▸ ⟨h + 1 - K, Sub.leaf h hK h2K⟩
    · have := under_strict_ge hu hne
      omega
  | node v wl wr w h1 hvK hl hr hw hle hlcp ihl ihr =>
    intro u hu hu2
    by_cases hne : u = v
    · exact hne ▸ ⟨w, Sub.node v wl wr w h1 hvK hl hr hw hle hlcp⟩
    · rcases under_split_any hu hne with h2 | h2
      · exact ihl u h2 hu2
      · exact ihr u h2 hu2

/-- A strict descendant with the same interval end is a right child. -/
theorem hi_spine {m : Nat} {x y : Nat} (hx : 1 ≤ x) (hy2 : y < 2 * 2 ^ m)
    (hu : under x y) (hne : y ≠ x) (he : hi (2 ^ m) x = hi (2 ^ m) y) :
    y % 2 = 1 := by
  have hge := under_strict_ge hu hne
  by_contra hodd
  have heven : y % 2 = 0 := by omega
  have hq1 : 1 ≤ y / 2 := by omega
  have hq2 : y / 2 < 2 ^ m := by omega
  have hyy : 2 * (y / 2) = y := by omega
  have h1 := hi_left_lo_right hq1 hq2
  rw [hyy] at h1
  have h2 : lo (2 ^ m) (y + 1) < hi (2 ^ m) (y + 1) :=
    lo_lt_hi (m := m) (by omega) (by omega)
  have h3 := hi_node (K := 2 ^ m) hq1 hq2
  rw [hyy] at h3
  have h4 : under x (y / 2) := under_half hu hne
  have h5 : hi (2 ^ m) (y / 2) ≤ hi (2 ^ m) x :=
    (interval_mono_under (m := m) hx (by omega) h4).1
  omega

theorem hi_root {m : Nat} : hi (2 ^ m) 1 = 2 * 2 ^ m := by
  obtain ⟨j, hl, hh, hj1, hj2⟩ := tree_interval (m := m) 1 (le_refl 1)
    (by have := Nat.one_le_two_pow (n := m); omega)
  have h1 : 1 * 2 ^ j = 2 ^ j := one_mul _
  have h2 : (1 + 1) * 2 ^ j = 2 * 2 ^ j := by ring
  omega

end DSS

namespace DSS

/-- The invariant of the `initTree` insertion loop for `K = 2^m` streams,
holding after the leaves `[K, F1)` have been inserted: every subtree all
of whose leaves are inserted carries a well-formed tournament; every node
whose left subtree is complete but whose right subtree is not yet started
stores the left subtree's winner, LCP-correct against the common-prefix
reference `p`; and once every leaf is in, the root slot holds the overall
winner. -/
def InitInv (m : Nat) (streams : Nat → List Ent) (p : Str) (nodes : Nat → Node)
    (F1 : Nat) : Prop :=
  (∀ v, 1 ≤ v → v < 2 ^ m →
    (hi (2 ^ m) v ≤ F1 → ∃ w, Sub streams nodes (2 ^ m) v w) ∧
    (hi (2 ^ m) (2 * v) ≤ F1 → F1 < hi (2 ^ m) v →
      ∃ w, Sub streams nodes (2 ^ m) (2 * v) w ∧ (nodes (v + 1)).idx = w ∧
        NodeRef streams p (nodes (v + 1)))) ∧
  (2 * 2 ^ m ≤ F1 →
    ∃ w, Sub streams nodes (2 ^ m) 1 w ∧ (nodes 1).idx = w ∧
      NodeRef streams p (nodes 1))

/-- The `initTree` inner climb: starting at a node `h` whose subtree was
just completed (its interval ends at the new frontier `L + 1`), the loop
plays the stored left-subtree winners while ascending through right
children, and stops at the first left child (or the root), leaving the
invariant of the completed part intact and every slot off the travelled
path untouched. -/
theorem initClimb_spec {m : Nat} {streams : Nat → List Ent} {p : Str}
    (hwf : WfStreams streams) (hp : WfStr p) :
    ∀ h c nodes L, 1 ≤ h → h < 2 * 2 ^ m → hi (2 ^ m) h = L + 1 →
      Sub streams nodes (2 ^ m) h c.idx →
      NodeRef streams p c →
      (∀ v, 1 ≤ v → v < 2 ^ m → under v h → v ≠ h → hi (2 ^ m) v = L + 1 →
        ∃ w, Sub streams nodes (2 ^ m) (2 * v) w ∧ (nodes (v + 1)).idx = w ∧
          NodeRef streams p (nodes (v + 1))) →
      ∃ h2 c2 nodes2, initClimb streams c nodes (h + 1) = (c2, nodes2, h2 + 1) ∧
        (h2 = 1 ∨ h2 % 2 = 0) ∧ 1 ≤ h2 ∧ under h2 h ∧ hi (2 ^ m) h2 = L + 1 ∧
        Sub streams nodes2 (2 ^ m) h2 c2.idx ∧ NodeRef streams p c2 ∧
        (∀ u, ¬ under u h ∨ u = h ∨ ¬ under h2 u →
          nodes2 (u + 1) = nodes (u + 1)) := by
  intro h
  induction h using Nat.strong_induction_on with
  | _ h ih =>
    intro c nodes L h1 h2K hhi hsub hnr hPB
    by_cases hgo : h % 2 = 1 ∧ 3 ≤ h
    · -- play the stored node at the parent and continue climbing
      have hv1 : 1 ≤ h / 2 := by omega
      have hvK : h / 2 < 2 ^ m := by omega
      have hodd : 2 * (h / 2) + 1 = h := by omega
      have hvh : under (h / 2) h := ⟨1, by rw [pow_one]⟩
      have hhiv : hi (2 ^ m) (h / 2) = L + 1 := by
        have hx := hi_node (K := 2 ^ m) hv1 hvK
        rw [hodd] at hx
        omega
      have hstep : initClimb streams c nodes (h + 1) =
          initClimb streams (updateNode streams c (nodes (h / 2 + 1))).1
            (upd nodes (h / 2 + 1) (updateNode streams c (nodes (h / 2 + 1))).2)
            (h / 2 + 1) := by
        rw [initClimb, dif_pos (by omega : (h + 1) % 2 = 0 ∧ h + 1 > 2)]
        have hdiv : (h + 1) / 2 = h / 2 + 1 := by omega
        rw [hdiv]
      obtain ⟨wl, hsubl, hidxl, hnrl⟩ := hPB (h / 2) hv1 hvK hvh (by omega) hhiv
      obtain ⟨hperm, hnr2, hole2, hllcp⟩ := updateNode_spec hwf hp hnr hnrl
      set P := updateNode streams c (nodes (h / 2 + 1)) with hPdef
      set nodesB := upd nodes (h / 2 + 1) P.2 with hNBdef
      have hnodeB : nodesB (h / 2 + 1) = P.2 := upd_same _ _ _
      have hsublB : Sub streams nodesB (2 ^ m) (2 * (h / 2)) wl :=
        hsubl.frame (fun _ _ _ _ => rfl)
          (fun u hu1 huK huu => upd_other _ _ (by have := under_ge huu; omega))
      have hsubrB : Sub streams nodesB (2 ^ m) (2 * (h / 2) + 1) c.idx := by
        have hs : Sub streams nodes (2 ^ m) (2 * (h / 2) + 1) c.idx := by
          rw [hodd]
          exact hsub
        exact hs.frame (fun _ _ _ _ => rfl)
          (fun u hu1 huK huu => upd_other _ _ (by have := under_ge huu; omega))
      have hsubv : Sub streams nodesB (2 ^ m) (h / 2) P.1.idx := by
        refine Sub.node (h / 2) wl c.idx P.1.idx hv1 hvK hsublB hsubrB ?_ ?_ ?_
        · rcases hperm with ⟨hf, hs⟩ | ⟨hf, hs⟩
          · exact .inr ⟨hf, by rw [hnodeB, hs, hidxl]⟩
          · exact .inl ⟨by rw [hf, hidxl], by rw [hnodeB, hs]⟩
        · rw [hnodeB]
          exact hole2
        · intro e1 e2 he1 he2
          rw [hnodeB] at he2 ⊢
          exact hllcp e1 e2 he1 he2
      have hPBB : ∀ v2, 1 ≤ v2 → v2 < 2 ^ m → under v2 (h / 2) → v2 ≠ h / 2 →
          hi (2 ^ m) v2 = L + 1 →
          ∃ w, Sub streams nodesB (2 ^ m) (2 * v2) w ∧ (nodesB (v2 + 1)).idx = w ∧
            NodeRef streams p (nodesB (v2 + 1)) := by
        intro v2 hv21 hv2K hu2 hne2 hhi2
        obtain ⟨w, hS, hIdx, hNR⟩ := hPB v2 hv21 hv2K (under_trans hu2 hvh)
          (by have := under_ge hu2; omega) hhi2
        have hslot : nodesB (v2 + 1) = nodes (v2 + 1) := upd_other _ _ (by omega)
        refine ⟨w, ?_, by rw [hslot]; exact hIdx, by rw [hslot]; exact hNR⟩
        refine hS.frame (fun _ _ _ _ => rfl) ?_
        intro u hu1 huK huu
        refine upd_other _ _ ?_
        intro huv
        have huv2 : u = h / 2 := by omega
        subst huv2
        have hb1 : hi (2 ^ m) (h / 2) ≤ hi (2 ^ m) (2 * v2) :=
          (interval_mono_under (m := m) (by omega) (by omega) huu).1
        have hb2 := hi_left_lo_right hv21 hv2K
        have hb3 : lo (2 ^ m) (2 * v2 + 1) < hi (2 ^ m) (2 * v2 + 1) :=
          lo_lt_hi (m := m) (by omega) (by omega)
        have hb4 := hi_node (K := 2 ^ m) hv21 hv2K
        omega
      obtain ⟨h2, c2, nodes2, heq2, hpar, h21, hund, hhih2, hsub2, hnr3, hframe⟩ :=
        ih (h / 2) (by omega) P.1 nodesB L hv1 (by omega) hhiv hsubv hnr2 hPBB
      refine ⟨h2, c2, nodes2, ?_, hpar, h21, under_trans hund hvh, hhih2, hsub2,
        hnr3, ?_⟩
      · rw [hstep]
        exact heq2
      · intro u hcond
        have hBslot : u ≠ h / 2 → nodesB (u + 1) = nodes (u + 1) := fun hu =>
          upd_other _ _ (by omega)
        rcases hcond with hc | hc | hc
        · have hnuv : ¬ under u (h / 2) := fun hx => hc (under_trans hx hvh)
          have huv : u ≠ h / 2 := by
            rintro rfl
            exact hc hvh
          rw [hframe u (.inl hnuv), hBslot huv]
        · subst hc
          have hnuv : ¬ under u (u / 2) := fun hx => by
            have := under_ge hx
            omega
          have huv : u ≠ u / 2 := by omega
          rw [hframe u (.inl hnuv), hBslot huv]
        · have huv : u ≠ h / 2 := by
            rintro rfl
            exact hc hund
          rw [hframe u (.inr (.inr hc)), hBslot huv]
    · -- loop exit: `h` is a left child or the root
      have hnot : ¬ ((h + 1) % 2 = 0 ∧ h + 1 > 2) := by omega
      refine ⟨h, c, nodes, ?_, by omega, h1, under_refl h, hhi, hsub, hnr,
        fun u _ => rfl⟩
      rw [initClimb, dif_neg hnot]

end DSS

namespace DSS

/-- One `initTree` iteration: inserting stream `t + 1` (leaf `2^m + t`)
advances the insertion invariant by one leaf. -/
theorem initInsert_step {m kl : Nat} {streams : Nat → List Ent} {p : Str}
    (hwf : WfStreams streams) (hp : WfStr p)
    (hheads : ∀ k, 1 ≤ k → k ≤ 2 ^ m → ∀ e, heads streams k = some e →
      sLe p e.s ∧ calcLcp e.s p = kl)
    {N : Nat → Node} {t : Nat} (htK : t < 2 ^ m)
    (hIH : InitInv m streams p N (2 ^ m + t)) :
    InitInv m streams p (initInsert (2 ^ m) kl streams N (t + 1))
      (2 ^ m + (t + 1)) := by
  have hK1 : 1 ≤ 2 ^ m := Nat.one_le_two_pow
  have hL1 : 1 ≤ 2 ^ m + t := by omega
  have hL2 : 2 ^ m + t < 2 * 2 ^ m := by omega
  have hhiL : hi (2 ^ m) (2 ^ m + t) = (2 ^ m + t) + 1 := hi_leaf (by omega) (by omega)
  have hsubL : Sub streams N (2 ^ m) (2 ^ m + t)
      (({ idx := t + 1, lcp := kl } : Node)).idx := by
    have hl := @Sub.leaf streams N (2 ^ m)
      (2 ^ m + t) (by omega) (by omega)
    have he : 2 ^ m + t + 1 - 2 ^ m = t + 1 := by omega
    rw [he] at hl
    exact hl
  have hnrL : NodeRef streams p ({ idx := t + 1, lcp := kl } : Node) := by
    intro e he
    obtain ⟨hx1, hx2⟩ := hheads (t + 1) (by omega) (by omega) e he
    exact ⟨hx1, hx2.symm⟩
  have hPBL : ∀ v, 1 ≤ v → v < 2 ^ m → under v (2 ^ m + t) → v ≠ 2 ^ m + t →
      hi (2 ^ m) v = (2 ^ m + t) + 1 →
      ∃ w, Sub streams N (2 ^ m) (2 * v) w ∧ (N (v + 1)).idx = w ∧
        NodeRef streams p (N (v + 1)) := by
    intro v hv1 hvK hu hne hhiv
    have hunder : under (2 * v + 1) (2 ^ m + t) := by
      rcases under_split_any hu (Ne.symm hne) with hs | hs
      · exfalso
        have hb1 : hi (2 ^ m) (2 ^ m + t) ≤ hi (2 ^ m) (2 * v) :=
          (interval_mono_under (m := m) (by omega) (by omega) hs).1
        have hb2 := hi_left_lo_right hv1 hvK
        have hb3 : lo (2 ^ m) (2 * v + 1) < hi (2 ^ m) (2 * v + 1) :=
          lo_lt_hi (m := m) (by omega) (by omega)
        have hb4 := hi_node (K := 2 ^ m) hv1 hvK
        omega
      · exact hs
    have hlo : lo (2 ^ m) (2 * v + 1) ≤ lo (2 ^ m) (2 ^ m + t) :=
      (interval_mono_under (m := m) (by omega) (by omega) hunder).2
    have hloL : lo (2 ^ m) (2 ^ m + t) = 2 ^ m + t := lo_leaf (by omega) (by omega)
    have hb2 := hi_left_lo_right hv1 hvK
    exact (hIH.1 v hv1 hvK).2 (by omega) (by omega)
  obtain ⟨h2, c2, nodes3, heqC, hpar, h21, hund, hhih2, hsub2, hnr2, hframe⟩ :=
    initClimb_spec (m := m) hwf hp (2 ^ m + t) { idx := t + 1, lcp := kl } N
      (2 ^ m + t) hL1 hL2 hhiL hsubL hnrL hPBL
  have hh2le : h2 ≤ 2 ^ m + t := under_ge hund
  have hinsert : initInsert (2 ^ m) kl streams N (t + 1) =
      upd nodes3 ((h2 + 1 + 1) / 2) c2 := by
    rw [initInsert]
    have harg : 2 ^ m + (t + 1) = 2 ^ m + t + 1 := by omega
    rw [harg, heqC]
  rw [hinsert]
  rcases hpar with hroot | heven
  · -- the final insertion: the winner is stored at the root slot
    subst hroot
    have hslot : (1 + 1 + 1) / 2 = 1 := by norm_num
    rw [hslot]
    have h2K2 : 2 ^ m + t + 1 = 2 * 2 ^ m := by
      have := hi_root (m := m)
      omega
    have hsubS : Sub streams (upd nodes3 1 c2) (2 ^ m) 1 c2.idx :=
      hsub2.frame (fun _ _ _ _ => rfl)
        (fun u hu1 huK huu => upd_other _ _ (by omega))
    refine ⟨?_, ?_⟩
    · intro v hv1 hvK
      constructor
      · intro hcv
        exact hsubS.descend v (under_one hv1) (by omega)
      · intro hc1 hc2
        have := hi_le_2K (m := m) (v := v) (by omega) (by omega)
        omega
    · intro hc
      refine ⟨c2.idx, hsubS, ?_, ?_⟩
      · show (upd nodes3 1 c2 1).idx = c2.idx
        rw [upd_same]
      · show NodeRef streams p (upd nodes3 1 c2 1)
        rw [upd_same]
        exact hnr2
  · -- the winner of the completed subtree h2 is stored at its parent
    have hg1 : 1 ≤ h2 / 2 := by omega
    have hgK : h2 / 2 < 2 ^ m := by omega
    have hgg : 2 * (h2 / 2) = h2 := by omega
    have hslot : (h2 + 1 + 1) / 2 = h2 / 2 + 1 := by omega
    rw [hslot]
    have hnotlast : 2 ^ m + t + 1 < 2 * 2 ^ m := by
      by_contra hcl
      have hx := hi_root (m := m)
      have hu1 : under 1 h2 := under_one h21
      have hne : h2 ≠ 1 := by omega
      have := hi_spine (m := m) (x := 1) (y := h2) (le_refl 1) (by omega) hu1 hne
        (by omega)
      omega
    have hSmain : ∀ u, 1 ≤ u → u + 1 ≠ h2 / 2 + 1 →
        (¬ under u (2 ^ m + t) ∨ u = 2 ^ m + t ∨ ¬ under h2 u) →
        upd nodes3 (h2 / 2 + 1) c2 (u + 1) = N (u + 1) := by
      intro u hu1 hne hcond
      rw [upd_other _ _ hne, hframe u hcond]
    have hgHi : hi (2 ^ m) h2 ≤ hi (2 ^ m) (h2 / 2) := by
      have hux : under (h2 / 2) h2 := ⟨1, by rw [pow_one]⟩
      exact (interval_mono_under (m := m) (by omega) (by omega) hux).1
    have hkey : ∀ u, 1 ≤ u → u < 2 ^ m → hi (2 ^ m) u ≤ 2 ^ m + t →
        upd nodes3 (h2 / 2 + 1) c2 (u + 1) = N (u + 1) := by
      intro u hu1 huK hhiu
      have hne : u + 1 ≠ h2 / 2 + 1 := by
        intro hx
        have hueq : u = h2 / 2 := by omega
        subst hueq
        omega
      refine hSmain u hu1 hne (.inl ?_)
      intro hux
      have := (under_iff_interval (m := m) (by omega) (by omega) (by omega)
        (by omega)).mp hux
      omega
    have hsubS2 : Sub streams (upd nodes3 (h2 / 2 + 1) c2) (2 ^ m) h2 c2.idx :=
      hsub2.frame (fun _ _ _ _ => rfl)
        (fun u hu1 huK huu => upd_other _ _ (by have := under_ge huu; omega))
    refine ⟨?_, ?_⟩
    · intro v hv1 hvK
      constructor
      · intro hcv
        by_cases hcase : hi (2 ^ m) v ≤ 2 ^ m + t
        · obtain ⟨w, hS⟩ := (hIH.1 v hv1 hvK).1 hcase
          refine ⟨w, hS.frame (fun _ _ _ _ => rfl) ?_⟩
          intro u hu1 huK huu
          have hhiu : hi (2 ^ m) u ≤ hi (2 ^ m) v :=
            (interval_mono_under (m := m) (by omega) (by omega) huu).1
          exact hkey u hu1 huK (by omega)
        · have hhiv : hi (2 ^ m) v = 2 ^ m + t + 1 := by omega
          have huvL : under v (2 ^ m + t) := by
            rw [under_iff_interval (m := m) (by omega) (by omega) (by omega)
              (by omega)]
            have := lo_lt_hi (m := m) (v := v) (by omega) (by omega)
            omega
          have hh2v : under h2 v := by
            rcases under_linear huvL hund with hx | hx
            · by_cases hvh2 : h2 = v
              · rw [hvh2]
                exact under_refl v
              · exfalso
                have := hi_spine (m := m) (x := v) (y := h2) (by omega) (by omega)
                  hx hvh2 (by omega)
                omega
            · exact hx
          exact hsubS2.descend v hh2v (by omega)
      · intro hc1 hc2
        by_cases hcase : hi (2 ^ m) (2 * v) ≤ 2 ^ m + t
        · obtain ⟨w, hS, hIdx, hNR⟩ := (hIH.1 v hv1 hvK).2 hcase (by omega)
          have hnev : v + 1 ≠ h2 / 2 + 1 := by
            intro hx
            have hveq : v = h2 / 2 := by omega
            rw [hveq, hgg] at hcase
            omega
          have hnu : ¬ under h2 v := by
            intro hx
            have := (interval_mono_under (m := m) (by omega) (by omega) hx).1
            omega
          have hslotv := hSmain v (by omega) hnev (.inr (.inr hnu))
          refine ⟨w, ?_, by rw [hslotv]; exact hIdx, by rw [hslotv]; exact hNR⟩
          refine hS.frame (fun _ _ _ _ => rfl) ?_
          intro u hu1 huK huu
          have hhiu : hi (2 ^ m) u ≤ hi (2 ^ m) (2 * v) :=
            (interval_mono_under (m := m) (by omega) (by omega) huu).1
          exact hkey u hu1 huK (by omega)
        · have hhi2v : hi (2 ^ m) (2 * v) = 2 ^ m + t + 1 := by omega
          have hu2vL : under (2 * v) (2 ^ m + t) := by
            rw [under_iff_interval (m := m) (by omega) (by omega) (by omega)
              (by omega)]
            have := lo_lt_hi (m := m) (v := 2 * v) (by omega) (by omega)
            omega
          have h2veq : 2 * v = h2 := by
            rcases under_linear hu2vL hund with hx | hx
            · by_cases hq : h2 = 2 * v
              · omega
              · exfalso
                have := hi_spine (m := m) (x := 2 * v) (y := h2) (by omega)
                  (by omega) hx hq (by omega)
                omega
            · by_cases hq : 2 * v = h2
              · exact hq
              · exfalso
                have := hi_spine (m := m) (x := h2) (y := 2 * v) (by omega)
                  (by omega) hx (by omega) (by omega)
                omega
          have hveq : v = h2 / 2 := by omega
          refine ⟨c2.idx, ?_, ?_, ?_⟩
          · rw [h2veq]
            exact hsubS2
          · rw [hveq]
            show (upd nodes3 (h2 / 2 + 1) c2 (h2 / 2 + 1)).idx = c2.idx
            rw [upd_same]
          · rw [hveq]
            show NodeRef streams p (upd nodes3 (h2 / 2 + 1) c2 (h2 / 2 + 1))
            rw [upd_same]
            exact hnr2
    · intro hc
      exfalso
      omega

end DSS

namespace DSS

/-- `initTree` establishes the insertion invariant for all `t` inserted
streams (`K = 2^m`). -/
theorem initTree_inv {m kl : Nat} {streams : Nat → List Ent} {p : Str}
    (hwf : WfStreams streams) (hp : WfStr p)
    (hheads : ∀ k, 1 ≤ k → k ≤ 2 ^ m → ∀ e, heads streams k = some e →
      sLe p e.s ∧ calcLcp e.s p = kl) :
    ∀ t, t ≤ 2 ^ m →
      InitInv m streams p
        ((List.range t).foldl
          (fun nodes k => initInsert (2 ^ m) kl streams nodes (k + 1))
          (fun _ => { idx := 0, lcp := 0 })) (2 ^ m + t) := by
  intro t
  induction t with
  | zero =>
    intro ht
    refine ⟨?_, ?_⟩
    · intro v hv1 hvK
      constructor
      · intro hc
        exfalso
        have := K_lt_hi (m := m) (v := v) (by omega) (by omega)
        omega
      · intro hc hc2
        exfalso
        have := K_lt_hi (m := m) (v := 2 * v) (by omega) (by omega)
        omega
    · intro hc
      exfalso
      have := Nat.one_le_two_pow (n := m)
      omega
  | succ t iht =>
    intro ht
    rw [List.range_succ, List.foldl_append, List.foldl_cons, List.foldl_nil]
    exact initInsert_step hwf hp hheads (by omega) (iht (by omega))

/-- Appending anything to a NUL-free string leaves the scan LCP at its
length. -/
theorem calcLcp_append_self {p : Str} (hp : WfStr p) (r : Str) :
    calcLcp (p ++ r) p = p.length := by
  induction p with
  | nil => simp
  | cons x ps ih =>
    have hx : x ≠ 0 := hp x (List.mem_cons_self _ _)
    have hps : WfStr ps := fun c hc => hp c (List.mem_cons_of_mem _ hc)
    rw [List.cons_append, calcLcp_cons, if_pos ⟨rfl, hx⟩, ih hps]
    rfl

/-- A string is `scmp`-at most any of its extensions. -/
theorem sLe_append_self (p r : Str) : sLe p (p ++ r) := by
  induction p with
  | nil =>
    cases r with
    | nil => exact fun h => nomatch h
    | cons y t => exact fun h => nomatch h
  | cons x ps ih =>
    show sCmp (x :: ps) ((x :: ps) ++ r) ≠ .gt
    rw [List.cons_append]
    show sCmp (x :: ps) (x :: (ps ++ r)) ≠ .gt
    simp only [sCmp]
    rw [if_neg (lt_irrefl x), if_neg (lt_irrefl x)]
    exact ih

/-- The `LcpStringLoserTree_` constructor establishes the merge-loop
invariant when the number of streams is a power of two, the runs are sorted
with correct LCP arrays starting at `0`, and `knownCommonLcp` is the length
of a common NUL-free prefix `p` of all heads. -/
theorem mkLT_Inv {m kl : Nat} {runs : Nat → List Ent} {p : Str}
    (hrun : ∀ k, 1 ≤ k → k ≤ 2 ^ m → RunWF (runs k))
    (hp : WfStr p)
    (hpre : ∀ k, 1 ≤ k → k ≤ 2 ^ m → ∀ e, (runs k).head? = some e →
      sLe p e.s ∧ calcLcp e.s p = kl) :
    Inv (2 ^ m) runs (mkLT (2 ^ m) kl runs) p := by
  have hK1 : 1 ≤ 2 ^ m := Nat.one_le_two_pow
  set S : Nat → List Ent := fun k => if 1 ≤ k ∧ k ≤ 2 ^ m then runs k else []
    with hSdef
  have hwfS : WfStreams S := by
    intro k e he
    have he2 : e ∈ (if 1 ≤ k ∧ k ≤ 2 ^ m then runs k else []) := he
    by_cases hk : 1 ≤ k ∧ k ≤ 2 ^ m
    · rw [if_pos hk] at he2
      exact (hrun k hk.1 hk.2).1 e he2
    · rw [if_neg hk] at he2
      exact absurd he2 (by simp)
  have hheadsS : ∀ k, 1 ≤ k → k ≤ 2 ^ m → ∀ e, heads S k = some e →
      sLe p e.s ∧ calcLcp e.s p = kl := by
    intro k h1 h2 e he
    have hS : S k = runs k := if_pos ⟨h1, h2⟩
    rw [heads, hS] at he
    exact hpre k h1 h2 e he
  have hinit := @initTree_inv m kl _ p hwfS hp hheadsS
    (2 ^ m) (le_refl _)
  set Nf := (List.range (2 ^ m)).foldl
      (fun nodes k => initInsert (2 ^ m) kl S nodes (k + 1))
      (fun _ => ({ idx := 0, lcp := 0 } : Node)) with hNfdef
  obtain ⟨w, hSub, hIdx, hNR⟩ := hinit.2 (by omega)
  have hmain : Inv (2 ^ m) runs { streams := S, nodes := Nf } p := by
    refine ⟨hp, ?_, ?_, ?_, ?_, ?_⟩
    · show Sub S Nf (2 ^ m) 1 ((Nf 1).idx)
      rw [hIdx]
      exact hSub
    · show NodeRef S p (Nf 1)
      exact hNR
    · intro k hk1 hkK
      refine ⟨0, ?_⟩
      rw [List.drop_zero]
      show (if 1 ≤ k ∧ k ≤ 2 ^ m then runs k else []) = runs k
      rw [if_pos ⟨hk1, hkK⟩]
    · intro k hk
      show (if 1 ≤ k ∧ k ≤ 2 ^ m then runs k else []) = []
      rw [if_neg hk]
    · intro k e he
      replace he : heads S k = some e := he
      by_cases hk : 1 ≤ k ∧ k ≤ 2 ^ m
      · have hS : S k = runs k := if_pos hk
        rw [heads, hS] at he
        obtain ⟨h1, h2⟩ := hpre k hk.1 hk.2 e he
        have hf : e.f = 0 := (hrun k hk.1 hk.2).2.2 e he
        exact ⟨h1, by rw [hf]; exact Nat.zero_le _⟩
      · have hS : S k = [] := if_neg hk
        rw [heads, hS] at he
        exact absurd he (by simp)
  have hLT : mkLT (2 ^ m) kl runs = { streams := S, nodes := Nf } := rfl
  rw [hLT]
  exact hmain

end DSS

namespace DSS

/-- The output chain relation of the merger: sorted, with each emitted LCP
the true LCP of consecutive outputs. -/
theorem OutOK_chain {ρ : Str} {l : List (Str × Nat × Nat)} (h : OutOK ρ l) :
    List.Chain' (fun t1 t2 => sLe t1.1 t2.1 ∧ t2.2.1 = calcLcp t2.1 t1.1) l := by
  induction l generalizing ρ with
  | nil => exact List.chain'_nil
  | cons t rest ih =>
    obtain ⟨h1, h2, h3, h4⟩ := h
    cases rest with
    | nil => exact List.chain'_singleton t
    | cons t2 r2 =>
      rw [List.chain'_cons]
      have h5 := h4
      obtain ⟨g1, g2, g3, g4⟩ := h5
      exact ⟨⟨g1, g2⟩, ih h4⟩

theorem OutOK_head {ρ : Str} {l : List (Str × Nat × Nat)} (h : OutOK ρ l) :
    ∀ t0, l.head? = some t0 → sLe ρ t0.1 ∧ t0.2.1 = calcLcp t0.1 ρ := by
  intro t0 ht
  cases l with
  | nil => exact absurd ht (by simp)
  | cons t rest =>
    obtain ⟨h1, h2, h3, h4⟩ := h
    have : t = t0 := by simpa using ht
    subst this
    exact ⟨h1, h2⟩

theorem writeElemsWith_length (upN : (Nat → List Ent) → Node → Node → Node × Node)
    (K : Nat) : ∀ (len : Nat) (st : LT),
    (writeElemsWith upN K st len).1.length = len := by
  intro len
  induction len with
  | zero => intro st; rfl
  | succ len ih =>
    intro st
    show ((emitStepWith upN K st).1 ::
      (writeElemsWith upN K (emitStepWith upN K st).2 len).1).length = len + 1
    rw [List.length_cons, ih]

/-- Two sorted single-string runs (bytes `"ab"` and `"ac"`), each with the
conventional LCP array `[0]`; their full-set minimum LCP is `1`. -/
def ex2runs : Nat → List Ent := fun k =>
  if k = 1 then [{ s := [1, 2], f := 0 }]
  else if k = 2 then [{ s := [1, 3], f := 0 }] else []

/-- The LCP array recomputed from scratch on a string sequence:
`lcp[0] = 0` by convention, `lcp[i] = ` LCP of `out[i]` and `out[i-1]`. -/
def recomputedLcps : List Str → List Nat
  | [] => []
  | s :: rest => 0 :: List.zipWith calcLcp rest (s :: rest)


end DSS

namespace DSS

/-! ## Fuelled mirrors of the climb loops

`initClimb` and `replayClimbWith` are defined by well-founded recursion,
which the kernel cannot evaluate; the following structurally recursive
mirrors (with a fuel argument that any `fuel ≥ n` saturates) are proved
equal to them, so that concrete runs of the merger can be computed by
`decide`. -/

def initClimbF (streams : Nat → List Ent) (fuel : Nat) (c : Node)
    (nodes : Nat → Node) (n : Nat) : Node × (Nat → Node) × Nat :=
  match fuel with
  | 0 => (c, nodes, n)
  | fuel + 1 =>
    if n % 2 = 0 ∧ n > 2 then
      initClimbF streams fuel (updateNode streams c (nodes (n / 2))).1
        (upd nodes (n / 2) (updateNode streams c (nodes (n / 2))).2) (n / 2)
    else (c, nodes, n)

theorem initClimbF_eq (streams : Nat → List Ent) :
    ∀ fuel n, n ≤ fuel → ∀ c nodes,
      initClimbF streams fuel c nodes n = initClimb streams c nodes n := by
  intro fuel
  induction fuel with
  | zero =>
    intro n hn c nodes
    have hz : n = 0 := by omega
    subst hz
    rw [initClimb, dif_neg (by omega)]
    rfl
  | succ fuel ih =>
    intro n hn c nodes
    by_cases hc : n % 2 = 0 ∧ n > 2
    · have hR : initClimb streams c nodes n =
          initClimb streams (updateNode streams c (nodes (n / 2))).1
            (upd nodes (n / 2) (updateNode streams c (nodes (n / 2))).2) (n / 2) := by
        rw [initClimb, dif_pos hc]
      have hL : initClimbF streams (fuel + 1) c nodes n =
          initClimbF streams fuel (updateNode streams c (nodes (n / 2))).1
            (upd nodes (n / 2) (updateNode streams c (nodes (n / 2))).2) (n / 2) := by
        simp only [initClimbF]
        rw [if_pos hc]
      rw [hR, hL]
      exact ih (n / 2) (by omega) _ _
    · rw [initClimb, dif_neg hc]
      simp only [initClimbF]
      rw [if_neg hc]

def replayClimbF (upN : (Nat → List Ent) → Node → Node → Node × Node)
    (streams : Nat → List Ent) (fuel : Nat) (c : Node) (nodes : Nat → Node)
    (n : Nat) : Node × (Nat → Node) :=
  match fuel with
  | 0 => (c, nodes)
  | fuel + 1 =>
    if n > 2 then
      replayClimbF upN streams fuel (upN streams c (nodes ((n + 1) / 2))).1
        (upd nodes ((n + 1) / 2) (upN streams c (nodes ((n + 1) / 2))).2)
        ((n + 1) / 2)
    else (c, nodes)

theorem replayClimbF_eq (upN : (Nat → List Ent) → Node → Node → Node × Node)
    (streams : Nat → List Ent) :
    ∀ fuel n, n ≤ fuel → ∀ c nodes,
      replayClimbF upN streams fuel c nodes n =
        replayClimbWith upN streams c nodes n := by
  intro fuel
  induction fuel with
  | zero =>
    intro n hn c nodes
    have hz : n = 0 := by omega
    subst hz
    rw [replayClimbWith, dif_neg (by omega)]
    rfl
  | succ fuel ih =>
    intro n hn c nodes
    by_cases hc : n > 2
    · have hR : replayClimbWith upN streams c nodes n =
          replayClimbWith upN streams (upN streams c (nodes ((n + 1) / 2))).1
            (upd nodes ((n + 1) / 2) (upN streams c (nodes ((n + 1) / 2))).2)
            ((n + 1) / 2) := by
        rw [replayClimbWith, dif_pos hc]
      have hL : replayClimbF upN streams (fuel + 1) c nodes n =
          replayClimbF upN streams fuel (upN streams c (nodes ((n + 1) / 2))).1
            (upd nodes ((n + 1) / 2) (upN streams c (nodes ((n + 1) / 2))).2)
            ((n + 1) / 2) := by
        simp only [replayClimbF]
        rw [if_pos hc]
      rw [hR, hL]
      exact ih ((n + 1) / 2) (by omega) _ _
    · rw [replayClimbWith, dif_neg hc]
      simp only [replayClimbF]
      rw [if_neg hc]

def initInsertF (K kl : Nat) (streams : Nat → List Ent) (nodes : Nat → Node)
    (k : Nat) : Nat → Node :=
  let r := initClimbF streams (K + k) { idx := k, lcp := kl } nodes (K + k)
  upd r.2.1 ((r.2.2 + 1) / 2) r.1

theorem initInsertF_eq (K kl : Nat) (streams : Nat → List Ent)
    (nodes : Nat → Node) (k : Nat) :
    initInsertF K kl streams nodes k = initInsert K kl streams nodes k := by
  simp only [initInsertF, initInsert]
  rw [initClimbF_eq streams (K + k) (K + k) (le_refl _)]

def initTreeF (K kl : Nat) (streams : Nat → List Ent) : Nat → Node :=
  (List.range K).foldl (fun nodes k => initInsertF K kl streams nodes (k + 1))
    (fun _ => { idx := 0, lcp := 0 })

theorem initTreeF_eq (K kl : Nat) (streams : Nat → List Ent) :
    initTreeF K kl streams = initTree K kl streams := by
  rw [initTreeF, initTree]
  congr 1
  funext nodes k
  exact initInsertF_eq K kl streams nodes (k + 1)

def mkLTF (K kl : Nat) (runs : Nat → List Ent) : LT :=
  let streams := fun k => if 1 ≤ k ∧ k ≤ K then runs k else []
  { streams := streams, nodes := initTreeF K kl streams }

theorem mkLTF_eq (K kl : Nat) (runs : Nat → List Ent) :
    mkLTF K kl runs = mkLT K kl runs := by
  simp only [mkLTF, mkLT]
  rw [initTreeF_eq]

def emitStepF (upN : (Nat → List Ent) → Node → Node → Node × Node)
    (K : Nat) (st : LT) : (Str × Nat × Nat) × LT :=
  let w := (st.nodes 1).idx
  let he := (st.streams w).headD { s := [], f := 0 }
  let out := (he.s, (st.nodes 1).lcp, he.f)
  let streams2 := upd st.streams w ((st.streams w).tail)
  let c0 : Node :=
    match streams2 w with
    | [] => st.nodes 1
    | e :: _ => { idx := w, lcp := e.f }
  let r := replayClimbF upN streams2 (w + K) c0 st.nodes (w + K)
  (out, { streams := streams2, nodes := upd r.2 1 r.1 })

theorem emitStepF_eq (upN : (Nat → List Ent) → Node → Node → Node × Node)
    (K : Nat) (st : LT) : emitStepF upN K st = emitStepWith upN K st := by
  simp only [emitStepF, emitStepWith]
  rw [replayClimbF_eq upN _ _ _ (le_refl _)]

def writeElemsF (upN : (Nat → List Ent) → Node → Node → Node × Node)
    (K : Nat) (st : LT) : Nat → List (Str × Nat × Nat) × LT
  | 0 => ([], st)
  | len + 1 =>
    let r := emitStepF upN K st
    let rest := writeElemsF upN K r.2 len
    (r.1 :: rest.1, rest.2)

theorem writeElemsF_eq (upN : (Nat → List Ent) → Node → Node → Node × Node)
    (K : Nat) : ∀ (len : Nat) (st : LT),
    writeElemsF upN K st len = writeElemsWith upN K st len := by
  intro len
  induction len with
  | zero => intro st; rfl
  | succ len ih =>
    intro st
    simp only [writeElemsF, writeElemsWith]
    rw [emitStepF_eq, ih]

def loserTreeMergeF (K kl : Nat) (runs : Nat → List Ent) (len : Nat) :
    List (Str × Nat × Nat) :=
  (writeElemsF updateNode K (mkLTF K kl runs) len).1

theorem loserTreeMergeF_eq (K kl : Nat) (runs : Nat → List Ent) (len : Nat) :
    loserTreeMergeF K kl runs len = loserTreeMerge K kl runs len := by
  rw [loserTreeMergeF, loserTreeMerge, writeElems, mkLTF_eq, writeElemsF_eq]

def loserTreeMergeCF (K kl : Nat) (runs : Nat → List Ent) (len : Nat) :
    List (Str × Nat × Nat) :=
  (writeElemsF updateNodeC K (mkLTF K kl runs) len).1

theorem loserTreeMergeCF_eq (K kl : Nat) (runs : Nat → List Ent) (len : Nat) :
    loserTreeMergeCF K kl runs len = loserTreeMergeC K kl runs len := by
  rw [loserTreeMergeCF, loserTreeMergeC, writeElemsC, mkLTF_eq, writeElemsF_eq]

theorem ex2_merge_eval : loserTreeMerge 2 1 ex2runs 2 =
    [([1, 2], 1, 0), ([1, 3], 1, 0)] := by
  rw [← loserTreeMergeF_eq]
  decide

end DSS

namespace DSS

/-- C2 (amended): for a power-of-two number `K = 2^m` of sorted runs with
correct LCP arrays (`lcp[0] = 0` in each run) whose head strings all extend
a common NUL-free prefix `p` of length `knownCommonLcp`, merging the full
length through `LcpStringLoserTree_` (construct, then
`writeElementsToStream`) emits a chain that is sorted with each emitted LCP
equal to the true LCP of consecutive outputs, whose first emitted LCP is
the LCP of the first output with `p` (that is, `knownCommonLcp` — not the
from-scratch convention value `0`), and whose strings are a permutation of
the input strings.  (The power-of-two restriction matters: for other `K`
the `initTree` loop reads node slots it has not yet written.) -/
theorem C2_merger_sorted_perm_lcp {m kl : Nat} {runs : Nat → List Ent} {p : Str}
    (hrun : ∀ k, 1 ≤ k → k ≤ 2 ^ m → RunWF (runs k))
    (hp : WfStr p) (hkl : kl = p.length)
    (hpre : ∀ k, 1 ≤ k → k ≤ 2 ^ m → ∀ e, (runs k).head? = some e →
      ∃ r, e.s = p ++ r)
    {len : Nat} (hlen : len = (streamsConcat (2 ^ m) runs).length) :
    List.Chain' (fun t1 t2 => sLe t1.1 t2.1 ∧ t2.2.1 = calcLcp t2.1 t1.1)
      (loserTreeMerge (2 ^ m) kl runs len) ∧
    (∀ t0, (loserTreeMerge (2 ^ m) kl runs len).head? = some t0 →
      sLe p t0.1 ∧ t0.2.1 = calcLcp t0.1 p) ∧
    ((loserTreeMerge (2 ^ m) kl runs len).map (fun t => t.1)).Perm
      ((streamsConcat (2 ^ m) runs).map (fun e => e.s)) := by
  have hpre2 : ∀ k, 1 ≤ k → k ≤ 2 ^ m → ∀ e, (runs k).head? = some e →
      sLe p e.s ∧ calcLcp e.s p = kl := by
    intro k h1 h2 e he
    obtain ⟨r, hr⟩ := hpre k h1 h2 e he
    rw [hr]
    exact ⟨sLe_append_self p r, by rw [calcLcp_append_self hp, hkl]⟩
  have hInv := mkLT_Inv (m := m) hrun hp hpre2
  have hSeq : streamsConcat (2 ^ m) (mkLT (2 ^ m) kl runs).streams =
      streamsConcat (2 ^ m) runs := by
    refine streamsConcat_congr ?_
    intro k h1 h2
    show (if 1 ≤ k ∧ k ≤ 2 ^ m then runs k else []) = runs k
    rw [if_pos ⟨h1, h2⟩]
  have hlen2 : len ≤
      (streamsConcat (2 ^ m) (mkLT (2 ^ m) kl runs).streams).length := by
    rw [hSeq]
    omega
  obtain ⟨hout, hperm⟩ := writeElems_master hrun len (mkLT (2 ^ m) kl runs) p
    hInv hlen2
  have hout2 : OutOK p (loserTreeMerge (2 ^ m) kl runs len) := hout
  refine ⟨OutOK_chain hout2, OutOK_head hout2, ?_⟩
  have hL : (writeElemsWith updateNode (2 ^ m) (mkLT (2 ^ m) kl runs) len).1.length
      = len := writeElemsWith_length updateNode (2 ^ m) len _
  have hlen3 := hperm.length_eq
  rw [List.length_append, List.length_map, hL, hSeq, ← hlen] at hlen3
  have hfin : streamsConcat (2 ^ m)
      (writeElemsWith updateNode (2 ^ m) (mkLT (2 ^ m) kl runs) len).2.streams
      = [] := by
    have : (streamsConcat (2 ^ m)
        (writeElemsWith updateNode (2 ^ m) (mkLT (2 ^ m) kl runs) len).2.streams).length
        = 0 := by omega
    exact List.length_eq_zero.mp this
  rw [hfin, List.append_nil, hSeq] at hperm
  have hperm2 := hperm.map (fun e : Ent => e.s)
  rw [List.map_map] at hperm2
  have hfun : ((fun e : Ent => e.s) ∘
      (fun t : Str × Nat × Nat => Ent.mk t.1 t.2.2)) = fun t => t.1 := rfl
  rw [hfun] at hperm2
  exact hperm2

/-- C2 counterexample: two sorted single-string runs, bytes `[1,2]` and
`[1,3]`, each carrying the conventional LCP array `[0]`, merged with
`knownCommonLcp = 1`, which is the minimum LCP over the whole two-run set.
The merged output is sorted, but its emitted LCP array is `[1, 1]` while
the LCP array recomputed from scratch on the output sequence is `[0, 1]`:
the first emitted LCP is `knownCommonLcp`, not the recomputed value, so
the claim's "output LCP array equals the LCP array recomputed from
scratch" fails. -/
theorem C2_counterexample_first_lcp :
    RunWF (ex2runs 1) ∧ RunWF (ex2runs 2) ∧
    calcLcp [1, 2] [1, 3] = 1 ∧
    loserTreeMerge 2 1 ex2runs 2 = [([1, 2], 1, 0), ([1, 3], 1, 0)] ∧
    (loserTreeMerge 2 1 ex2runs 2).map (fun t => t.2.1) ≠
      recomputedLcps ((loserTreeMerge 2 1 ex2runs 2).map (fun t => t.1)) := by
  have heval : loserTreeMerge 2 1 ex2runs 2 =
      [([1, 2], 1, 0), ([1, 3], 1, 0)] := by
    rw [← loserTreeMergeF_eq]
    decide
  have hwf1 : RunWF (ex2runs 1) := by
    refine ⟨by decide, List.chain'_singleton _, ?_⟩
    intro e he
    have he2 : ({ s := [1, 2], f := 0 } : Ent) = e := by
      simpa [ex2runs] using he
    rw [← he2]
  have hwf2 : RunWF (ex2runs 2) := by
    refine ⟨by decide, List.chain'_singleton _, ?_⟩
    intro e he
    have he2 : ({ s := [1, 3], f := 0 } : Ent) = e := by
      simpa [ex2runs] using he
    rw [← he2]
  refine ⟨hwf1, hwf2, by decide, heval, ?_⟩
  rw [heval]
  decide

/-- Witness for the amended merger theorem at `m = 1`, `p = [1]`,
`knownCommonLcp = 1`, runs `[[1,2]]` and `[[1,3]]`. -/
theorem C2_merger_sorted_perm_lcp_witness :
    List.Chain' (fun t1 t2 => sLe t1.1 t2.1 ∧ t2.2.1 = calcLcp t2.1 t1.1)
      (loserTreeMerge (2 ^ 1) 1 ex2runs 2) ∧
    (∀ t0, (loserTreeMerge (2 ^ 1) 1 ex2runs 2).head? = some t0 →
      sLe [1] t0.1 ∧ t0.2.1 = calcLcp t0.1 [1]) ∧
    ((loserTreeMerge (2 ^ 1) 1 ex2runs 2).map (fun t => t.1)).Perm
      ((streamsConcat (2 ^ 1) ex2runs).map (fun e => e.s)) := by
  refine C2_merger_sorted_perm_lcp (m := 1) (p := [1]) ?_ (by decide) rfl ?_
    (by decide)
  · intro k h1 h2
    have hk : k = 1 ∨ k = 2 := by omega
    rcases hk with rfl | rfl
    · refine ⟨by decide, List.chain'_singleton _, ?_⟩
      intro e he
      have he2 : ({ s := [1, 2], f := 0 } : Ent) = e := by
        simpa [ex2runs] using he
      rw [← he2]
    · refine ⟨by decide, List.chain'_singleton _, ?_⟩
      intro e he
      have he2 : ({ s := [1, 3], f := 0 } : Ent) = e := by
        simpa [ex2runs] using he
      rw [← he2]
  · intro k h1 h2 e he
    have hk : k = 1 ∨ k = 2 := by omega
    rcases hk with rfl | rfl
    · have he2 : ({ s := [1, 2], f := 0 } : Ent) = e := by
        simpa [ex2runs] using he
      refine ⟨[2], ?_⟩
      rw [← he2]
      rfl
    · have he2 : ({ s := [1, 3], f := 0 } : Ent) = e := by
        simpa [ex2runs] using he
      refine ⟨[3], ?_⟩
      rw [← he2]
      rfl

end DSS

namespace DSS

/-- C5: one `updateNode` match whose two nodes carry true LCPs against a
common reference `ρ` at most both heads behaves exactly as specified: an
empty defender stream loses in place (two empty streams change nothing), an
empty contender stream loses by swap, a strictly greater defender LCP wins
by swap and a strictly smaller one loses with no change (both without
consulting any characters — the results are pure node swaps), equal LCPs
scan from offset `lcp`, store the true LCP of the two heads in the
defender, and swap exactly when the defender's head is smaller; afterwards
the contender's head is at most the defender's head and, whenever both
heads exist, the defender's LCP is their true LCP (the two assertions of
`updateNode`). -/
theorem C5_updateNode_cases {streams : Nat → List Ent} {ρ : Str} {c d : Node}
    (hwf : WfStreams streams) (hρ : WfStr ρ)
    (hc : NodeRef streams ρ c) (hd : NodeRef streams ρ d) :
    (streams d.idx = [] → updateNode streams c d = (c, d)) ∧
    (streams d.idx ≠ [] → streams c.idx = [] → updateNode streams c d = (d, c)) ∧
    (streams d.idx ≠ [] → streams c.idx ≠ [] → c.lcp < d.lcp →
      updateNode streams c d = (d, c)) ∧
    (streams d.idx ≠ [] → streams c.idx ≠ [] → d.lcp < c.lcp →
      updateNode streams c d = (c, d)) ∧
    (∀ de ds ce cs, streams d.idx = de :: ds → streams c.idx = ce :: cs →
      d.lcp = c.lcp →
      (sLt de.s ce.s →
        updateNode streams c d = (d, { idx := c.idx, lcp := calcLcp de.s ce.s })) ∧
      (¬ sLt de.s ce.s →
        updateNode streams c d = (c, { idx := d.idx, lcp := calcLcp de.s ce.s }))) ∧
    oLe (heads streams (updateNode streams c d).1.idx)
      (heads streams (updateNode streams c d).2.idx) ∧
    loserLcpOK streams (updateNode streams c d).1 (updateNode streams c d).2 := by
  obtain ⟨hperm, hnr, hole, hllcp⟩ := updateNode_spec hwf hρ hc hd
  refine ⟨?_, ?_, ?_, ?_, ?_, hole, hllcp⟩
  · intro h
    simp only [updateNode, h]
  · intro h1 h2
    cases hdd : streams d.idx with
    | nil => exact absurd hdd h1
    | cons de ds => simp only [updateNode, hdd, h2]
  · intro h1 h2 hlt
    cases hdd : streams d.idx with
    | nil => exact absurd hdd h1
    | cons de ds =>
      cases hcc : streams c.idx with
      | nil => exact absurd hcc h2
      | cons ce cs =>
        simp only [updateNode, hdd, hcc]
        rw [if_pos (by omega : d.lcp > c.lcp)]
  · intro h1 h2 hlt
    cases hdd : streams d.idx with
    | nil => exact absurd hdd h1
    | cons de ds =>
      cases hcc : streams c.idx with
      | nil => exact absurd hcc h2
      | cons ce cs =>
        simp only [updateNode, hdd, hcc]
        rw [if_neg (by omega), if_neg (by omega)]
  · intro de ds ce cs hdd hcc heq
    have hde : heads streams d.idx = some de := heads_eq_some hdd
    have hce : heads streams c.idx = some ce := heads_eq_some hcc
    have hwfd : WfStr de.s := hwf d.idx de (by rw [hdd]; exact List.mem_cons_self _ _)
    have hwfc : WfStr ce.s := hwf c.idx ce (by rw [hcc]; exact List.mem_cons_self _ _)
    obtain ⟨hρd, hdl⟩ := hd de hde
    obtain ⟨hρc, hcl⟩ := hc ce hce
    have hcl2 : d.lcp = calcLcp ce.s ρ := by rw [heq]; exact hcl
    have hag : ∀ i < d.lcp, chr de.s i = chr ce.s i ∧ chr de.s i ≠ 0 :=
      lcp_ref_agree hdl.symm hcl2.symm
    have hscan : d.lcp + calcLcp (de.s.drop d.lcp) (ce.s.drop d.lcp)
        = calcLcp de.s ce.s := scanFrom_eq_calcLcp hag
    have hchr1 : chr (de.s.drop d.lcp) (calcLcp (de.s.drop d.lcp) (ce.s.drop d.lcp))
        = chr de.s (calcLcp de.s ce.s) := by
      rw [chr_drop, hscan]
    have hchr2 : chr (ce.s.drop d.lcp) (calcLcp (de.s.drop d.lcp) (ce.s.drop d.lcp))
        = chr ce.s (calcLcp de.s ce.s) := by
      rw [chr_drop, hscan]
    have hit := sLt_iff_chr_lt hwfd hwfc
    constructor
    · intro hslt
      have hcmp : chr (de.s.drop d.lcp) (calcLcp (de.s.drop d.lcp) (ce.s.drop d.lcp))
          < chr (ce.s.drop d.lcp) (calcLcp (de.s.drop d.lcp) (ce.s.drop d.lcp)) := by
        rw [hchr1, hchr2]
        exact hit.mp hslt
      simp only [updateNode, hdd, hcc]
      rw [← heq, if_neg (lt_irrefl d.lcp), if_pos rfl, if_pos hcmp, hscan]
    · intro hslt
      have hcmp : ¬ chr (de.s.drop d.lcp) (calcLcp (de.s.drop d.lcp) (ce.s.drop d.lcp))
          < chr (ce.s.drop d.lcp) (calcLcp (de.s.drop d.lcp) (ce.s.drop d.lcp)) := by
        rw [hchr1, hchr2]
        intro hcl3
        exact hslt (hit.mpr hcl3)
      simp only [updateNode, hdd, hcc]
      rw [← heq, if_neg (lt_irrefl d.lcp), if_pos rfl, if_neg hcmp, hscan]

/-- Witness for the `updateNode` match lemma: streams `[1,2]` and `[1,3]`
with reference `[1]`, contender `{idx := 2, lcp := 1}`, defender
`{idx := 1, lcp := 1}`. -/
theorem C5_updateNode_cases_witness :
    (ex2runs (Node.idx { idx := 1, lcp := 1 }) = [] →
      updateNode ex2runs { idx := 2, lcp := 1 } { idx := 1, lcp := 1 } =
        ({ idx := 2, lcp := 1 }, { idx := 1, lcp := 1 })) ∧
    (ex2runs (Node.idx { idx := 1, lcp := 1 }) ≠ [] →
      ex2runs (Node.idx { idx := 2, lcp := 1 }) = [] →
      updateNode ex2runs { idx := 2, lcp := 1 } { idx := 1, lcp := 1 } =
        ({ idx := 1, lcp := 1 }, { idx := 2, lcp := 1 })) ∧
    (ex2runs (Node.idx { idx := 1, lcp := 1 }) ≠ [] →
      ex2runs (Node.idx { idx := 2, lcp := 1 }) ≠ [] →
      Node.lcp { idx := 2, lcp := 1 } < Node.lcp { idx := 1, lcp := 1 } →
      updateNode ex2runs { idx := 2, lcp := 1 } { idx := 1, lcp := 1 } =
        ({ idx := 1, lcp := 1 }, { idx := 2, lcp := 1 })) ∧
    (ex2runs (Node.idx { idx := 1, lcp := 1 }) ≠ [] →
      ex2runs (Node.idx { idx := 2, lcp := 1 }) ≠ [] →
      Node.lcp { idx := 1, lcp := 1 } < Node.lcp { idx := 2, lcp := 1 } →
      updateNode ex2runs { idx := 2, lcp := 1 } { idx := 1, lcp := 1 } =
        ({ idx := 2, lcp := 1 }, { idx := 1, lcp := 1 })) ∧
    (∀ de ds ce cs,
      ex2runs (Node.idx { idx := 1, lcp := 1 }) = de :: ds →
      ex2runs (Node.idx { idx := 2, lcp := 1 }) = ce :: cs →
      Node.lcp { idx := 1, lcp := 1 } = Node.lcp { idx := 2, lcp := 1 } →
      (sLt de.s ce.s →
        updateNode ex2runs { idx := 2, lcp := 1 } { idx := 1, lcp := 1 } =
          ({ idx := 1, lcp := 1 }, { idx := 2, lcp := calcLcp de.s ce.s })) ∧
      (¬ sLt de.s ce.s →
        updateNode ex2runs { idx := 2, lcp := 1 } { idx := 1, lcp := 1 } =
          ({ idx := 2, lcp := 1 }, { idx := 1, lcp := calcLcp de.s ce.s }))) ∧
    oLe
      (heads ex2runs
        ((updateNode ex2runs { idx := 2, lcp := 1 } { idx := 1, lcp := 1 }).1.idx))
      (heads ex2runs
        ((updateNode ex2runs { idx := 2, lcp := 1 } { idx := 1, lcp := 1 }).2.idx)) ∧
    loserLcpOK ex2runs
      (updateNode ex2runs { idx := 2, lcp := 1 } { idx := 1, lcp := 1 }).1
      (updateNode ex2runs { idx := 2, lcp := 1 } { idx := 1, lcp := 1 }).2 := by
  refine C5_updateNode_cases (ρ := [1]) ?_ (by decide) ?_ ?_
  · intro k e he
    have he2 : e ∈ (if k = 1 then [({ s := [1, 2], f := 0 } : Ent)]
        else if k = 2 then [{ s := [1, 3], f := 0 }] else []) := he
    by_cases h1 : k = 1
    · rw [if_pos h1] at he2
      have he3 : e = { s := [1, 2], f := 0 } := by simpa using he2
      rw [he3]
      decide
    · rw [if_neg h1] at he2
      by_cases h2 : k = 2
      · rw [if_pos h2] at he2
        have he3 : e = { s := [1, 3], f := 0 } := by simpa using he2
        rw [he3]
        decide
      · rw [if_neg h2] at he2
        exact absurd he2 (by simp)
  · intro e he
    have he2 : ({ s := [1, 3], f := 0 } : Ent) = e := by
      simpa [ex2runs, heads] using he
    rw [← he2]
    exact ⟨by decide, by decide⟩
  · intro e he
    have he2 : ({ s := [1, 2], f := 0 } : Ent) = e := by
      simpa [ex2runs, heads] using he
    rw [← he2]
    exact ⟨by decide, by decide⟩

end DSS

namespace DSS

/-- Compressed representation of a run entry: the stored bytes are the
suffix after the entry's head LCP (`firstLcp`), which stays alongside. -/
def compressEnt (e : Ent) : Ent := { s := e.s.drop e.f, f := e.f }

/-- Compress every run. -/
def compressRuns (runs : Nat → List Ent) : Nat → List Ent :=
  fun k => (runs k).map compressEnt

@[simp]
theorem compressEnt_s (e : Ent) : (compressEnt e).s = e.s.drop e.f := rfl

@[simp]
theorem compressEnt_f (e : Ent) : (compressEnt e).f = e.f := rfl

/-- Modelled from the spec: re-extension of the compressed output — each
output string is the previous output string's first `oldLcp` bytes followed
by the emitted suffix. -/
def extendPrefix (prev : Str) : List (Str × Nat × Nat) → List Str
  | [] => []
  | t :: rest =>
    let s := prev.take t.2.2 ++ t.1
    s :: extendPrefix s rest

theorem chr_eq_getElem {s : Str} {i : Nat} (h : i < s.length) :
    chr s i = s[i] := by
  rw [chr, List.getD_eq_getElem s 0 h]

theorem calcLcp_take_eq {a b : Str} {n : Nat} (h : n ≤ calcLcp a b) :
    a.take n = b.take n := by
  have hla : n ≤ a.length := le_trans h (calcLcp_le_length_left a b)
  have hlb : n ≤ b.length := le_trans h (calcLcp_le_length_right a b)
  apply List.ext_getElem
  · rw [List.length_take, List.length_take]
    omega
  · intro i h1 h2
    rw [List.getElem_take, List.getElem_take]
    have hi : i < n := by
      rw [List.length_take] at h1
      omega
    have hag := calcLcp_agree (a := a) (b := b) (i := i) (by omega)
    rw [← chr_eq_getElem (by omega), ← chr_eq_getElem (by omega)]
    exact hag.1

/-- Re-extending the compressed form of an `OutOK` chain, starting from the
reference string, recovers the original strings byte for byte. -/
theorem extendPrefix_reconstructs {ρ : Str} :
    ∀ out, OutOK ρ out →
      extendPrefix ρ (out.map (fun t => (t.1.drop t.2.2, t.2.1, t.2.2))) =
        out.map (fun t => t.1) := by
  intro out
  induction out generalizing ρ with
  | nil => intro _; rfl
  | cons t rest ih =>
    intro h
    obtain ⟨h1, h2, h3, h4⟩ := h
    rw [List.map_cons, List.map_cons, extendPrefix]
    have htake : ρ.take t.2.2 = t.1.take t.2.2 := by
      refine calcLcp_take_eq ?_
      rw [calcLcp_comm]
      omega
    have hs : ρ.take t.2.2 ++ t.1.drop t.2.2 = t.1 := by
      rw [htake, List.take_append_drop]
    show (ρ.take t.2.2 ++ t.1.drop t.2.2) ::
        extendPrefix (ρ.take t.2.2 ++ t.1.drop t.2.2)
          (rest.map (fun t => (t.1.drop t.2.2, t.2.1, t.2.2))) =
      t.1 :: rest.map (fun t => t.1)
    rw [hs, ih h4]

/-- One compressed match simulates one plain match whenever both node LCPs
dominate their stream heads' stored LCPs (the `lcp - firstLcp` offsets then
do not underflow). -/
theorem updateNodeC_sim {streamsC streamsP : Nat → List Ent}
    (hcomp : ∀ k, heads streamsC k = Option.map compressEnt (heads streamsP k))
    {c d : Node}
    (hcf : ∀ e, heads streamsP c.idx = some e → e.f ≤ c.lcp)
    (hdf : ∀ e, heads streamsP d.idx = some e → e.f ≤ d.lcp) :
    updateNodeC streamsC c d = updateNode streamsP c d := by
  cases hdd : streamsP d.idx with
  | nil =>
    have hCd : streamsC d.idx = [] := by
      have hx := hcomp d.idx
      rw [heads, heads, hdd] at hx
      simp only [List.head?_nil, Option.map_none'] at hx
      exact List.head?_eq_none_iff.mp hx
    simp only [updateNodeC, updateNode, hdd, hCd]
  | cons de dr =>
    obtain ⟨drC, hCd⟩ : ∃ r, streamsC d.idx = compressEnt de :: r := by
      have hx := hcomp d.idx
      rw [heads, heads, hdd] at hx
      simp only [List.head?_cons, Option.map_some'] at hx
      cases hc2 : streamsC d.idx with
      | nil => rw [hc2] at hx; exact absurd hx (by simp)
      | cons x xs =>
        rw [hc2] at hx
        simp only [List.head?_cons, Option.some.injEq] at hx
        exact ⟨xs, by rw [hx]⟩
    have hde : heads streamsP d.idx = some de := heads_eq_some hdd
    have hdfe : de.f ≤ d.lcp := hdf de hde
    cases hcc : streamsP c.idx with
    | nil =>
      have hCc : streamsC c.idx = [] := by
        have hx := hcomp c.idx
        rw [heads, heads, hcc] at hx
        simp only [List.head?_nil, Option.map_none'] at hx
        exact List.head?_eq_none_iff.mp hx
      simp only [updateNodeC, updateNode, hdd, hCd, hcc, hCc]
    | cons ce cr =>
      obtain ⟨crC, hCc⟩ : ∃ r, streamsC c.idx = compressEnt ce :: r := by
        have hx := hcomp c.idx
        rw [heads, heads, hcc] at hx
        simp only [List.head?_cons, Option.map_some'] at hx
        cases hc2 : streamsC c.idx with
        | nil => rw [hc2] at hx; exact absurd hx (by simp)
        | cons x xs =>
          rw [hc2] at hx
          simp only [List.head?_cons, Option.some.injEq] at hx
          exact ⟨xs, by rw [hx]⟩
      have hce : heads streamsP c.idx = some ce := heads_eq_some hcc
      have hcfe : ce.f ≤ c.lcp := hcf ce hce
      have hdropd : (compressEnt de).s.drop (d.lcp - (compressEnt de).f) =
          de.s.drop d.lcp := by
        rw [compressEnt_s, compressEnt_f, List.drop_drop]
        congr 1
        omega
      have hdropc : (compressEnt ce).s.drop (c.lcp - (compressEnt ce).f) =
          ce.s.drop c.lcp := by
        rw [compressEnt_s, compressEnt_f, List.drop_drop]
        congr 1
        omega
      simp only [updateNodeC, updateNode, hdd, hCd, hcc, hCc]
      by_cases h1 : d.lcp > c.lcp
      · rw [if_pos h1, if_pos h1]
      · rw [if_neg h1, if_neg h1]
        by_cases h2 : d.lcp = c.lcp
        · rw [if_pos h2, if_pos h2, hdropd, hdropc]
        · rw [if_neg h2, if_neg h2]

end DSS

namespace DSS

/-- `updateNode` only reads stream heads. -/
theorem updateNode_heads_congr {s1 s2 : Nat → List Ent}
    (h : ∀ k, heads s1 k = heads s2 k) (c d : Node) :
    updateNode s1 c d = updateNode s2 c d := by
  cases h2d : s2 d.idx with
  | nil =>
    have h1d : s1 d.idx = [] := by
      have hx := h d.idx
      rw [heads, heads, h2d] at hx
      simpa using List.head?_eq_none_iff.mp (by simpa using hx)
    simp only [updateNode, h2d, h1d]
  | cons de dr =>
    obtain ⟨dr1, h1d⟩ : ∃ r, s1 d.idx = de :: r := by
      have hx := h d.idx
      rw [heads, heads, h2d] at hx
      cases hc2 : s1 d.idx with
      | nil => rw [hc2] at hx; exact absurd hx (by simp)
      | cons x xs =>
        rw [hc2] at hx
        simp only [List.head?_cons, Option.some.injEq] at hx
        exact ⟨xs, by rw [hx]⟩
    cases h2c : s2 c.idx with
    | nil =>
      have h1c : s1 c.idx = [] := by
        have hx := h c.idx
        rw [heads, heads, h2c] at hx
        simpa using List.head?_eq_none_iff.mp (by simpa using hx)
      simp only [updateNode, h2d, h1d, h2c, h1c]
    | cons ce cr =>
      obtain ⟨cr1, h1c⟩ : ∃ r, s1 c.idx = ce :: r := by
        have hx := h c.idx
        rw [heads, heads, h2c] at hx
        cases hc2 : s1 c.idx with
        | nil => rw [hc2] at hx; exact absurd hx (by simp)
        | cons x xs =>
          rw [hc2] at hx
          simp only [List.head?_cons, Option.some.injEq] at hx
          exact ⟨xs, by rw [hx]⟩
      simp only [updateNode, h2d, h1d, h2c, h1c]

theorem initClimb_congr {s1 s2 : Nat → List Ent}
    (h : ∀ k, heads s1 k = heads s2 k) :
    ∀ n c nodes, initClimb s1 c nodes n = initClimb s2 c nodes n := by
  intro n
  induction n using Nat.strong_induction_on with
  | _ n ih =>
    intro c nodes
    by_cases hc : n % 2 = 0 ∧ n > 2
    · have hL : initClimb s1 c nodes n =
          initClimb s1 (updateNode s1 c (nodes (n / 2))).1
            (upd nodes (n / 2) (updateNode s1 c (nodes (n / 2))).2) (n / 2) := by
        rw [initClimb, dif_pos hc]
      have hR : initClimb s2 c nodes n =
          initClimb s2 (updateNode s2 c (nodes (n / 2))).1
            (upd nodes (n / 2) (updateNode s2 c (nodes (n / 2))).2) (n / 2) := by
        rw [initClimb, dif_pos hc]
      rw [hL, hR, updateNode_heads_congr h]
      exact ih (n / 2) (by omega) _ _
    · rw [initClimb, dif_neg hc, initClimb, dif_neg hc]

theorem initTree_congr {s1 s2 : Nat → List Ent} (K kl : Nat)
    (h : ∀ k, heads s1 k = heads s2 k) :
    initTree K kl s1 = initTree K kl s2 := by
  rw [initTree, initTree]
  congr 1
  funext nodes k
  rw [initInsert, initInsert, initClimb_congr h]

/-- Constructing the tree over the compressed runs yields the same node
array as over the plain runs: at construction time every stream head has
`firstLcp = 0`, so compression leaves all heads untouched, and `initTree`
reads only heads. -/
theorem mkLT_compress_nodes {K kl : Nat} {runs : Nat → List Ent}
    (hhead : ∀ k, 1 ≤ k → k ≤ K → ∀ e, (runs k).head? = some e → e.f = 0) :
    (mkLT K kl (compressRuns runs)).nodes = (mkLT K kl runs).nodes := by
  show initTree K kl
      (fun k => if 1 ≤ k ∧ k ≤ K then compressRuns runs k else []) =
    initTree K kl (fun k => if 1 ≤ k ∧ k ≤ K then runs k else [])
  refine initTree_congr K kl ?_
  intro k
  by_cases hk : 1 ≤ k ∧ k ≤ K
  · show (if 1 ≤ k ∧ k ≤ K then compressRuns runs k else []).head? =
      (if 1 ≤ k ∧ k ≤ K then runs k else []).head?
    rw [if_pos hk, if_pos hk]
    show ((runs k).map compressEnt).head? = (runs k).head?
    rw [List.head?_map]
    cases hh : (runs k).head? with
    | none => rfl
    | some e =>
      have hf : e.f = 0 := hhead k hk.1 hk.2 e hh
      have hce : compressEnt e = e := by
        cases e with
        | mk s f =>
          simp only [compressEnt]
          rw [show (Ent.mk s f).f = f from rfl] at hf
          subst hf
          rw [List.drop_zero]
      rw [Option.map_some', hce]
  · show (if 1 ≤ k ∧ k ≤ K then compressRuns runs k else []).head? =
      (if 1 ≤ k ∧ k ≤ K then runs k else []).head?
    rw [if_neg hk, if_neg hk]

end DSS

namespace DSS

/-- The compressed-prefix replay climb equals the plain replay climb, step
by step: along the path every node's LCP is the true LCP with the last
emitted string, which dominates every head's stored LCP. -/
theorem replayClimb_sim {streamsP streamsC : Nat → List Ent} {K : Nat} {ρ : Str}
    (hwf : WfStreams streamsP) (hρ : WfStr ρ)
    (hcomp : ∀ k, heads streamsC k = Option.map compressEnt (heads streamsP k))
    (hrhole : ∀ k e, heads streamsP k = some e → e.f ≤ calcLcp e.s ρ) :
    ∀ h c nodes, NodeRef streamsP ρ c → PathOK streamsP nodes K ρ h 1 →
      replayClimbWith updateNodeC streamsC c nodes (h + 1) =
        replayClimbWith updateNode streamsP c nodes (h + 1) := by
  intro h
  induction h using Nat.strong_induction_on with
  | _ h ih =>
    intro c nodes hnr hp
    by_cases hh : h + 1 > 2
    · obtain ⟨hsib, hnrd, hrest⟩ := PathOK_peel (by omega) hp
      have hcf : ∀ e, heads streamsP c.idx = some e → e.f ≤ c.lcp := by
        intro e he
        obtain ⟨hle, hlcp⟩ := hnr e he
        rw [hlcp]
        exact hrhole _ e he
      have hdf : ∀ e, heads streamsP ((nodes (h / 2 + 1)).idx) = some e →
          e.f ≤ (nodes (h / 2 + 1)).lcp := by
        intro e he
        obtain ⟨hle, hlcp⟩ := hnrd e he
        rw [hlcp]
        exact hrhole _ e he
      have hmatch : updateNodeC streamsC c (nodes (h / 2 + 1)) =
          updateNode streamsP c (nodes (h / 2 + 1)) :=
        updateNodeC_sim hcomp hcf hdf
      have hstepP : replayClimbWith updateNode streamsP c nodes (h + 1) =
          replayClimbWith updateNode streamsP
            (updateNode streamsP c (nodes (h / 2 + 1))).1
            (upd nodes (h / 2 + 1) (updateNode streamsP c (nodes (h / 2 + 1))).2)
            (h / 2 + 1) := by
        rw [replayClimbWith, dif_pos hh]
        have hdiv : (h + 1 + 1) / 2 = h / 2 + 1 := by omega
        rw [hdiv]
      have hstepC : replayClimbWith updateNodeC streamsC c nodes (h + 1) =
          replayClimbWith updateNodeC streamsC
            (updateNodeC streamsC c (nodes (h / 2 + 1))).1
            (upd nodes (h / 2 + 1) (updateNodeC streamsC c (nodes (h / 2 + 1))).2)
            (h / 2 + 1) := by
        rw [replayClimbWith, dif_pos hh]
        have hdiv : (h + 1 + 1) / 2 = h / 2 + 1 := by omega
        rw [hdiv]
      obtain ⟨hperm, hnr2, hole2, hllcp⟩ := updateNode_spec hwf hρ hnr hnrd
      have hrest2 : PathOK streamsP
          (upd nodes (h / 2 + 1) (updateNode streamsP c (nodes (h / 2 + 1))).2)
          K ρ (h / 2) 1 := by
        refine PathOK_frame_nodes (h / 2) 1 (by omega) hrest ?_
        intro u hcnd
        refine upd_other _ _ ?_
        intro heq2
        have hu2 : u = h / 2 := by omega
        exact hcnd (hu2 ▸ under_refl (h / 2))
      rw [hstepC, hstepP, hmatch]
      exact ih (h / 2) (by omega) _ _ hnr2 hrest2
    · rw [replayClimbWith, dif_neg hh, replayClimbWith, dif_neg hh]

end DSS

namespace DSS

/-- One compressed-prefix emission mirrors one plain emission: the emitted
tuple is the plain tuple with the string replaced by its stored suffix, and
the two successor states stay in the compression relation. -/
theorem emitStep_sim {K : Nat} {runs : Nat → List Ent} {stP stC : LT} {ρ : Str}
    (hrun : ∀ k, 1 ≤ k → k ≤ K → RunWF (runs k))
    (hinv : Inv K runs stP ρ)
    {eW : Ent} (hW : heads stP.streams ((stP.nodes 1).idx) = some eW)
    (hcs : ∀ k, stC.streams k = (stP.streams k).map compressEnt)
    (hcn : stC.nodes = stP.nodes) :
    (emitStepWith updateNodeC K stC).1 =
      (eW.s.drop eW.f, (stP.nodes 1).lcp, eW.f) ∧
    (emitStepWith updateNode K stP).1 = (eW.s, (stP.nodes 1).lcp, eW.f) ∧
    (∀ k, (emitStepWith updateNodeC K stC).2.streams k =
      ((emitStepWith updateNode K stP).2.streams k).map compressEnt) ∧
    (emitStepWith updateNodeC K stC).2.nodes =
      (emitStepWith updateNode K stP).2.nodes := by
  obtain ⟨rest, hrest⟩ : ∃ rest,
      stP.streams ((stP.nodes 1).idx) = eW :: rest := by
    rw [heads] at hW
    cases hcase : stP.streams ((stP.nodes 1).idx) with
    | nil => rw [hcase] at hW; exact absurd hW (by simp)
    | cons a r =>
      rw [hcase] at hW
      have ha : a = eW := by simpa using hW
      exact ⟨r, by rw [ha]⟩
  have hwmem := hinv.sub.top_mem
  have hw1 : 1 ≤ (stP.nodes 1).idx := hwmem.1
  have hwK : (stP.nodes 1).idx ≤ K := hwmem.2.1
  have hwfW : WfStr eW.s :=
    hinv.wfStreams hrun ((stP.nodes 1).idx) eW
      (by rw [hrest]; exact List.mem_cons_self _ _)
  have hwf2 : WfStreams (upd stP.streams ((stP.nodes 1).idx) rest) := by
    intro k e he
    by_cases hk : k = (stP.nodes 1).idx
    · subst hk
      rw [upd_same] at he
      exact hinv.wfStreams hrun _ e (by rw [hrest]; exact List.mem_cons_of_mem _ he)
    · rw [upd_other _ _ hk] at he
      exact hinv.wfStreams hrun _ e he
  have hpath : PathOK (upd stP.streams ((stP.nodes 1).idx) rest) stP.nodes K eW.s
      ((stP.nodes 1).idx + K - 1) 1 := by
    refine @PathOK_frame_streams _ _ _ _ _ ((stP.nodes 1).idx) ?_ _ _ (by omega)
      (under_refl _) (Sub_decompose hinv.sub hW rfl)
    intro k hk
    exact upd_other _ _ hk
  obtain ⟨houtP, holeP, hfbP, hinv2, hstreamsP⟩ := emitStep_spec hrun hinv hW
  have htailP : (stP.streams ((stP.nodes 1).idx)).tail = rest := by
    rw [hrest]
    rfl
  have hstreams2 : (emitStepWith updateNode K stP).2.streams =
      upd stP.streams ((stP.nodes 1).idx) rest := by
    rw [hstreamsP, htailP]
  have hrhole2 : ∀ k e,
      heads (upd stP.streams ((stP.nodes 1).idx) rest) k = some e →
      e.f ≤ calcLcp e.s eW.s := by
    intro k e he
    have he2 : heads (emitStepWith updateNode K stP).2.streams k = some e := by
      rw [hstreams2]
      exact he
    exact (hinv2.rhole k e he2).2
  have hCw : stC.streams ((stP.nodes 1).idx) =
      compressEnt eW :: rest.map compressEnt := by
    rw [hcs, hrest]
    rfl
  have hcs2 : ∀ k, upd stC.streams ((stP.nodes 1).idx) (rest.map compressEnt) k =
      (upd stP.streams ((stP.nodes 1).idx) rest k).map compressEnt := by
    intro k
    by_cases hk : k = (stP.nodes 1).idx
    · subst hk
      rw [upd_same, upd_same]
    · rw [upd_other _ _ hk, upd_other _ _ hk, hcs]
  have hcomp2 : ∀ k,
      heads (upd stC.streams ((stP.nodes 1).idx) (rest.map compressEnt)) k =
      Option.map compressEnt
        (heads (upd stP.streams ((stP.nodes 1).idx) rest) k) := by
    intro k
    rw [heads, heads, hcs2, List.head?_map]
  have hplus : (stP.nodes 1).idx + K - 1 + 1 = (stP.nodes 1).idx + K := by omega
  cases rest with
  | nil =>
    have hc0 : NodeRef (upd stP.streams ((stP.nodes 1).idx) []) eW.s
        (stP.nodes 1) := by
      intro e he
      replace he : heads (upd stP.streams ((stP.nodes 1).idx) [])
          ((stP.nodes 1).idx) = some e := he
      rw [heads, upd_same] at he
      exact absurd he (by simp)
    have hclimb := replayClimb_sim hwf2 hwfW hcomp2 hrhole2
      ((stP.nodes 1).idx + K - 1) (stP.nodes 1) stP.nodes hc0 hpath
    rw [hplus] at hclimb
    have hstepP : emitStepWith updateNode K stP =
        ((eW.s, (stP.nodes 1).lcp, eW.f),
          { streams := upd stP.streams ((stP.nodes 1).idx) [],
            nodes := upd (replayClimbWith updateNode
                (upd stP.streams ((stP.nodes 1).idx) []) (stP.nodes 1) stP.nodes
                ((stP.nodes 1).idx + K)).2 1
              (replayClimbWith updateNode
                (upd stP.streams ((stP.nodes 1).idx) []) (stP.nodes 1) stP.nodes
                ((stP.nodes 1).idx + K)).1 }) := by
      rw [emitStepWith]
      have hheadD : (stP.streams ((stP.nodes 1).idx)).headD { s := [], f := 0 }
          = eW := by
        rw [hrest]
        rfl
      rw [hheadD, htailP]
      have hsc : upd stP.streams ((stP.nodes 1).idx) [] ((stP.nodes 1).idx)
          = ([] : List Ent) := upd_same _ _ _
      rw [hsc]
    have htailC : (stC.streams ((stP.nodes 1).idx)).tail =
        ([] : List Ent).map compressEnt := by
      rw [hCw]
      rfl
    have hstepC : emitStepWith updateNodeC K stC =
        ((eW.s.drop eW.f, (stP.nodes 1).lcp, eW.f),
          { streams := upd stC.streams ((stP.nodes 1).idx)
              (([] : List Ent).map compressEnt),
            nodes := upd (replayClimbWith updateNodeC
                (upd stC.streams ((stP.nodes 1).idx)
                  (([] : List Ent).map compressEnt)) (stP.nodes 1) stP.nodes
                ((stP.nodes 1).idx + K)).2 1
              (replayClimbWith updateNodeC
                (upd stC.streams ((stP.nodes 1).idx)
                  (([] : List Ent).map compressEnt)) (stP.nodes 1) stP.nodes
                ((stP.nodes 1).idx + K)).1 }) := by
      rw [emitStepWith, hcn]
      have hheadD : (stC.streams ((stP.nodes 1).idx)).headD { s := [], f := 0 }
          = compressEnt eW := by
        rw [hCw]
        rfl
      rw [hheadD, htailC]
      have hsc : upd stC.streams ((stP.nodes 1).idx)
          (([] : List Ent).map compressEnt) ((stP.nodes 1).idx)
          = ([] : List Ent).map compressEnt := upd_same _ _ _
      rw [hsc]
      rfl
    refine ⟨?_, ?_, ?_, ?_⟩
    · rw [hstepC]
    · rw [hstepP]
    · intro k
      rw [hstepC, hstepP]
      exact hcs2 k
    · rw [hstepC, hstepP]
      show upd (replayClimbWith updateNodeC _ _ _ _).2 1
          (replayClimbWith updateNodeC _ _ _ _).1 = _
      rw [hclimb]
  | cons e2 r2 =>
    have hc0 : NodeRef (upd stP.streams ((stP.nodes 1).idx) (e2 :: r2)) eW.s
        { idx := (stP.nodes 1).idx, lcp := e2.f } := by
      intro e he
      replace he : heads (upd stP.streams ((stP.nodes 1).idx) (e2 :: r2))
          ((stP.nodes 1).idx) = some e := he
      rw [heads, upd_same] at he
      have he2 : e2 = e := by simpa using he
      obtain ⟨t, ht⟩ := hinv.suffix ((stP.nodes 1).idx) hw1 hwK
      have hch := chain'_drop (hrun _ hw1 hwK).2.1 t
      rw [← ht, hrest] at hch
      have hrel := (List.chain'_cons.mp hch).1
      rw [← he2]
      exact ⟨hrel.1, hrel.2⟩
    have hclimb := replayClimb_sim hwf2 hwfW hcomp2 hrhole2
      ((stP.nodes 1).idx + K - 1) { idx := (stP.nodes 1).idx, lcp := e2.f }
      stP.nodes hc0 hpath
    rw [hplus] at hclimb
    have hstepP : emitStepWith updateNode K stP =
        ((eW.s, (stP.nodes 1).lcp, eW.f),
          { streams := upd stP.streams ((stP.nodes 1).idx) (e2 :: r2),
            nodes := upd (replayClimbWith updateNode
                (upd stP.streams ((stP.nodes 1).idx) (e2 :: r2))
                { idx := (stP.nodes 1).idx, lcp := e2.f } stP.nodes
                ((stP.nodes 1).idx + K)).2 1
              (replayClimbWith updateNode
                (upd stP.streams ((stP.nodes 1).idx) (e2 :: r2))
                { idx := (stP.nodes 1).idx, lcp := e2.f } stP.nodes
                ((stP.nodes 1).idx + K)).1 }) := by
      rw [emitStepWith]
      have hheadD : (stP.streams ((stP.nodes 1).idx)).headD { s := [], f := 0 }
          = eW := by
        rw [hrest]
        rfl
      rw [hheadD, htailP]
      have hsc : upd stP.streams ((stP.nodes 1).idx) (e2 :: r2) ((stP.nodes 1).idx)
          = e2 :: r2 := upd_same _ _ _
      rw [hsc]
    have htailC : (stC.streams ((stP.nodes 1).idx)).tail =
        (e2 :: r2).map compressEnt := by
      rw [hCw]
      rfl
    have hstepC : emitStepWith updateNodeC K stC =
        ((eW.s.drop eW.f, (stP.nodes 1).lcp, eW.f),
          { streams := upd stC.streams ((stP.nodes 1).idx)
              ((e2 :: r2).map compressEnt),
            nodes := upd (replayClimbWith updateNodeC
                (upd stC.streams ((stP.nodes 1).idx) ((e2 :: r2).map compressEnt))
                { idx := (stP.nodes 1).idx, lcp := e2.f } stP.nodes
                ((stP.nodes 1).idx + K)).2 1
              (replayClimbWith updateNodeC
                (upd stC.streams ((stP.nodes 1).idx) ((e2 :: r2).map compressEnt))
                { idx := (stP.nodes 1).idx, lcp := e2.f } stP.nodes
                ((stP.nodes 1).idx + K)).1 }) := by
      rw [emitStepWith, hcn]
      have hheadD : (stC.streams ((stP.nodes 1).idx)).headD { s := [], f := 0 }
          = compressEnt eW := by
        rw [hCw]
        rfl
      rw [hheadD, htailC]
      have hsc : upd stC.streams ((stP.nodes 1).idx) ((e2 :: r2).map compressEnt)
          ((stP.nodes 1).idx) = (e2 :: r2).map compressEnt := upd_same _ _ _
      rw [hsc]
      rfl
    refine ⟨?_, ?_, ?_, ?_⟩
    · rw [hstepC]
    · rw [hstepP]
    · intro k
      rw [hstepC, hstepP]
      exact hcs2 k
    · rw [hstepC, hstepP]
      show upd (replayClimbWith updateNodeC _ _ _ _).2 1
          (replayClimbWith updateNodeC _ _ _ _).1 = _
      rw [hclimb]

end DSS

namespace DSS

/-- The compressed-prefix output loop emits exactly the plain loop's
output with each string replaced by its stored suffix. -/
theorem writeElems_sim {K : Nat} {runs : Nat → List Ent}
    (hrun : ∀ k, 1 ≤ k → k ≤ K → RunWF (runs k)) :
    ∀ (len : Nat) (stP stC : LT) (ρ : Str), Inv K runs stP ρ →
      (∀ k, stC.streams k = (stP.streams k).map compressEnt) →
      stC.nodes = stP.nodes →
      len ≤ (streamsConcat K stP.streams).length →
      (writeElemsWith updateNodeC K stC len).1 =
        (writeElemsWith updateNode K stP len).1.map
          (fun t => (t.1.drop t.2.2, t.2.1, t.2.2)) := by
  intro len
  induction len with
  | zero =>
    intro stP stC ρ _ _ _ _
    rfl
  | succ len ih =>
    intro stP stC ρ hinv hcs hcn hlen
    have hne0 : streamsConcat K stP.streams ≠ [] := by
      intro hc0
      rw [hc0] at hlen
      simp at hlen
    obtain ⟨k0, e0, hk1, hkK, hke⟩ := streamsConcat_mem hne0
    obtain ⟨eW, hW⟩ := champion_some hinv hke
    obtain ⟨houtC, houtP, hsim_s, hsim_n⟩ := emitStep_sim hrun hinv hW hcs hcn
    obtain ⟨houtP2, holeP, hfbP, hinv2, hstreamsP⟩ := emitStep_spec hrun hinv hW
    obtain ⟨tailW, htail⟩ : ∃ t, stP.streams ((stP.nodes 1).idx) = eW :: t := by
      rw [heads] at hW
      cases hcase : stP.streams ((stP.nodes 1).idx) with
      | nil => rw [hcase] at hW; exact absurd hW (by simp)
      | cons a r =>
        rw [hcase] at hW
        have ha : a = eW := by simpa using hW
        exact ⟨r, by rw [ha]⟩
    have hwmem := hinv.sub.top_mem
    have hperm1 : (streamsConcat K stP.streams).Perm
        (eW :: streamsConcat K ((emitStepWith updateNode K stP).2.streams)) := by
      rw [hstreamsP]
      have htt : (stP.streams ((stP.nodes 1).idx)).tail = tailW := by
        rw [htail]
        rfl
      rw [htt]
      exact streamsConcat_advance hwmem.1 hwmem.2.1 htail
    have hlen2 : len ≤
        (streamsConcat K ((emitStepWith updateNode K stP).2.streams)).length := by
      have := hperm1.length_eq
      rw [List.length_cons] at this
      omega
    show ((emitStepWith updateNodeC K stC).1 ::
        (writeElemsWith updateNodeC K (emitStepWith updateNodeC K stC).2 len).1) =
      ((emitStepWith updateNode K stP).1 ::
        (writeElemsWith updateNode K (emitStepWith updateNode K stP).2 len).1).map
          (fun t => (t.1.drop t.2.2, t.2.1, t.2.2))
    rw [List.map_cons]
    congr 1
    · rw [houtC, houtP]
    · exact ih (emitStepWith updateNode K stP).2 (emitStepWith updateNodeC K stC).2
        eW.s hinv2 hsim_s hsim_n hlen2

/-- C4: for `K = 2^m` sorted runs with correct LCP arrays whose heads all
extend a common NUL-free prefix `p` of length `knownCommonLcp`, merging the
compressed representation (each entry stores only the suffix after its head
LCP) through the `updateNodeCompressedPrefix` overload emits the plain
merge's output with each string replaced by its stored suffix, so
re-extending the prefixes (modelled from the spec) recovers output
byte-identical to the plain variant on the uncompressed input. -/
theorem C4_compressed_prefix_equiv {m kl : Nat} {runs : Nat → List Ent} {p : Str}
    (hrun : ∀ k, 1 ≤ k → k ≤ 2 ^ m → RunWF (runs k))
    (hp : WfStr p) (hkl : kl = p.length)
    (hpre : ∀ k, 1 ≤ k → k ≤ 2 ^ m → ∀ e, (runs k).head? = some e →
      ∃ r, e.s = p ++ r)
    {len : Nat} (hlen : len = (streamsConcat (2 ^ m) runs).length) :
    loserTreeMergeC (2 ^ m) kl (compressRuns runs) len =
      (loserTreeMerge (2 ^ m) kl runs len).map
        (fun t => (t.1.drop t.2.2, t.2.1, t.2.2)) ∧
    extendPrefix p (loserTreeMergeC (2 ^ m) kl (compressRuns runs) len) =
      (loserTreeMerge (2 ^ m) kl runs len).map (fun t => t.1) := by
  have hpre2 : ∀ k, 1 ≤ k → k ≤ 2 ^ m → ∀ e, (runs k).head? = some e →
      sLe p e.s ∧ calcLcp e.s p = kl := by
    intro k h1 h2 e he
    obtain ⟨r, hr⟩ := hpre k h1 h2 e he
    rw [hr]
    exact ⟨sLe_append_self p r, by rw [calcLcp_append_self hp, hkl]⟩
  have hInv := mkLT_Inv (m := m) hrun hp hpre2
  have hSeq : streamsConcat (2 ^ m) (mkLT (2 ^ m) kl runs).streams =
      streamsConcat (2 ^ m) runs := by
    refine streamsConcat_congr ?_
    intro k h1 h2
    show (if 1 ≤ k ∧ k ≤ 2 ^ m then runs k else []) = runs k
    rw [if_pos ⟨h1, h2⟩]
  have hlen2 : len ≤
      (streamsConcat (2 ^ m) (mkLT (2 ^ m) kl runs).streams).length := by
    rw [hSeq]
    omega
  have hcs : ∀ k, (mkLT (2 ^ m) kl (compressRuns runs)).streams k =
      ((mkLT (2 ^ m) kl runs).streams k).map compressEnt := by
    intro k
    by_cases hk : 1 ≤ k ∧ k ≤ 2 ^ m
    · show (if 1 ≤ k ∧ k ≤ 2 ^ m then compressRuns runs k else []) =
        (if 1 ≤ k ∧ k ≤ 2 ^ m then runs k else []).map compressEnt
      rw [if_pos hk, if_pos hk]
      rfl
    · show (if 1 ≤ k ∧ k ≤ 2 ^ m then compressRuns runs k else []) =
        (if 1 ≤ k ∧ k ≤ 2 ^ m then runs k else []).map compressEnt
      rw [if_neg hk, if_neg hk]
      rfl
  have hcn : (mkLT (2 ^ m) kl (compressRuns runs)).nodes =
      (mkLT (2 ^ m) kl runs).nodes := by
    refine mkLT_compress_nodes ?_
    intro k h1 h2 e he
    exact (hrun k h1 h2).2.2 e he
  have hmain : loserTreeMergeC (2 ^ m) kl (compressRuns runs) len =
      (loserTreeMerge (2 ^ m) kl runs len).map
        (fun t => (t.1.drop t.2.2, t.2.1, t.2.2)) :=
    writeElems_sim hrun len (mkLT (2 ^ m) kl runs)
      (mkLT (2 ^ m) kl (compressRuns runs)) p hInv hcs hcn hlen2
  refine ⟨hmain, ?_⟩
  rw [hmain]
  have hout : OutOK p (loserTreeMerge (2 ^ m) kl runs len) :=
    (writeElems_master hrun len (mkLT (2 ^ m) kl runs) p hInv hlen2).1
  exact extendPrefix_reconstructs _ hout

/-- Runs exercising a nontrivial compressed suffix: run 1 holds `[1,2]`
and `[1,4]` (head LCPs `0` and `1`), run 2 holds `[1,3]`. -/
def ex3runs : Nat → List Ent := fun k =>
  if k = 1 then [{ s := [1, 2], f := 0 }, { s := [1, 4], f := 1 }]
  else if k = 2 then [{ s := [1, 3], f := 0 }] else []

/-- Witness for the compressed-prefix equivalence at `m = 1`, `p = [1]`,
`knownCommonLcp = 1`, runs `[[1,2],[1,4]]` and `[[1,3]]`. -/
theorem C4_compressed_prefix_equiv_witness :
    loserTreeMergeC (2 ^ 1) 1 (compressRuns ex3runs) 3 =
      (loserTreeMerge (2 ^ 1) 1 ex3runs 3).map
        (fun t => (t.1.drop t.2.2, t.2.1, t.2.2)) ∧
    extendPrefix [1] (loserTreeMergeC (2 ^ 1) 1 (compressRuns ex3runs) 3) =
      (loserTreeMerge (2 ^ 1) 1 ex3runs 3).map (fun t => t.1) := by
  refine C4_compressed_prefix_equiv (m := 1) (p := [1]) ?_ (by decide) rfl ?_
    (by decide)
  · intro k h1 h2
    have hk : k = 1 ∨ k = 2 := by omega
    rcases hk with rfl | rfl
    · refine ⟨by decide, ?_, ?_⟩
      · refine List.chain'_cons.mpr ⟨⟨by decide, by decide⟩,
          List.chain'_singleton _⟩
      · intro e he
        have he2 : ({ s := [1, 2], f := 0 } : Ent) = e := by
          simpa [ex3runs] using he
        rw [← he2]
    · refine ⟨by decide, List.chain'_singleton _, ?_⟩
      intro e he
      have he2 : ({ s := [1, 3], f := 0 } : Ent) = e := by
        simpa [ex3runs] using he
      rw [← he2]
  · intro k h1 h2 e he
    have hk : k = 1 ∨ k = 2 := by omega
    rcases hk with rfl | rfl
    · have he2 : ({ s := [1, 2], f := 0 } : Ent) = e := by
        simpa [ex3runs] using he
      refine ⟨[2], ?_⟩
      rw [← he2]
      rfl
    · have he2 : ({ s := [1, 3], f := 0 } : Ent) = e := by
        simpa [ex3runs] using he
      refine ⟨[3], ?_⟩
      rw [← he2]
      rfl

end DSS

namespace DSS

/-- `std::merge` with the `scmp` comparator: stable two-way merge, taking
from the second range only when its element is strictly smaller. -/
def stdMerge : List Str → List Str → List Str
  | [], ys => ys
  | x :: xs, [] => x :: xs
  | x :: xs, y :: ys =>
    if sLt y x then y :: stdMerge (x :: xs) ys else x :: stdMerge xs (y :: ys)
termination_by xs ys => xs.length + ys.length
decreasing_by
  all_goals simp only [List.length_cons]
  all_goals omega

theorem stdMerge_nil_left (ys : List Str) : stdMerge [] ys = ys := by
  simp only [stdMerge]

theorem stdMerge_nil_right (x : Str) (xs : List Str) :
    stdMerge (x :: xs) [] = x :: xs := by
  simp only [stdMerge]

theorem stdMerge_cons_cons (x y : Str) (xs ys : List Str) :
    stdMerge (x :: xs) (y :: ys) =
      if sLt y x then y :: stdMerge (x :: xs) ys
      else x :: stdMerge xs (y :: ys) := by
  simp only [stdMerge]

theorem stdMerge_perm_aux :
    ∀ n xs ys, xs.length + ys.length ≤ n →
      (stdMerge xs ys).Perm (xs ++ ys) := by
  intro n
  induction n with
  | zero =>
    intro xs ys h
    cases xs with
    | nil => rw [stdMerge_nil_left, List.nil_append]
    | cons x xs => simp at h
  | succ n ih =>
    intro xs ys h
    cases xs with
    | nil => rw [stdMerge_nil_left, List.nil_append]
    | cons x xs =>
      cases ys with
      | nil => rw [stdMerge_nil_right, List.append_nil]
      | cons y ys =>
        rw [stdMerge_cons_cons]
        by_cases hc : sLt y x
        · rw [if_pos hc]
          have hlen : (x :: xs).length + ys.length ≤ n := by
            simp only [List.length_cons] at h ⊢
            omega
          exact ((ih (x :: xs) ys hlen).cons y).trans List.perm_middle.symm
        · rw [if_neg hc]
          have hlen : xs.length + (y :: ys).length ≤ n := by
            simp only [List.length_cons] at h ⊢
            omega
          exact (ih xs (y :: ys) hlen).cons x

theorem stdMerge_perm (xs ys : List Str) : (stdMerge xs ys).Perm (xs ++ ys) :=
  stdMerge_perm_aux (xs.length + ys.length) xs ys (le_refl _)

theorem stdMerge_sorted_aux :
    ∀ n xs ys, xs.length + ys.length ≤ n →
      List.Chain' sLe xs → List.Chain' sLe ys →
      List.Chain' sLe (stdMerge xs ys) ∧
      (∀ z, (stdMerge xs ys).head? = some z →
        xs.head? = some z ∨ ys.head? = some z) := by
  intro n
  induction n with
  | zero =>
    intro xs ys h hx hy
    cases xs with
    | nil =>
      rw [stdMerge_nil_left]
      exact ⟨hy, fun z hz => .inr hz⟩
    | cons x xs => simp at h
  | succ n ih =>
    intro xs ys h hx hy
    cases xs with
    | nil =>
      rw [stdMerge_nil_left]
      exact ⟨hy, fun z hz => .inr hz⟩
    | cons x xs =>
      cases ys with
      | nil =>
        rw [stdMerge_nil_right]
        exact ⟨hx, fun z hz => .inl hz⟩
      | cons y ys =>
        rw [stdMerge_cons_cons]
        by_cases hc : sLt y x
        · rw [if_pos hc]
          have hys := (List.chain'_cons'.mp hy).2
          have hlen : (x :: xs).length + ys.length ≤ n := by
            simp only [List.length_cons] at h ⊢
            omega
          obtain ⟨hs, hh⟩ := ih (x :: xs) ys hlen hx hys
          refine ⟨?_, ?_⟩
          · rw [List.chain'_cons']
            refine ⟨?_, hs⟩
            intro z hz
            rcases hh z (Option.mem_def.mp hz) with hz2 | hz2
            · have hzx : x = z := by simpa using hz2
              rw [← hzx]
              exact sLe_of_sLt hc
            · exact (List.chain'_cons'.mp hy).1 z (Option.mem_def.mpr hz2)
          · intro z hz
            have hzy : y = z := by simpa using hz
            rw [← hzy]
            exact .inr rfl
        · rw [if_neg hc]
          have hxs := (List.chain'_cons'.mp hx).2
          have hlen : xs.length + (y :: ys).length ≤ n := by
            simp only [List.length_cons] at h ⊢
            omega
          obtain ⟨hs, hh⟩ := ih xs (y :: ys) hlen hxs hy
          refine ⟨?_, ?_⟩
          · rw [List.chain'_cons']
            refine ⟨?_, hs⟩
            intro z hz
            rcases hh z (Option.mem_def.mp hz) with hz2 | hz2
            · exact (List.chain'_cons'.mp hx).1 z (Option.mem_def.mpr hz2)
            · have hzy : y = z := by simpa using hz2
              rw [← hzy]
              exact sLe_iff_not_sLt.mpr hc
          · intro z hz
            have hzx : x = z := by simpa using hz
            rw [← hzx]
            exact .inl rfl

theorem stdMerge_sorted {xs ys : List Str} (hx : List.Chain' sLe xs)
    (hy : List.Chain' sLe ys) : List.Chain' sLe (stdMerge xs ys) :=
  (stdMerge_sorted_aux (xs.length + ys.length) xs ys (le_refl _) hx hy).1

/-- `BinTreeMedianSelection::_internal::selectMedians`: merge the two runs;
return everything if at most `n` strings, else the centred `n`-window, with
an odd surplus resolved by the shared random bit. -/
def selectMedians (ls rs : List Str) (n : Nat) (bit : Bool) : List Str :=
  let merged := stdMerge ls rs
  if merged.length ≤ n then merged
  else
    if (merged.length - n) % 2 = 0 then
      (merged.drop ((merged.length - n) / 2)).take n
    else
      (merged.drop ((merged.length - n) / 2 + if bit then 1 else 0)).take n

/-- `BinTreeMedianSelection::_internal::selectMedian`: middle string of a
non-empty set (random bit shifts down for even sizes); the empty string for
an empty set. -/
def selectMedian (ss : List Str) (bit : Bool) : Str :=
  if ss.length ≠ 0 then
    if ss.length % 2 = 0 then
      ss.getD (ss.length / 2 - if bit then 1 else 0) []
    else
      ss.getD (ss.length / 2) []
  else
    []

end DSS

namespace DSS

/-- C6: `selectMedians` on two sorted runs of size at most `n` merges them
in sorted order (a sorted permutation of the two runs); it returns the
whole merged run when that has at most `n` strings, and otherwise exactly
`n` consecutive strings of the merged run, at window offset
`(size - n) / 2` when the surplus is even and at `(size - n) / 2` plus the
shared random bit when it is odd. -/
theorem C6_selectMedians_window {ls rs : List Str} {n : Nat} (bit : Bool)
    (hls : List.Chain' sLe ls) (hrs : List.Chain' sLe rs)
    (hln : ls.length ≤ n) (hrn : rs.length ≤ n) :
    List.Chain' sLe (stdMerge ls rs) ∧
    (stdMerge ls rs).Perm (ls ++ rs) ∧
    ((stdMerge ls rs).length ≤ n → selectMedians ls rs n bit = stdMerge ls rs) ∧
    (n < (stdMerge ls rs).length →
      (selectMedians ls rs n bit).length = n ∧
      ∃ off, selectMedians ls rs n bit = ((stdMerge ls rs).drop off).take n ∧
        (((stdMerge ls rs).length - n) % 2 = 0 →
          off = ((stdMerge ls rs).length - n) / 2) ∧
        (((stdMerge ls rs).length - n) % 2 = 1 →
          off = ((stdMerge ls rs).length - n) / 2 + if bit then 1 else 0)) := by
  have hb : (if bit then 1 else 0 : Nat) ≤ 1 := by cases bit <;> simp
  refine ⟨stdMerge_sorted hls hrs, stdMerge_perm ls rs, ?_, ?_⟩
  · intro hle
    simp only [selectMedians]
    rw [if_pos hle]
  · intro hgt
    simp only [selectMedians]
    rw [if_neg (by omega)]
    by_cases hpar : ((stdMerge ls rs).length - n) % 2 = 0
    · rw [if_pos hpar]
      refine ⟨?_, _, rfl, fun _ => rfl, fun hodd => by omega⟩
      rw [List.length_take, List.length_drop]
      omega
    · rw [if_neg hpar]
      refine ⟨?_, _, rfl, fun heven => by omega, fun _ => rfl⟩
      rw [List.length_take, List.length_drop]
      omega

/-- Witness for the median window lemma: runs `[[1],[3]]` and `[[2],[4]]`
with `n = 2` and bit `true`. -/
theorem C6_selectMedians_window_witness :
    List.Chain' sLe (stdMerge [[1], [3]] [[2], [4]]) ∧
    (stdMerge [[1], [3]] [[2], [4]]).Perm ([[1], [3]] ++ [[2], [4]]) ∧
    ((stdMerge [[1], [3]] [[2], [4]]).length ≤ 2 →
      selectMedians [[1], [3]] [[2], [4]] 2 true = stdMerge [[1], [3]] [[2], [4]]) ∧
    (2 < (stdMerge [[1], [3]] [[2], [4]]).length →
      (selectMedians [[1], [3]] [[2], [4]] 2 true).length = 2 ∧
      ∃ off, selectMedians [[1], [3]] [[2], [4]] 2 true =
          ((stdMerge [[1], [3]] [[2], [4]]).drop off).take 2 ∧
        (((stdMerge [[1], [3]] [[2], [4]]).length - 2) % 2 = 0 →
          off = ((stdMerge [[1], [3]] [[2], [4]]).length - 2) / 2) ∧
        (((stdMerge [[1], [3]] [[2], [4]]).length - 2) % 2 = 1 →
          off = ((stdMerge [[1], [3]] [[2], [4]]).length - 2) / 2 +
            if true then 1 else 0)) :=
  C6_selectMedians_window true
    (List.chain'_cons.mpr ⟨by decide, List.chain'_singleton _⟩)
    (List.chain'_cons.mpr ⟨by decide, List.chain'_singleton _⟩)
    (by decide) (by decide)

/-- C9 (amended): `selectMedian` detects nothing on an empty string set:
it returns `StringSet::empty_string()` (no assertion is evaluated on that
path, so no abort occurs); on a non-empty set it returns the middle string,
shifted down by the shared random bit when the size is even. -/
theorem C9_selectMedian_no_assert (ss : List Str) (bit : Bool) :
    (ss = [] → selectMedian ss bit = []) ∧
    (ss ≠ [] → ss.length % 2 = 1 →
      selectMedian ss bit = ss.getD (ss.length / 2) []) ∧
    (ss ≠ [] → ss.length % 2 = 0 →
      selectMedian ss bit = ss.getD (ss.length / 2 - if bit then 1 else 0) []) := by
  refine ⟨?_, ?_, ?_⟩
  · intro h
    subst h
    rfl
  · intro h1 h2
    have hlen : ss.length ≠ 0 := by
      intro hc
      exact h1 (List.length_eq_zero.mp hc)
    rw [selectMedian, if_pos hlen, if_neg (by omega)]
  · intro h1 h2
    have hlen : ss.length ≠ 0 := by
      intro hc
      exact h1 (List.length_eq_zero.mp hc)
    rw [selectMedian, if_pos hlen, if_pos h2]

/-- C9 counterexample: the empty string set is not rejected — for either
value of the random bit, `selectMedian` simply returns the empty string;
there is no assertion on this path. -/
theorem C9_counterexample_empty_returns :
    selectMedian [] true = [] ∧ selectMedian [] false = [] := by
  decide

/-- Witness for the amended `selectMedian` behaviour: the empty set, an
odd-sized set and an even-sized set. -/
theorem C9_selectMedian_no_assert_witness :
    selectMedian [] true = ([] : Str) ∧
    selectMedian [[1], [2], [3]] true = [2] ∧
    selectMedian [[1], [2]] true = [1] := by
  refine ⟨(C9_selectMedian_no_assert [] true).1 rfl, ?_, ?_⟩
  · exact ((C9_selectMedian_no_assert [[1], [2], [3]] true).2.1 (by decide)
      (by decide)).trans (by decide)
  · exact ((C9_selectMedian_no_assert [[1], [2]] true).2.2 (by decide)
      (by decide)).trans (by decide)

end DSS

namespace DSS

/-- The starting offsets of the chunks given by `counts`, from base `off`
(the exclusive prefix sums). -/
def exScan : List Nat → Nat → List Nat
  | [], _ => []
  | c :: cs, off => off :: exScan cs (off + c)

/-- The chunk-boundary zeroing loop of `exchange_and_merge`: for each merge
count, clear the LCP at the chunk's starting offset. -/
def zeroChunks : List Nat → Nat → List Nat → List Nat
  | [], _, lcps => lcps
  | c :: cs, off, lcps => zeroChunks cs (off + c) (lcps.set off 0)

/-- The merge preparation of `exchange_and_merge`: `merge_counts` is
`recv_counts` with the zero entries erased, and (when the container is
non-empty) the LCP at each chunk start is zeroed. -/
def mergePrep (recvCounts : List Nat) (lcps : List Nat) : List Nat × List Nat :=
  let mc := recvCounts.filter (fun c => c ≠ 0)
  (mc, if lcps.isEmpty then lcps else zeroChunks mc 0 lcps)

theorem getD_set_self {l : List Nat} {i : Nat} (h : i < l.length) (v : Nat) :
    (l.set i v).getD i 0 = v := by
  rw [List.getD_eq_getElem _ _ (by rw [List.length_set]; exact h)]
  rw [List.getElem_set]
  rw [if_pos rfl]

theorem getD_set_other {l : List Nat} {i j : Nat} (h : i ≠ j) (v : Nat) :
    (l.set i v).getD j 0 = l.getD j 0 := by
  by_cases hj : j < l.length
  · rw [List.getD_eq_getElem _ _ (by rw [List.length_set]; exact hj),
      List.getD_eq_getElem _ _ hj, List.getElem_set, if_neg h]
  · rw [List.getD_eq_default _ _ (by rw [List.length_set]; omega),
      List.getD_eq_default _ _ (by omega)]

theorem exScan_ge {cs : List Nat} : ∀ {off x}, x ∈ exScan cs off → off ≤ x := by
  induction cs with
  | nil => intro off x hx; exact absurd hx (by simp [exScan])
  | cons c cs ih =>
    intro off x hx
    rw [exScan] at hx
    rcases List.mem_cons.mp hx with rfl | hx2
    · exact le_refl _
    · have := ih hx2
      omega

theorem zeroChunks_length (cs : List Nat) :
    ∀ off lcps, (zeroChunks cs off lcps).length = lcps.length := by
  induction cs with
  | nil => intro off lcps; rfl
  | cons c cs ih =>
    intro off lcps
    rw [zeroChunks, ih, List.length_set]

theorem zeroChunks_getD (cs : List Nat) :
    ∀ off lcps, (∀ c ∈ cs, c ≠ 0) → off + cs.sum ≤ lcps.length →
      ∀ j, j < lcps.length →
        (zeroChunks cs off lcps).getD j 0 =
          if j ∈ exScan cs off then 0 else lcps.getD j 0 := by
  induction cs with
  | nil =>
    intro off lcps hnz hsum j hj
    rw [zeroChunks, exScan]
    rw [if_neg (by simp)]
  | cons c cs ih =>
    intro off lcps hnz hsum j hj
    have hc : c ≠ 0 := hnz c (List.mem_cons_self _ _)
    have hoff : off < lcps.length := by
      have : (c :: cs).sum = c + cs.sum := by simp
      omega
    rw [zeroChunks, exScan]
    have hrec := ih (off + c) (lcps.set off 0)
      (fun x hx => hnz x (List.mem_cons_of_mem _ hx))
      (by
        rw [List.length_set]
        have h5 : (c :: cs).sum = c + cs.sum := by simp
        omega)
      j (by rw [List.length_set]; exact hj)
    rw [hrec]
    by_cases hjm : j ∈ exScan cs (off + c)
    · rw [if_pos hjm, if_pos (List.mem_cons_of_mem _ hjm)]
    · rw [if_neg hjm]
      by_cases hje : j = off
      · subst hje
        rw [if_pos (List.mem_cons_self _ _)]
        exact getD_set_self hoff 0
      · rw [if_neg (by
          intro hcon
          rcases List.mem_cons.mp hcon with h1 | h2
          · exact hje h1
          · exact hjm h2)]
        exact getD_set_other (fun hcon => hje hcon.symm) 0

theorem filter_ne_zero_sum (l : List Nat) :
    (l.filter (fun c => c ≠ 0)).sum = l.sum := by
  induction l with
  | nil => rfl
  | cons c cs ih =>
    rw [List.filter_cons]
    by_cases hc : c = 0
    · subst hc
      rw [if_neg (by simp)]
      rw [List.sum_cons, Nat.zero_add]
      exact ih
    · rw [if_pos (by simp [hc])]
      rw [List.sum_cons, List.sum_cons, ih]

/-- C8: in `exchange_and_merge`, the merge runs over exactly the non-empty
received chunks — `merge_counts` is the recv-count vector with its zero
entries erased (an order-preserving sublist of all-nonzero entries with the
same total) — and before merging the LCP at the starting offset of each
such chunk is set to zero while every other LCP entry is left unchanged. -/
theorem C8_merge_prep {recvCounts lcps : List Nat}
    (hsum : recvCounts.sum = lcps.length) (hne : lcps ≠ []) :
    (mergePrep recvCounts lcps).1 = recvCounts.filter (fun c => c ≠ 0) ∧
    (∀ c ∈ (mergePrep recvCounts lcps).1, c ≠ 0) ∧
    (mergePrep recvCounts lcps).1.Sublist recvCounts ∧
    (mergePrep recvCounts lcps).1.sum = recvCounts.sum ∧
    (mergePrep recvCounts lcps).2.length = lcps.length ∧
    (∀ j, j < lcps.length →
      (mergePrep recvCounts lcps).2.getD j 0 =
        if j ∈ exScan (recvCounts.filter (fun c => c ≠ 0)) 0 then 0
        else lcps.getD j 0) := by
  have hempty : lcps.isEmpty = false := by
    cases lcps
    · exact absurd rfl hne
    · rfl
  have h2 : (mergePrep recvCounts lcps).2 =
      zeroChunks (recvCounts.filter (fun c => c ≠ 0)) 0 lcps := by
    simp only [mergePrep]
    rw [hempty]
    rfl
  refine ⟨rfl, ?_, ?_, ?_, ?_, ?_⟩
  · intro c hc
    have := List.of_mem_filter hc
    simpa using this
  · exact List.filter_sublist _
  · show (recvCounts.filter (fun c => c ≠ 0)).sum = recvCounts.sum
    exact filter_ne_zero_sum recvCounts
  · rw [h2, zeroChunks_length]
  · intro j hj
    rw [h2]
    refine zeroChunks_getD _ 0 lcps ?_ ?_ j hj
    · intro c hc
      have := List.of_mem_filter hc
      simpa using this
    · rw [Nat.zero_add, filter_ne_zero_sum, hsum]

/-- Witness for the merge preparation: recv counts `[1, 0, 2]` over three
received strings with LCPs `[7, 8, 9]`. -/
theorem C8_merge_prep_witness :
    (mergePrep [1, 0, 2] [7, 8, 9]).1 = [1, 0, 2].filter (fun c => c ≠ 0) ∧
    (∀ c ∈ (mergePrep [1, 0, 2] [7, 8, 9]).1, c ≠ 0) ∧
    (mergePrep [1, 0, 2] [7, 8, 9]).1.Sublist [1, 0, 2] ∧
    (mergePrep [1, 0, 2] [7, 8, 9]).1.sum = [1, 0, 2].sum ∧
    (mergePrep [1, 0, 2] [7, 8, 9]).2.length = [7, 8, 9].length ∧
    (∀ j, j < [7, 8, 9].length →
      (mergePrep [1, 0, 2] [7, 8, 9]).2.getD j 0 =
        if j ∈ exScan ([1, 0, 2].filter (fun c => c ≠ 0)) 0 then 0
        else [7, 8, 9].getD j 0) :=
  C8_merge_prep (by decide) (by decide)

end DSS

namespace DSS

/-- Sum of the first `r` per-PE values (the cross-PE exclusive scan). -/
def prefSum (f : Nat → Nat) : Nat → Nat
  | 0 => 0
  | r + 1 => prefSum f r + f r

/-- `SimplePermutation::apply`: the write events it performs across all
PEs.  PE `r` holds `(ranks_, strings_)`; for its `i`-th entry it routes the
pair `{strings_[i], index_offset + i}` to PE `ranks_[i]`, whose final loop
stores `global_permutation[local_index] = global_index`; the write target
is the slot `(ranks_[i], strings_[i])` and the written value is
`global_index_offset + exscan-of-sizes + i`. -/
def simpleWrites (P g : Nat) (ranks strs : Nat → List Nat) :
    List ((Nat × Nat) × Nat) :=
  (List.range P).flatMap (fun r =>
    (List.range (strs r).length).map (fun i =>
      (((ranks r).getD i 0, (strs r).getD i 0),
        g + (prefSum (fun q => (strs q).length) r + i))))

/-- Replaying a list of slot writes over a store. -/
def applyWrites (ws : List ((Nat × Nat) × Nat)) (out : Nat × Nat → Nat) :
    Nat × Nat → Nat :=
  ws.foldl (fun acc t => fun sl => if sl = t.1 then t.2 else acc sl) out

theorem applyWrites_cons (w : (Nat × Nat) × Nat) (ws : List ((Nat × Nat) × Nat))
    (out : Nat × Nat → Nat) :
    applyWrites (w :: ws) out =
      applyWrites ws (fun sl => if sl = w.1 then w.2 else out sl) := rfl

theorem applyWrites_untouched (ws : List ((Nat × Nat) × Nat)) :
    ∀ (out : Nat × Nat → Nat) (sl : Nat × Nat),
      (∀ w ∈ ws, w.1 ≠ sl) → applyWrites ws out sl = out sl := by
  induction ws with
  | nil => intro out sl h; rfl
  | cons w ws ih =>
    intro out sl h
    rw [applyWrites_cons, ih _ sl (fun w2 hw2 => h w2 (List.mem_cons_of_mem _ hw2))]
    exact if_neg (fun hc => h w (List.mem_cons_self _ _) hc.symm)

theorem applyWrites_getD (ws : List ((Nat × Nat) × Nat)) :
    ∀ (out : Nat × Nat → Nat), (ws.map (fun t => t.1)).Nodup →
      ∀ w ∈ ws, applyWrites ws out w.1 = w.2 := by
  induction ws with
  | nil => intro out h w hw; exact absurd hw (by simp)
  | cons w0 ws ih =>
    intro out h w hw
    rw [List.map_cons] at h
    have hnd := List.nodup_cons.mp h
    rcases List.mem_cons.mp hw with rfl | hw2
    · rw [applyWrites_cons,
        applyWrites_untouched ws _ w.1 (fun w2 hw2 hc =>
          hnd.1 (hc ▸ List.mem_map_of_mem (fun t => t.1) hw2))]
      exact if_pos rfl
    · rw [applyWrites_cons]
      exact ih _ hnd.2 w hw2

theorem simpleWrites_values (P g : Nat) (ranks strs : Nat → List Nat) :
    (simpleWrites P g ranks strs).map (fun t => t.2) =
      (List.range (prefSum (fun q => (strs q).length) P)).map (fun i => g + i) := by
  induction P with
  | zero => rfl
  | succ P ih =>
    rw [simpleWrites, List.range_succ, List.flatMap_append, List.map_append,
      ← simpleWrites, ih]
    rw [prefSum, List.range_add, List.map_append, List.map_map]
    congr 1
    rw [List.flatMap_cons, List.flatMap_nil, List.append_nil, List.map_map]
    rfl

/-- The index computation of `NonUniquePermutation::apply`
(`compute_indices`): `current_index` starts at the index offset and is
incremented by `index_offsets_[i]` before each store, so position `i`
receives the inclusive prefix sum. -/
def incScan (base : Nat) : List Nat → List Nat
  | [] => []
  | o :: os => (base + o) :: incScan (base + o) os

/-- The value `compute_indices` assigns for sorted position `j` on PE `r`
(`g` is the caller's `global_index_offset`; the cross-PE part is the
exclusive scan of the per-PE `index_offsets_` sums). -/
def nonUniqueAssigned (g : Nat) (offs : Nat → List Nat) (r j : Nat) : Nat :=
  (incScan (g + prefSum (fun q => (offs q).sum) r) (offs r)).getD j 0

theorem incScan_getD : ∀ (os : List Nat) (base j : Nat), j < os.length →
    (incScan base os).getD j 0 = base + (os.take (j + 1)).sum := by
  intro os
  induction os with
  | nil => intro base j hj; simp at hj
  | cons o os ih =>
    intro base j hj
    cases j with
    | zero =>
      rw [incScan]
      simp
    | succ j =>
      rw [incScan]
      have hstep : ((o :: os).take (j + 1 + 1)).sum = o + (os.take (j + 1)).sum := by
        rw [List.take_succ_cons, List.sum_cons]
      rw [List.getD_cons_succ, ih (base + o) j (by simpa using hj), hstep]
      omega

/-- C7 (amended): the global index that `NonUniquePermutation::apply`
assigns to position `j` is the global offset (the caller's
`global_index_offset` plus the exclusive cross-PE scan of the per-PE
`index_offsets_` sums) plus the *inclusive* sum of the `index_offsets_`
entries up to and including position `j` — not the exclusive sum of the
entries before `j`. -/
theorem C7_nonunique_inclusive {g : Nat} {offs : Nat → List Nat} {r j : Nat}
    (hj : j < (offs r).length) :
    nonUniqueAssigned g offs r j =
      g + prefSum (fun q => (offs q).sum) r + ((offs r).take (j + 1)).sum := by
  rw [nonUniqueAssigned, incScan_getD _ _ _ hj]

/-- C7 counterexample: two PEs, one entry with `index_offsets_ = [1]` on
PE `0`, offset `0`: position `0` is assigned global index `1`, while the
exclusive sum of the entries before position `0` is `0` — the claimed
exclusive-scan value is wrong by one entry. -/
theorem C7_counterexample_exclusive :
    nonUniqueAssigned 0 (fun r => if r = 0 then [1] else []) 0 0 = 1 ∧
    0 + prefSum (fun q => ((fun r => if r = 0 then [1] else []) q).sum) 0 +
      (((fun r => if r = 0 then [1] else []) 0).take 0).sum = 0 ∧
    (1 : Nat) ≠ 0 := by
  refine ⟨rfl, rfl, by decide⟩

/-- Witness for the inclusive-scan characterisation at `g = 5`,
offsets `[2, 0, 3]` on PE `0`, position `2`. -/
theorem C7_nonunique_inclusive_witness :
    nonUniqueAssigned 5 (fun r => if r = 0 then [2, 0, 3] else []) 0 2 =
      5 + prefSum (fun q => ((fun r => if r = 0 then [2, 0, 3] else []) q).sum) 0 +
        (((fun r => if r = 0 then [2, 0, 3] else []) 0).take 3).sum :=
  C7_nonunique_inclusive (by decide)

end DSS

namespace DSS

/-- `MultiLevelPermutation::apply_` (also reached from
`NonUniquePermutation::apply`): when the root communicator has size 1 it
runs `global_permutation[local_permutation_[i]] = i` for every local `i`
and returns, never calling `compute_indices`; otherwise it runs the
exchange path, abstracted here as `elseResult`. -/
def mlApply (P : Nat) (localPerm : List Nat) (out : Nat → Nat)
    (elseResult : Nat → Nat) : Nat → Nat :=
  if P = 1 then
    (List.range localPerm.length).foldl (fun acc i => upd acc (localPerm.getD i 0) i) out
  else elseResult

theorem foldl_write_get (localPerm : List Nat) (hnd : localPerm.Nodup) :
    ∀ (t : Nat) (out : Nat → Nat), t ≤ localPerm.length →
      ∀ i < t, ((List.range t).foldl
        (fun acc i => upd acc (localPerm.getD i 0) i) out) (localPerm.getD i 0) = i := by
  intro t
  induction t with
  | zero => intro out ht i hi; omega
  | succ t ih =>
    intro out ht i hi
    rw [List.range_succ, List.foldl_append, List.foldl_cons, List.foldl_nil]
    by_cases hit : i = t
    · subst hit
      rw [upd, if_pos rfl]
    · have hi' : i < t := by omega
      have hne : localPerm.getD i 0 ≠ localPerm.getD t 0 := by
        have hilen : i < localPerm.length := by omega
        have htlen : t < localPerm.length := by omega
        have hpw := List.pairwise_iff_getElem.mp hnd
        intro hc
        rcases Nat.lt_or_ge i t with hlt | hge
        · exact hpw i t hilen htlen hlt (by
            rw [← List.getD_eq_getElem localPerm 0 hilen,
              ← List.getD_eq_getElem localPerm 0 htlen, hc])
        · omega
      rw [upd, if_neg hne]
      exact ih out (by omega) i hi'

/-- C10: when the root communicator has size 1, `apply_` ignores the
stored remote data and the `global_index_offset` entirely (the result does
not depend on `elseResult`, which abstracts everything used on the other
branch), and for an injective local permutation it writes
`global_permutation[local_permutation_[i]] = i` for every local `i`. -/
theorem C10_size_one_shortcut (localPerm : List Nat) (out : Nat → Nat)
    (e1 e2 : Nat → Nat) (hnd : localPerm.Nodup) :
    mlApply 1 localPerm out e1 = mlApply 1 localPerm out e2 ∧
    (∀ i < localPerm.length,
      mlApply 1 localPerm out e1 (localPerm.getD i 0) = i) := by
  constructor
  · rw [mlApply, if_pos rfl, mlApply, if_pos rfl]
  · intro i hi
    rw [mlApply, if_pos rfl]
    exact foldl_write_get localPerm hnd localPerm.length out (Nat.le_refl _) i hi

/-- Witness for the size-1 shortcut on `local_permutation_ = [2, 0, 1]`
with two distinct abstractions of the exchange path. -/
theorem C10_size_one_shortcut_witness :
    (mlApply 1 [2, 0, 1] (fun _ => 7) (fun _ => 1) =
      mlApply 1 [2, 0, 1] (fun _ => 7) (fun _ => 2) ∧
    (∀ i < [2, 0, 1].length,
      mlApply 1 [2, 0, 1] (fun _ => 7) (fun _ => 1) ([2, 0, 1].getD i 0) = i)) :=
  C10_size_one_shortcut [2, 0, 1] (fun _ => 7) (fun _ => 1) (fun _ => 2) (by decide)

end DSS

namespace DSS

/-- Modelled from the spec: a byte-lexicographic comparison sort standing
in for `radixsort_CI3` (whose code is not in the sources) and for the
merge step of a locally sorted exchange; insertion of one string into a
sorted run. -/
def insertSorted (x : Str) : List Str → List Str
  | [] => [x]
  | y :: ys => if sCmp x y = .gt then y :: insertSorted x ys else x :: y :: ys

/-- Modelled from the spec: byte-lexicographic sort of a string list. -/
def sortStr (l : List Str) : List Str := l.foldr insertSorted []

theorem insertSorted_perm (x : Str) : ∀ l : List Str, (insertSorted x l).Perm (x :: l) := by
  intro l
  induction l with
  | nil => exact List.Perm.refl _
  | cons y ys ih =>
    show (if sCmp x y = .gt then y :: insertSorted x ys else x :: y :: ys).Perm _
    by_cases h : sCmp x y = .gt
    · rw [if_pos h]
      exact List.Perm.trans (ih.cons y) (List.Perm.swap x y ys)
    · rw [if_neg h]

theorem sortStr_perm (l : List Str) : (sortStr l).Perm l := by
  induction l with
  | nil => exact List.Perm.refl _
  | cons x l ih => exact List.Perm.trans (insertSorted_perm x (sortStr l)) (ih.cons x)

theorem insertSorted_head (x : Str) (l : List Str) :
    (insertSorted x l).head? = some x ∨ (insertSorted x l).head? = l.head? := by
  cases l with
  | nil => left; rfl
  | cons y ys =>
    by_cases hc : sCmp x y = .gt
    · right
      show (if sCmp x y = .gt then y :: insertSorted x ys else x :: y :: ys).head? = _
      rw [if_pos hc]
      rfl
    · left
      show (if sCmp x y = .gt then y :: insertSorted x ys else x :: y :: ys).head? = _
      rw [if_neg hc]
      rfl

theorem insertSorted_chain (x : Str) :
    ∀ l : List Str, l.Chain' sLe → (insertSorted x l).Chain' sLe := by
  intro l
  induction l with
  | nil => intro _; exact List.chain'_singleton x
  | cons y ys ih =>
    intro h
    show (if sCmp x y = .gt then y :: insertSorted x ys else x :: y :: ys).Chain' sLe
    by_cases hc : sCmp x y = .gt
    · rw [if_pos hc]
      have hys := (List.chain'_cons'.mp h).2
      refine List.chain'_cons'.mpr ⟨?_, ih hys⟩
      intro z hz
      have hyx : sLe y x :=
        sLe_of_sLt (show sCmp y x = .lt by rw [sCmp_swap, hc]; rfl)
      rcases insertSorted_head x ys with hh | hh
      · rw [hh] at hz
        simp only [Option.mem_def, Option.some.injEq] at hz
        rw [← hz]
        exact hyx
      · rw [hh] at hz
        exact (List.chain'_cons'.mp h).1 z hz
    · rw [if_neg hc]
      refine List.chain'_cons'.mpr ⟨?_, h⟩
      intro z hz
      simp only [List.head?_cons, Option.mem_def, Option.some.injEq] at hz
      rw [← hz]
      exact hc

theorem sortStr_sorted (l : List Str) : (sortStr l).Chain' sLe := by
  induction l with
  | nil => exact List.chain'_nil
  | cons x l ih => exact insertSorted_chain x (sortStr l) ih

theorem flatMap_congr_mem {α β : Type} (ds : List α) (f g : α → List β)
    (h : ∀ d ∈ ds, f d = g d) : ds.flatMap f = ds.flatMap g := by
  induction ds with
  | nil => rfl
  | cons d ds ih =>
    rw [List.flatMap_cons, List.flatMap_cons, h d (List.mem_cons_self _ _),
      ih (fun d2 hd2 => h d2 (List.mem_cons_of_mem _ hd2))]

theorem flatMap_perm_congr {α β : Type} (ds : List α) (f g : α → List β)
    (h : ∀ d ∈ ds, (f d).Perm (g d)) : (ds.flatMap f).Perm (ds.flatMap g) := by
  induction ds with
  | nil => exact List.Perm.refl _
  | cons d ds ih =>
    rw [List.flatMap_cons, List.flatMap_cons]
    exact List.Perm.append (h d (List.mem_cons_self _ _))
      (ih (fun d2 hd2 => h d2 (List.mem_cons_of_mem _ hd2)))

theorem flatMap_add_perm {α β : Type} (es : List α) (f g : α → List β) :
    (es.flatMap (fun e => f e ++ g e)).Perm (es.flatMap f ++ es.flatMap g) := by
  induction es with
  | nil => simp
  | cons e es ih =>
    rw [List.flatMap_cons, List.flatMap_cons, List.flatMap_cons]
    refine List.Perm.trans (List.Perm.append_left _ ih) ?_
    have h2 : ((g e ++ es.flatMap f) ++ es.flatMap g).Perm
        ((es.flatMap f ++ g e) ++ es.flatMap g) :=
      List.Perm.append_right _ List.perm_append_comm
    have h3 := List.Perm.append_left (f e) h2
    simpa [List.append_assoc] using h3

theorem flatMap_swap_perm {α β γ : Type} (ds : List α) (es : List β) (h : α → β → List γ) :
    (ds.flatMap (fun d => es.flatMap (fun e => h d e))).Perm
      (es.flatMap (fun e => ds.flatMap (fun d => h d e))) := by
  induction ds with
  | nil => simp
  | cons d ds ih =>
    rw [List.flatMap_cons]
    refine List.Perm.trans (List.Perm.append_left _ ih) ?_
    exact (flatMap_add_perm es (fun e => h d e) (fun e => ds.flatMap (fun d2 => h d2 e))).symm

theorem bucket_perm (cls : Str → Nat) :
    ∀ (l : List Str) (ds : List Nat), ds.Nodup → (∀ x ∈ l, cls x ∈ ds) →
      (ds.flatMap (fun d => l.filter (fun x => cls x = d))).Perm l := by
  intro l
  induction l with
  | nil =>
    intro ds hnd hmem
    simp
  | cons a l ih =>
    intro ds hnd hmem
    obtain ⟨ds₁, ds₂, rfl⟩ := List.append_of_mem (hmem a (List.mem_cons_self _ _))
    have hnm := List.nodup_cons.mp (List.nodup_middle.mp hnd)
    have he1 : ds₁.flatMap (fun d => (a :: l).filter (fun x => cls x = d)) =
        ds₁.flatMap (fun d => l.filter (fun x => cls x = d)) := by
      refine flatMap_congr_mem _ _ _ (fun d hd => ?_)
      have hne : ¬ (cls a = d) := fun hc =>
        hnm.1 (List.mem_append.mpr (Or.inl (hc ▸ hd)))
      rw [List.filter_cons, if_neg (by simpa using hne)]
    have he2 : ds₂.flatMap (fun d => (a :: l).filter (fun x => cls x = d)) =
        ds₂.flatMap (fun d => l.filter (fun x => cls x = d)) := by
      refine flatMap_congr_mem _ _ _ (fun d hd => ?_)
      have hne : ¬ (cls a = d) := fun hc =>
        hnm.1 (List.mem_append.mpr (Or.inr (hc ▸ hd)))
      rw [List.filter_cons, if_neg (by simpa using hne)]
    rw [List.flatMap_append, List.flatMap_cons, he1, he2,
      List.filter_cons, if_pos (by simp)]
    refine List.Perm.trans List.perm_middle ?_
    refine List.Perm.cons a ?_
    have hrest := ih (ds₁ ++ cls a :: ds₂) hnd
      (fun x hx => hmem x (List.mem_cons_of_mem _ hx))
    rwa [List.flatMap_append, List.flatMap_cons] at hrest

theorem chain_flatMap_blocks {f : Nat → List Str} :
    ∀ ds : List Nat, (∀ d ∈ ds, (f d).Chain' sLe) →
      ds.Pairwise (fun d d2 => ∀ x ∈ f d, ∀ y ∈ f d2, sLe x y) →
      (ds.flatMap f).Chain' sLe := by
  intro ds
  induction ds with
  | nil => intro _ _; exact List.chain'_nil
  | cons d ds ih =>
    intro hsort hpw
    rw [List.flatMap_cons]
    have hpw2 := List.pairwise_cons.mp hpw
    refine List.Chain'.append (hsort d (List.mem_cons_self _ _))
      (ih (fun d2 hd2 => hsort d2 (List.mem_cons_of_mem _ hd2)) hpw2.2) ?_
    intro x hx y hy
    have hxf : x ∈ f d := List.mem_of_mem_getLast? hx
    obtain ⟨d2, hd2, hyd⟩ := List.mem_flatMap.mp (List.mem_of_mem_head? hy)
    exact hpw2.1 d2 hd2 x hxf y hyd

/-- Modelled from the spec: one round of `DistributedMergeSort::sort`.
`radixsort_CI3` and the partition policies are not in the sources, so the
local sort is modelled as a byte-lex comparison sort and the
splitter-based exchange by a classifier `cls` assigning each string a
destination PE: PE `d` receives, from every PE `r` in rank order, the
strings of `r`'s locally sorted run classified to `d`, and merges them
into one sorted run (merging modelled as sorting, which agrees with a
k-way merge on sorted inputs). -/
def dmsRound (P : Nat) (cls : Str → Nat) (inputs : Nat → List Str) (d : Nat) : List Str :=
  sortStr ((List.range P).flatMap (fun r => (sortStr (inputs r)).filter (fun x => cls x = d)))

theorem mem_dmsRound {P : Nat} {cls : Str → Nat} {inputs : Nat → List Str} {d : Nat}
    {x : Str} (hx : x ∈ dmsRound P cls inputs d) : cls x = d := by
  have h1 := (sortStr_perm _).mem_iff.mp hx
  obtain ⟨r, hr, hxr⟩ := List.mem_flatMap.mp h1
  exact of_decide_eq_true (List.mem_filter.mp hxr).2

/-- C1: in the model of `DistributedMergeSort::sort` with a monotone
splitter classifier whose destinations lie in `[0, P)`, after the round
every PE's slice is sorted, the concatenation of the slices in rank order
is a non-decreasing byte-lexicographic sequence, and that concatenation is
a permutation of the concatenated original inputs. -/
theorem C1_distributed_sort (P : Nat) (cls : Str → Nat) (inputs : Nat → List Str)
    (hcls : ∀ x y, sLe x y → cls x ≤ cls y)
    (hran : ∀ r, r < P → ∀ x ∈ inputs r, cls x < P) :
    (∀ d, (dmsRound P cls inputs d).Chain' sLe) ∧
    ((List.range P).flatMap (dmsRound P cls inputs)).Chain' sLe ∧
    ((List.range P).flatMap (dmsRound P cls inputs)).Perm
      ((List.range P).flatMap inputs) := by
  refine ⟨fun d => sortStr_sorted _, ?_, ?_⟩
  · refine chain_flatMap_blocks (List.range P) (fun d _ => sortStr_sorted _) ?_
    refine List.Pairwise.imp ?_ (List.pairwise_lt_range P)
    intro d d2 hdd x hx y hy
    by_contra hnot
    have hyx : sLt y x := sLt_iff_not_sLe.mpr hnot
    have hle := hcls y x (sLe_of_sLt hyx)
    rw [mem_dmsRound hx, mem_dmsRound hy] at hle
    omega
  · refine List.Perm.trans (flatMap_perm_congr _ _ _ (fun d _ => sortStr_perm _)) ?_
    refine List.Perm.trans (flatMap_swap_perm (List.range P) (List.range P)
      (fun d r => (sortStr (inputs r)).filter (fun x => cls x = d))) ?_
    refine flatMap_perm_congr _ _ _ (fun r hr => ?_)
    refine List.Perm.trans (bucket_perm cls (sortStr (inputs r)) (List.range P)
      (List.nodup_range P) ?_) (sortStr_perm _)
    intro x hx
    rw [List.mem_range]
    exact hran r (List.mem_range.mp hr) x ((sortStr_perm _).mem_iff.mp hx)

/-- Witness for the distributed-sort round: two PEs with inputs
`[[3], [1]]` and `[[2]]` and the splitter classifier at `[2]`. -/
theorem C1_distributed_sort_witness :
    (∀ d, (dmsRound 2 (fun x => if sCmp x [2] = Ordering.lt then 0 else 1)
        (fun r => if r = 0 then [[3], [1]] else [[2]]) d).Chain' sLe) ∧
    ((List.range 2).flatMap (dmsRound 2 (fun x => if sCmp x [2] = Ordering.lt then 0 else 1)
        (fun r => if r = 0 then [[3], [1]] else [[2]]))).Chain' sLe ∧
    ((List.range 2).flatMap (dmsRound 2 (fun x => if sCmp x [2] = Ordering.lt then 0 else 1)
        (fun r => if r = 0 then [[3], [1]] else [[2]]))).Perm
      ((List.range 2).flatMap (fun r => if r = 0 then [[3], [1]] else [[2]])) :=
  C1_distributed_sort 2 (fun x => if sCmp x [2] = Ordering.lt then 0 else 1)
    (fun r => if r = 0 then [[3], [1]] else [[2]])
    (by
      intro x y hxy
      show (if sCmp x [2] = Ordering.lt then 0 else 1) ≤
        (if sCmp y [2] = Ordering.lt then 0 else 1)
      by_cases hx : sCmp x [2] = Ordering.lt
      · rw [if_pos hx]
        exact Nat.zero_le _
      · by_cases hy : sCmp y [2] = Ordering.lt
        · exact absurd (sLt_of_sLe_of_sLt hxy hy) hx
        · rw [if_neg hx, if_neg hy])
    (by
      intro r hr x hx
      show (if sCmp x [2] = Ordering.lt then 0 else 1) < 2
      by_cases hcx : sCmp x [2] = Ordering.lt
      · rw [if_pos hcx]; omega
      · rw [if_neg hcx]; omega)

end DSS

namespace DSS

/-- All global indices a `NonUniquePermutation` writes across PEs
`0..P-1` (PE `r` in rank order contributes its `compute_indices` values). -/
def nonUniqueValues (P g : Nat) (offs : Nat → List Nat) : List Nat :=
  (List.range P).flatMap (fun r => incScan (g + prefSum (fun q => (offs q).sum) r) (offs r))

/-- C3 counterexample: a `NonUniquePermutation` over two PEs holding one
string each with `index_offsets_ = [1]` (all strings distinct, so the
permutation identifies each string exactly once), applied with
`global_index_offset = 0`: the inclusive scan in `compute_indices`
assigns the global indices `[1, 2]`, so the outputs are not the integers
`0..N-1` each once. -/
theorem C3_counterexample_nonunique :
    nonUniqueValues 2 0 (fun _ => [1]) = [1, 2] ∧
    ¬ (nonUniqueValues 2 0 (fun _ => [1])).Perm (List.range 2) := by
  constructor
  · rfl
  · intro h
    have h2 : (2 : Nat) ∈ List.range 2 :=
      h.mem_iff.mp (show (2 : Nat) ∈ nonUniqueValues 2 0 (fun _ => [1]) by decide)
    exact absurd h2 (by decide)

end DSS

namespace DSS

/-- The values `MultiLevelPermutation::apply`'s `compute_indices` hands to
the deepest exchange level on PE `r`: `index_offset + i` for each entry
`i`, where `index_offset` is `global_index_offset` plus the exclusive
cross-PE scan of the per-PE entry counts `szs`. -/
def vals0 (g : Nat) (szs : Nat → Nat) (r : Nat) : List Nat :=
  (List.range (szs r)).map (fun i => g + (prefSum szs r + i))

/-- One exchange level of `MultiLevelPermutation::apply_`: PE `r` scatters
its current value list into `send_buf` grouped by destination
(`dest[offsets[ranks[i]]++] = value_i`, which keeps the original order
inside each destination group), and `alltoallv` delivers to PE `q` the
groups of all senders in rank order. -/
def routeLevel (P : Nat) (rks vals : Nat → List Nat) (q : Nat) : List Nat :=
  (List.range P).flatMap (fun r =>
    (((vals r).zip (rks r)).filter (fun t => t.2 = q)).map (fun t => t.1))

/-- The per-PE value lists after the remaining exchange levels, applied in
the order `apply_` processes them. -/
def mlRecvAux (P : Nat) : List (Nat → List Nat) → (Nat → List Nat) → (Nat → List Nat)
  | [], vals => vals
  | rks :: rest, vals => mlRecvAux P rest (routeLevel P rks vals)

/-- Level consistency along the run: at each level every PE's stored rank
list has one entry per held value (`assert_equal(recv_buf.size(),
ranks.size())`) and every destination rank is a valid PE. -/
def LevelsOK (P : Nat) : List (Nat → List Nat) → (Nat → List Nat) → Prop
  | [], _ => True
  | rks :: rest, vals =>
      (∀ r < P, (rks r).length = (vals r).length) ∧
      (∀ r < P, ∀ k ∈ rks r, k < P) ∧
      LevelsOK P rest (routeLevel P rks vals)

/-- The final `recv_buf` of `MultiLevelPermutation::apply_` on each PE:
the `compute_indices` values routed through the deepest level `rks0` and
then through the remaining `levels`. -/
def mlRecv (P g : Nat) (rks0 : Nat → List Nat) (levels : List (Nat → List Nat)) :
    Nat → List Nat :=
  mlRecvAux P levels (routeLevel P rks0 (vals0 g (fun r => (rks0 r).length)))

/-- The write events of `apply_`'s final loop
(`global_permutation[local_permutation_[i++]] = global_index` over
`recv_buf`) across all PEs: slot `(q, local_permutation_[i])` receives the
`i`-th received value on PE `q`. -/
def mlWrites (P : Nat) (localPerm recvs : Nat → List Nat) :
    List ((Nat × Nat) × Nat) :=
  (List.range P).flatMap (fun q =>
    ((localPerm q).zip (recvs q)).map (fun t => ((q, t.1), t.2)))

theorem zip_map_fst {α β : Type} : ∀ (l : List α) (r : List β), l.length = r.length →
    (l.zip r).map (fun t => t.1) = l := by
  intro l
  induction l with
  | nil => intro r h; rfl
  | cons a l ih =>
    intro r h
    cases r with
    | nil => simp at h
    | cons b r =>
      simp only [List.zip_cons_cons, List.map_cons]
      rw [ih r (by simpa using h)]

theorem zip_map_snd {α β : Type} : ∀ (l : List α) (r : List β), l.length = r.length →
    (l.zip r).map (fun t => t.2) = r := by
  intro l
  induction l with
  | nil =>
    intro r h
    cases r with
    | nil => rfl
    | cons b r => simp at h
  | cons a l ih =>
    intro r h
    cases r with
    | nil => simp at h
    | cons b r =>
      simp only [List.zip_cons_cons, List.map_cons]
      rw [ih r (by simpa using h)]

theorem flatMap_map_comm {α β γ : Type} (ds : List α) (f : α → List β) (g : β → γ) :
    ds.flatMap (fun d => (f d).map g) = (ds.flatMap f).map g := by
  induction ds with
  | nil => rfl
  | cons d ds ih => rw [List.flatMap_cons, List.flatMap_cons, List.map_append, ih]

theorem bucketPermGen {α : Type} (cls : α → Nat) :
    ∀ (l : List α) (ds : List Nat), ds.Nodup → (∀ x ∈ l, cls x ∈ ds) →
      (ds.flatMap (fun d => l.filter (fun x => cls x = d))).Perm l := by
  intro l
  induction l with
  | nil =>
    intro ds hnd hmem
    simp
  | cons a l ih =>
    intro ds hnd hmem
    obtain ⟨ds₁, ds₂, rfl⟩ := List.append_of_mem (hmem a (List.mem_cons_self _ _))
    have hnm := List.nodup_cons.mp (List.nodup_middle.mp hnd)
    have he1 : ds₁.flatMap (fun d => (a :: l).filter (fun x => cls x = d)) =
        ds₁.flatMap (fun d => l.filter (fun x => cls x = d)) := by
      refine flatMap_congr_mem _ _ _ (fun d hd => ?_)
      have hne : ¬ (cls a = d) := fun hc =>
        hnm.1 (List.mem_append.mpr (Or.inl (hc ▸ hd)))
      rw [List.filter_cons, if_neg (by simpa using hne)]
    have he2 : ds₂.flatMap (fun d => (a :: l).filter (fun x => cls x = d)) =
        ds₂.flatMap (fun d => l.filter (fun x => cls x = d)) := by
      refine flatMap_congr_mem _ _ _ (fun d hd => ?_)
      have hne : ¬ (cls a = d) := fun hc =>
        hnm.1 (List.mem_append.mpr (Or.inr (hc ▸ hd)))
      rw [List.filter_cons, if_neg (by simpa using hne)]
    rw [List.flatMap_append, List.flatMap_cons, he1, he2,
      List.filter_cons, if_pos (by simp)]
    refine List.Perm.trans List.perm_middle ?_
    refine List.Perm.cons a ?_
    have hrest := ih (ds₁ ++ cls a :: ds₂) hnd
      (fun x hx => hmem x (List.mem_cons_of_mem _ hx))
    rwa [List.flatMap_append, List.flatMap_cons] at hrest

theorem routeLevel_perm (P : Nat) (rks vals : Nat → List Nat)
    (hlen : ∀ r < P, (rks r).length = (vals r).length)
    (hran : ∀ r < P, ∀ k ∈ rks r, k < P) :
    ((List.range P).flatMap (routeLevel P rks vals)).Perm
      ((List.range P).flatMap vals) := by
  show ((List.range P).flatMap (fun q => (List.range P).flatMap (fun r =>
    (((vals r).zip (rks r)).filter (fun t => t.2 = q)).map (fun t => t.1)))).Perm
    ((List.range P).flatMap vals)
  refine List.Perm.trans (flatMap_swap_perm (List.range P) (List.range P)
    (fun q r => (((vals r).zip (rks r)).filter (fun t => t.2 = q)).map (fun t => t.1))) ?_
  refine flatMap_perm_congr _ _ _ (fun r hr => ?_)
  rw [flatMap_map_comm]
  refine List.Perm.trans
    (List.Perm.map _ (bucketPermGen (fun t => t.2) ((vals r).zip (rks r))
      (List.range P) (List.nodup_range P) ?_)) ?_
  · intro t ht
    rw [List.mem_range]
    exact hran r (List.mem_range.mp hr) t.2 (List.of_mem_zip ht).2
  · rw [zip_map_fst _ _ ((hlen r (List.mem_range.mp hr)).symm ▸ rfl)]

theorem mlRecvAux_perm (P : Nat) : ∀ (levels : List (Nat → List Nat)) (vals : Nat → List Nat),
    LevelsOK P levels vals →
    ((List.range P).flatMap (mlRecvAux P levels vals)).Perm
      ((List.range P).flatMap vals) := by
  intro levels
  induction levels with
  | nil => intro vals _; exact List.Perm.refl _
  | cons rks rest ih =>
    intro vals hok
    obtain ⟨h1, h2, h3⟩ := hok
    exact List.Perm.trans (ih (routeLevel P rks vals) h3)
      (routeLevel_perm P rks vals h1 h2)

theorem vals0_concat (g : Nat) (szs : Nat → Nat) :
    ∀ P, (List.range P).flatMap (vals0 g szs) =
      (List.range (prefSum szs P)).map (fun i => g + i) := by
  intro P
  induction P with
  | zero => rfl
  | succ P ih =>
    rw [List.range_succ, List.flatMap_append, ih, prefSum, List.range_add,
      List.map_append, List.map_map]
    congr 1
    rw [List.flatMap_cons, List.flatMap_nil, List.append_nil]
    rfl

theorem mlWrites_values (P : Nat) (localPerm recvs : Nat → List Nat)
    (hlen : ∀ q < P, (localPerm q).length = (recvs q).length) :
    (mlWrites P localPerm recvs).map (fun t => t.2) =
      (List.range P).flatMap recvs := by
  rw [mlWrites, ← flatMap_map_comm]
  refine flatMap_congr_mem _ _ _ (fun q hq => ?_)
  rw [List.map_map]
  show ((localPerm q).zip (recvs q)).map (fun t => t.2) = recvs q
  exact zip_map_snd _ _ (hlen q (List.mem_range.mp hq))

/-- C3: bijectivity of `apply(out, g, comms)` for the unique-permutation
classes. For `SimplePermutation` with pairwise-distinct `(rank, index)`
target slots, the values written across all PEs are exactly
`g .. g+N-1` in order and each slot receives its own pair's value. For
`MultiLevelPermutation` (the general path of `apply_` with the public
`apply`'s `compute_indices`): with valid destination ranks at the deepest
level, level-consistent rank lists, and `recv_buf` length agreeing with
`local_permutation_`, the values written across all PEs are a permutation
of exactly `g .. g+N-1` (each occurring once), and with pairwise-distinct
`(PE, local index)` target slots each slot receives exactly its pair's
value. With `g = 0` both fill the outputs with exactly `0..N-1`. -/
theorem C3_apply_bijective
    (P g : Nat) (ranks strs : Nat → List Nat) (out : Nat × Nat → Nat)
    (localPerm rks0 : Nat → List Nat) (levels : List (Nat → List Nat))
    (mout : Nat × Nat → Nat)
    (huniq : ((simpleWrites P g ranks strs).map (fun t => t.1)).Nodup)
    (hran0 : ∀ r < P, ∀ k ∈ rks0 r, k < P)
    (hlv : LevelsOK P levels (routeLevel P rks0 (vals0 g (fun r => (rks0 r).length))))
    (hlen : ∀ q < P, (localPerm q).length = (mlRecv P g rks0 levels q).length)
    (hmuniq : ((mlWrites P localPerm (mlRecv P g rks0 levels)).map (fun t => t.1)).Nodup) :
    ((simpleWrites P g ranks strs).map (fun t => t.2) =
      (List.range (prefSum (fun q => (strs q).length) P)).map (fun i => g + i) ∧
    (∀ w ∈ simpleWrites P g ranks strs,
      applyWrites (simpleWrites P g ranks strs) out w.1 = w.2)) ∧
    (((mlWrites P localPerm (mlRecv P g rks0 levels)).map (fun t => t.2)).Perm
      ((List.range (prefSum (fun r => (rks0 r).length) P)).map (fun i => g + i)) ∧
    (∀ w ∈ mlWrites P localPerm (mlRecv P g rks0 levels),
      applyWrites (mlWrites P localPerm (mlRecv P g rks0 levels)) mout w.1 = w.2)) := by
  refine ⟨⟨simpleWrites_values P g ranks strs,
    fun w hw => applyWrites_getD _ out huniq w hw⟩, ?_,
    fun w hw => applyWrites_getD _ mout hmuniq w hw⟩
  rw [mlWrites_values P localPerm _ hlen]
  refine List.Perm.trans (mlRecvAux_perm P levels _ hlv) ?_
  refine List.Perm.trans (routeLevel_perm P rks0 (vals0 g (fun r => (rks0 r).length))
    (fun r _ => by simp [vals0]) hran0) ?_
  rw [vals0_concat]

/-- Witness for the bijectivity theorem: two PEs; the simple permutation
holds one string each with crossing destinations, and the multi-level
permutation holds one string each, exchanged in one level with crossing
destinations and identity local permutations. -/
theorem C3_apply_bijective_witness :
    ((simpleWrites 2 0 (fun r => if r = 0 then [1] else [0])
        (fun _ => [0])).map (fun t => t.2) =
      (List.range (prefSum (fun q => ((fun _ => ([0] : List Nat)) q).length) 2)).map
        (fun i => 0 + i) ∧
    (∀ w ∈ simpleWrites 2 0 (fun r => if r = 0 then [1] else [0]) (fun _ => [0]),
      applyWrites (simpleWrites 2 0 (fun r => if r = 0 then [1] else [0])
          (fun _ => [0])) (fun _ => 0) w.1 = w.2)) ∧
    (((mlWrites 2 (fun _ => [0])
        (mlRecv 2 0 (fun r => if r = 0 then [1] else [0]) [])).map (fun t => t.2)).Perm
      ((List.range (prefSum
        (fun r => ((fun r => if r = 0 then [1] else ([0] : List Nat)) r).length) 2)).map
        (fun i => 0 + i)) ∧
    (∀ w ∈ mlWrites 2 (fun _ => [0])
        (mlRecv 2 0 (fun r => if r = 0 then [1] else [0]) []),
      applyWrites (mlWrites 2 (fun _ => [0])
          (mlRecv 2 0 (fun r => if r = 0 then [1] else [0]) [])) (fun _ => 0) w.1 = w.2)) :=
  C3_apply_bijective 2 0 (fun r => if r = 0 then [1] else [0]) (fun _ => [0])
    (fun _ => 0) (fun _ => [0]) (fun r => if r = 0 then [1] else [0]) [] (fun _ => 0)
    (by decide) (by decide) True.intro (by decide) (by decide)

end DSS
